import Mathlib

/-!
Verification of the Merkle Patricia Trie engine of the rust-ethereum
repository: nibble codec, node model with RLP encoding, the recursive
get/insert/delete/build algorithms, the change-set layer, the in-memory
trie, the iterator, and the reference-counted collection.

Byte strings are modelled as `List Nat`, nibbles as `Fin 16`.  The RLP
codec and the Keccak-256 digest are external collaborators of the
repository; RLP values are modelled structurally (`RlpItem`) together
with their standard serialization (used for lengths and as digest
input), and the digest is a parameter `H : List Nat → List Nat` of every
definition that hashes.
-/

set_option maxHeartbeats 1000000

namespace MPT

/-- Byte strings. -/
abbrev Bytes := List Nat

/-- A nibble: a 16-variant value (`Nibble` enum, `merkle/nibble.rs`). -/
abbrev Nibble := Fin 16

/-- A nibble vector (`NibbleVec`). -/
abbrev NibbleVec := List Nibble

theorem land15_lt (b : Nat) : b &&& 0x0f < 16 :=
  Nat.lt_succ_of_le (Nat.and_le_right)

theorem hi_lt (b : Nat) : (b &&& 0xf0) >>> 4 < 16 := by
  have h1 : b &&& 0xf0 ≤ 0xf0 := Nat.and_le_right
  have h2 : (b &&& 0xf0) >>> 4 ≤ 0xf0 >>> 4 := by
    simp only [Nat.shiftRight_eq_div_pow]
    exact Nat.div_le_div_right h1
  exact Nat.lt_succ_of_le h2

/-- High nibble of a byte: `(b & 0xf0) >> 4`. -/
def byteHi (b : Nat) : Nibble := ⟨(b &&& 0xf0) >>> 4, hi_lt b⟩

/-- Low nibble of a byte: `b & 0x0f`. -/
def byteLo (b : Nat) : Nibble := ⟨b &&& 0x0f, land15_lt b⟩

namespace nibble

/-- `nibble::from_key`: split each byte into two nibbles, most significant
first. -/
def from_key : Bytes → NibbleVec
  | [] => []
  | b :: rest => byteHi b :: byteLo b :: from_key rest

/-- `nibble::into_key`: pack nibbles two per byte; a trailing odd nibble
occupies the high half of a final byte. -/
def into_key : NibbleVec → Bytes
  | a :: b :: rest => ((a : Nat) <<< 4 ||| (b : Nat)) :: into_key rest
  | [a] => [(a : Nat) <<< 4]
  | [] => []

/-- `NibbleType`: leaf or extension flag of a hex-prefix encoded path. -/
inductive NibbleType where
  | leaf
  | extension
  deriving DecidableEq, Repr

/-- Pack a nibble sequence two per byte (the loop bodies of
`nibble::encode`). -/
def packPairs : NibbleVec → Bytes
  | a :: b :: rest => ((a : Nat) <<< 4 ||| (b : Nat)) :: packPairs rest
  | _ => []

/-- `nibble::encode`: hex-prefix encode a nibble path with its
leaf/extension flag into a byte string. -/
def encode (vec : NibbleVec) (typ : NibbleType) : Bytes :=
  let ret : Bytes :=
    if vec.length % 2 = 0 then
      0x00 :: packPairs vec
    else
      match vec with
      | [] => [0x10]
      | n :: rest => (0x10 ||| (n : Nat)) :: packPairs rest
  match ret with
  | r0 :: rtl => (r0 ||| (match typ with | .leaf => 0x20 | .extension => 0x00)) :: rtl
  | [] => []

/-- Unpack every byte of a string into its two nibbles (the loop of
`nibble::decode`). -/
def unpackBytes : Bytes → NibbleVec
  | [] => []
  | b :: rest => byteHi b :: byteLo b :: unpackBytes rest

/-- `nibble::decode`: decode a hex-prefix encoded byte string into a
nibble path and its type.  Indexing `data[0]` panics on an empty string,
modelled by `none`. -/
def decode : Bytes → Option (NibbleVec × NibbleType)
  | [] => none
  | d0 :: rest =>
    let start_odd := d0 &&& 0b00010000 = 0b00010000
    let is_leaf := d0 &&& 0b00100000 = 0b00100000
    let vec := if start_odd then byteLo d0 :: unpackBytes rest else unpackBytes rest
    some (vec, if is_leaf then NibbleType.leaf else NibbleType.extension)

/-- `nibble::common`: longest common prefix of two nibble paths. -/
def common : NibbleVec → NibbleVec → NibbleVec
  | a :: as_, b :: bs => if a = b then a :: common as_ bs else []
  | _, _ => []

/-- `nibble::common_with_sub`: common prefix plus both remainders. -/
def common_with_sub (a b : NibbleVec) : NibbleVec × NibbleVec × NibbleVec :=
  let c := common a b
  (c, a.drop c.length, b.drop c.length)

/-- `nibble::common_all`: longest common prefix of a set of paths. -/
def common_all : List NibbleVec → NibbleVec
  | [] => []
  | [first] => first
  | first :: second :: rest => rest.foldl common (common first second)

end nibble

/-- A structural RLP value: a byte string or a list of values (the view the
external `rlp` crate gives of serialized data). -/
inductive RlpItem where
  | str (s : Bytes)
  | list (items : List RlpItem)
  deriving Repr

mutual

/-- Boolean equality on RLP items. -/
def RlpItem.beq : RlpItem → RlpItem → Bool
  | .str a, .str b => a = b
  | .list as_, .list bs => RlpItem.beqList as_ bs
  | _, _ => false

/-- Boolean equality on lists of RLP items. -/
def RlpItem.beqList : List RlpItem → List RlpItem → Bool
  | [], [] => true
  | a :: as_, b :: bs => RlpItem.beq a b && RlpItem.beqList as_ bs
  | _, _ => false

end

mutual

theorem RlpItem.beq_iff : ∀ a b : RlpItem, RlpItem.beq a b = true ↔ a = b
  | .str a, .str b => by simp [RlpItem.beq]
  | .str a, .list bs => by simp [RlpItem.beq]
  | .list as_, .str b => by simp [RlpItem.beq]
  | .list as_, .list bs => by
      simp only [RlpItem.beq, RlpItem.list.injEq]
      exact RlpItem.beqList_iff as_ bs

theorem RlpItem.beqList_iff : ∀ as_ bs : List RlpItem,
    RlpItem.beqList as_ bs = true ↔ as_ = bs
  | [], [] => by simp [RlpItem.beqList]
  | [], _ :: _ => by simp [RlpItem.beqList]
  | _ :: _, [] => by simp [RlpItem.beqList]
  | a :: as_, b :: bs => by
      simp only [RlpItem.beqList, Bool.and_eq_true, List.cons.injEq]
      exact and_congr (RlpItem.beq_iff a b) (RlpItem.beqList_iff as_ bs)

end

instance : DecidableEq RlpItem := fun a b =>
  decidable_of_iff (RlpItem.beq a b = true) (RlpItem.beq_iff a b)

/-- Big-endian digits with explicit fuel (the fuel never runs out when it
is at least the number, since dividing by 256 strictly decreases it). -/
def beBytesAux : Nat → Nat → Bytes
  | _, 0 => []
  | 0, _ + 1 => []
  | f + 1, n + 1 => beBytesAux f ((n + 1) / 256) ++ [(n + 1) % 256]

/-- Big-endian byte representation of a natural number (no leading
zeros). -/
def beBytes (n : Nat) : Bytes := beBytesAux n n

/-- RLP length header with the given base offset (0x80 for strings, 0xc0
for lists). -/
def rlpLenHeader (offset len : Nat) : Bytes :=
  if len ≤ 55 then [offset + len]
  else (offset + 55 + (beBytes len).length) :: beBytes len

/-- Standard RLP serialization of a byte string. -/
def serStr (s : Bytes) : Bytes :=
  match s with
  | [b] => if b < 0x80 then [b] else [0x81, b]
  | _ => rlpLenHeader 0x80 s.length ++ s

mutual

/-- Standard RLP serialization of an item. -/
def rlpSerialize : RlpItem → Bytes
  | .str s => serStr s
  | .list items => rlpLenHeader 0xc0 (rlpPayload items).length ++ rlpPayload items

/-- Concatenated serialization of a list of items (the payload of a list). -/
def rlpPayload : List RlpItem → Bytes
  | [] => []
  | i :: rest => rlpSerialize i ++ rlpPayload rest

end

/-- The payload bytes an `Rlp` view reports via `data()`: the bytes of
a string, or the concatenated payload of a list. -/
def RlpItem.data : RlpItem → Bytes
  | .str s => s
  | .list items => rlpPayload items

/-- `rlp.is_empty()`: the view has no payload. -/
def RlpItem.isEmpty (it : RlpItem) : Bool := it.data.isEmpty

/-- `rlp.size()`: the payload length of the view. -/
def RlpItem.size (it : RlpItem) : Nat := it.data.length

mutual

/-- `MerkleNode` (`merkle/node.rs`): leaf, extension or branch node. -/
inductive MerkleNode where
  | leaf (path : NibbleVec) (value : Bytes)
  | ext (path : NibbleVec) (child : MerkleValue)
  | branch (children : List MerkleValue) (value : Option Bytes)

/-- `MerkleValue` (`merkle/node.rs`): a child reference — absent, embedded
inline, or by content hash. -/
inductive MerkleValue where
  | empty
  | full (node : MerkleNode)
  | hash (h : Bytes)

end

mutual

def MerkleNode.beq : MerkleNode → MerkleNode → Bool
  | .leaf p v, .leaf p' v' => p = p' ∧ v = v'
  | .ext p c, .ext p' c' => decide (p = p') && MerkleValue.beq c c'
  | .branch cs v, .branch cs' v' => MerkleValue.beqList cs cs' && decide (v = v')
  | _, _ => false

def MerkleValue.beq : MerkleValue → MerkleValue → Bool
  | .empty, .empty => true
  | .full n, .full n' => MerkleNode.beq n n'
  | .hash h, .hash h' => h = h'
  | _, _ => false

def MerkleValue.beqList : List MerkleValue → List MerkleValue → Bool
  | [], [] => true
  | c :: cs, c' :: cs' => MerkleValue.beq c c' && MerkleValue.beqList cs cs'
  | _, _ => false

end

mutual

theorem MerkleNode.beq_iff_node : ∀ a b : MerkleNode, MerkleNode.beq a b = true ↔ a = b
  | .leaf p v, .leaf p' v' => by simp [MerkleNode.beq]
  | .leaf _ _, .ext _ _ => by simp [MerkleNode.beq]
  | .leaf _ _, .branch _ _ => by simp [MerkleNode.beq]
  | .ext _ _, .leaf _ _ => by simp [MerkleNode.beq]
  | .ext p c, .ext p' c' => by
      simp only [MerkleNode.beq, Bool.and_eq_true, decide_eq_true_eq,
        MerkleNode.ext.injEq]
      exact and_congr Iff.rfl (MerkleValue.beq_iff_val c c')
  | .ext _ _, .branch _ _ => by simp [MerkleNode.beq]
  | .branch _ _, .leaf _ _ => by simp [MerkleNode.beq]
  | .branch _ _, .ext _ _ => by simp [MerkleNode.beq]
  | .branch cs v, .branch cs' v' => by
      simp only [MerkleNode.beq, Bool.and_eq_true, decide_eq_true_eq,
        MerkleNode.branch.injEq]
      exact and_congr (MerkleValue.beqList_iff_val cs cs') Iff.rfl

theorem MerkleValue.beq_iff_val : ∀ a b : MerkleValue, MerkleValue.beq a b = true ↔ a = b
  | .empty, .empty => by simp [MerkleValue.beq]
  | .empty, .full _ => by simp [MerkleValue.beq]
  | .empty, .hash _ => by simp [MerkleValue.beq]
  | .full _, .empty => by simp [MerkleValue.beq]
  | .full n, .full n' => by
      simp only [MerkleValue.beq, MerkleValue.full.injEq]
      exact MerkleNode.beq_iff_node n n'
  | .full _, .hash _ => by simp [MerkleValue.beq]
  | .hash _, .empty => by simp [MerkleValue.beq]
  | .hash _, .full _ => by simp [MerkleValue.beq]
  | .hash h, .hash h' => by simp [MerkleValue.beq]

theorem MerkleValue.beqList_iff_val : ∀ as_ bs : List MerkleValue,
    MerkleValue.beqList as_ bs = true ↔ as_ = bs
  | [], [] => by simp [MerkleValue.beqList]
  | [], _ :: _ => by simp [MerkleValue.beqList]
  | _ :: _, [] => by simp [MerkleValue.beqList]
  | a :: as_, b :: bs => by
      simp only [MerkleValue.beqList, Bool.and_eq_true, List.cons.injEq]
      exact and_congr (MerkleValue.beq_iff_val a b) (MerkleValue.beqList_iff_val as_ bs)

end

instance : DecidableEq MerkleNode := fun a b =>
  decidable_of_iff (MerkleNode.beq a b = true) (MerkleNode.beq_iff_node a b)

instance : DecidableEq MerkleValue := fun a b =>
  decidable_of_iff (MerkleValue.beq a b = true) (MerkleValue.beq_iff_val a b)

/-- The 16-element all-`Empty` children array (`empty_nodes!`). -/
def empty_nodes : List MerkleValue := List.replicate 16 .empty

mutual

/-- `MerkleNode::rlp_append`: the RLP value a node encodes to.  A
leaf/extension is a 2-list of the hex-prefix path and the value/child; a
branch is a 17-list of its children and its optional value (empty-string
sentinel for `None`). -/
def MerkleNode.toItem : MerkleNode → RlpItem
  | .leaf path value => .list [.str (nibble.encode path .leaf), .str value]
  | .ext path child => .list [.str (nibble.encode path .extension), child.toItem]
  | .branch children value =>
      .list (MerkleValue.listToItems children ++
        [match value with | some v => RlpItem.str v | none => RlpItem.str []])

/-- `MerkleValue::rlp_append`: `Empty` is the empty string, `Full` embeds
the node's own RLP value, `Hash` is the raw 32-byte hash string. -/
def MerkleValue.toItem : MerkleValue → RlpItem
  | .empty => .str []
  | .full n => n.toItem
  | .hash h => .str h

def MerkleValue.listToItems : List MerkleValue → List RlpItem
  | [] => []
  | c :: rest => c.toItem :: MerkleValue.listToItems rest

end

/-- Serialized bytes of a node (`rlp::encode(node)`). -/
def MerkleNode.encBytes (n : MerkleNode) : Bytes := rlpSerialize n.toItem

/-- `MerkleNode::inlinable`: the RLP encoding of the node is shorter than
32 bytes. -/
def MerkleNode.inlinable (n : MerkleNode) : Bool := n.encBytes.length < 32

/- Recursion fuel.  The algorithms follow hash references through the
store, so their recursion is not structurally bounded; every recursive
definition consumes one unit of fuel (a plain `Nat`) per call and returns
`none` when the fuel runs out.  Theorems quantify over any sufficiently
large fuel. -/

mutual

/-- `MerkleNode::decode`: decode an RLP value into a node.  A 2-list is a
leaf or extension by the hex-prefix flag; a 17-list is a branch (16
children decoded in order, plus the optional value with empty-data
sentinel).  Other shapes panic (modelled as `none`, as is exhausted
fuel). -/
def MerkleNode.decode : Nat → RlpItem → Option MerkleNode
  | 0, _ => none
  | fuel + 1, .list [a, b] =>
    match nibble.decode a.data with
    | none => none
    | some (nib, .leaf) => some (.leaf nib b.data)
    | some (nib, .extension) =>
      match MerkleValue.decode fuel b with
      | none => none
      | some c => some (.ext nib c)
  | fuel + 1, .list xs =>
    if xs.length = 17 then
      match MerkleValue.decodeCount fuel 16 xs with
      | none => none
      | some children =>
        let v := xs.getD 16 (.str [])
        some (.branch children (if v.isEmpty then none else some v.data))
    else none
  | _ + 1, .str _ => none

/-- Decode the first `n` items of a list as merkle values (the `0..16`
children loop of `MerkleNode::decode`). -/
def MerkleValue.decodeCount : Nat → Nat → List RlpItem → Option (List MerkleValue)
  | 0, _, _ => none
  | _ + 1, 0, _ => some []
  | _ + 1, _ + 1, [] => none
  | fuel + 1, n + 1, x :: rest =>
    match MerkleValue.decode fuel x with
    | none => none
    | some c =>
      match MerkleValue.decodeCount fuel n rest with
      | none => none
      | some cs => some (c :: cs)

/-- `MerkleValue::decode`: empty payload is `Empty`; a 32-byte string is a
`Hash`; a payload shorter than 32 bytes is an inlined `Full` node; anything
else panics (modelled as `none`). -/
def MerkleValue.decode : Nat → RlpItem → Option MerkleValue
  | 0, _ => none
  | fuel + 1, it =>
    if it.isEmpty then some .empty
    else if it.size = 32 then
      match it with
      | .str s => some (.hash s)
      | .list _ => none
    else if it.size < 32 then
      match MerkleNode.decode fuel it with
      | none => none
      | some n => some (.full n)
    else none

end

mutual

/-- Fuel bound sufficient to decode the encoding of a node. -/
def MerkleNode.fbound : MerkleNode → Nat
  | .leaf _ _ => 2
  | .ext _ c => 2 + c.fbound
  | .branch cs _ => 2 + MerkleValue.fboundList cs

def MerkleValue.fbound : MerkleValue → Nat
  | .empty => 2
  | .hash _ => 2
  | .full n => 2 + n.fbound

def MerkleValue.fboundList : List MerkleValue → Nat
  | [] => 2
  | c :: cs => 2 + c.fbound + MerkleValue.fboundList cs

end

theorem byteHiLo_pack (a b : Nibble) :
    byteHi ((a : Nat) <<< 4 ||| (b : Nat)) = a ∧
      byteLo ((a : Nat) <<< 4 ||| (b : Nat)) = b := by
  revert a b; decide

theorem unpackBytes_packPairs : ∀ v : NibbleVec, v.length % 2 = 0 →
    nibble.unpackBytes (nibble.packPairs v) = v
  | [], _ => rfl
  | [a], h => by simp at h
  | a :: b :: rest, h => by
    have hr : rest.length % 2 = 0 := by
      simp only [List.length_cons] at h
      omega
    simp only [nibble.packPairs, nibble.unpackBytes,
      unpackBytes_packPairs rest hr, (byteHiLo_pack a b).1, (byteHiLo_pack a b).2]

/-- Hex-prefix round-trip: decoding an encoded nibble path restores the
path and its type. -/
theorem nibble_decode_encode (vec : NibbleVec) (typ : nibble.NibbleType) :
    nibble.decode (nibble.encode vec typ) = some (vec, typ) := by
  have hlo1 : ∀ n : Nibble, byteLo ((0x10 ||| (n : Nat)) ||| 0x20) = n := by decide
  have hlo2 : ∀ n : Nibble, byteLo ((0x10 ||| (n : Nat)) ||| 0x00) = n := by decide
  have hso1 : ∀ n : Nibble,
      ((0x10 ||| (n : Nat)) ||| 0x20) &&& 0b00010000 = 0b00010000 := by decide
  have hso2 : ∀ n : Nibble,
      ((0x10 ||| (n : Nat)) ||| 0x00) &&& 0b00010000 = 0b00010000 := by decide
  have hil1 : ∀ n : Nibble,
      ((0x10 ||| (n : Nat)) ||| 0x20) &&& 0b00100000 = 0b00100000 := by decide
  have hil2 : ∀ n : Nibble,
      ¬(((0x10 ||| (n : Nat)) ||| 0x00) &&& 0b00100000 = 0b00100000) := by decide
  by_cases h : vec.length % 2 = 0
  · cases typ
    · simp only [nibble.encode, h, if_true]
      simp only [nibble.decode]
      rw [if_neg (by decide), if_pos (by decide), unpackBytes_packPairs vec h]
    · simp only [nibble.encode, h, if_true]
      simp only [nibble.decode]
      rw [if_neg (by decide), if_neg (by decide), unpackBytes_packPairs vec h]
  · rcases vec with - | ⟨n, rest⟩
    · simp at h
    · have hr : rest.length % 2 = 0 := by
        simp only [List.length_cons] at h; omega
      cases typ
      · simp only [nibble.encode]
        rw [if_neg h]
        simp only [nibble.decode]
        rw [if_pos (hso1 n), if_pos (hil1 n), hlo1 n, unpackBytes_packPairs rest hr]
      · simp only [nibble.encode]
        rw [if_neg h]
        simp only [nibble.decode]
        rw [if_pos (hso2 n), if_neg (hil2 n), hlo2 n, unpackBytes_packPairs rest hr]

theorem rlpLenHeader_ne_nil (offset len : Nat) : rlpLenHeader offset len ≠ [] := by
  unfold rlpLenHeader; split <;> simp

theorem serStr_ne_nil (s : Bytes) : serStr s ≠ [] := by
  unfold serStr
  rcases s with - | ⟨b, - | ⟨c, rest⟩⟩
  · simpa using rlpLenHeader_ne_nil 0x80 0
  · by_cases hb : b < 0x80 <;> simp [hb]
  · simp

theorem rlpSerialize_ne_nil (it : RlpItem) : rlpSerialize it ≠ [] := by
  cases it with
  | str s => simpa [rlpSerialize] using serStr_ne_nil s
  | list items =>
    simp only [rlpSerialize, ne_eq, List.append_eq_nil]
    intro h
    exact rlpLenHeader_ne_nil _ _ h.1

theorem rlpPayload_cons_ne_nil (x : RlpItem) (xs : List RlpItem) :
    rlpPayload (x :: xs) ≠ [] := by
  simp only [rlpPayload, ne_eq, List.append_eq_nil]
  intro h
  exact rlpSerialize_ne_nil x h.1

mutual

/-- Well-formed node: branches carry exactly 16 children and a value slot
that is not the empty byte string, inlined children have payloads below
the 32-byte decode threshold, and hashes are 32 bytes long.  Exactly the
shapes the trie algorithms construct and RLP decoding inverts. -/
def MerkleNode.wfB : MerkleNode → Bool
  | .leaf _ _ => true
  | .ext _ c => MerkleValue.wfB c
  | .branch cs v =>
    decide (cs.length = 16) && MerkleValue.listWfB cs && decide (v ≠ some ([] : Bytes))

/-- Well-formed child reference. -/
def MerkleValue.wfB : MerkleValue → Bool
  | .empty => true
  | .full n => MerkleNode.wfB n && decide ((MerkleNode.toItem n).size < 32)
  | .hash h => decide (h.length = 32)

/-- All children well-formed. -/
def MerkleValue.listWfB : List MerkleValue → Bool
  | [] => true
  | c :: cs => MerkleValue.wfB c && MerkleValue.listWfB cs

end

theorem MerkleValue.listToItems_length (cs : List MerkleValue) :
    (MerkleValue.listToItems cs).length = cs.length := by
  induction cs with
  | nil => rfl
  | cons c cs ih => simp [MerkleValue.listToItems, ih]

theorem getD_append_len {α : Type} (l : List α) (x d : α) :
    (l ++ [x]).getD l.length d = x := by
  induction l with
  | nil => rfl
  | cons a l ih => simp only [List.cons_append, List.length_cons, List.getD_cons_succ]; exact ih

theorem MerkleNode.decode_list17 (fuel : Nat) (xs : List RlpItem) (h : xs.length = 17) :
    MerkleNode.decode (fuel + 1) (.list xs) =
      match MerkleValue.decodeCount fuel 16 xs with
      | none => none
      | some children =>
        some (.branch children
          (if (xs.getD 16 (.str [])).isEmpty then none
           else some (xs.getD 16 (.str [])).data)) := by
  rcases xs with - | ⟨a, - | ⟨b, - | ⟨c, rest⟩⟩⟩
  · simp at h
  · simp at h
  · simp at h
  · simp only [MerkleNode.decode, h, if_true]

theorem MerkleNode.toItem_cons (n : MerkleNode) :
    ∃ x xs, MerkleNode.toItem n = .list (x :: xs) := by
  cases n with
  | leaf p v => exact ⟨_, _, rfl⟩
  | ext p c => exact ⟨_, _, rfl⟩
  | branch cs v =>
    rcases cs with - | ⟨c, cs⟩
    · exact ⟨_, _, rfl⟩
    · exact ⟨_, _, rfl⟩

mutual

theorem MerkleNode.decode_toItem : ∀ (n : MerkleNode) (fuel : Nat),
    MerkleNode.wfB n = true → MerkleNode.fbound n ≤ fuel →
    MerkleNode.decode fuel (MerkleNode.toItem n) = some n
  | .leaf p v, fuel, _, hf => by
    obtain ⟨f, rfl⟩ : ∃ f, fuel = f + 1 :=
      ⟨fuel - 1, by simp only [MerkleNode.fbound] at hf; omega⟩
    simp only [MerkleNode.toItem, MerkleNode.decode, RlpItem.data, nibble_decode_encode]
  | .ext p c, fuel, hw, hf => by
    obtain ⟨f, rfl⟩ : ∃ f, fuel = f + 1 :=
      ⟨fuel - 1, by simp only [MerkleNode.fbound] at hf; omega⟩
    have hb : MerkleValue.fbound c ≤ f := by
      simp only [MerkleNode.fbound] at hf; omega
    have hwc : MerkleValue.wfB c = true := by
      simpa only [MerkleNode.wfB] using hw
    simp only [MerkleNode.toItem, MerkleNode.decode, RlpItem.data, nibble_decode_encode,
      MerkleValue.decode_val_toItem c f hwc hb]
  | .branch cs v, fuel, hw, hf => by
    obtain ⟨f, rfl⟩ : ∃ f, fuel = f + 1 :=
      ⟨fuel - 1, by simp only [MerkleNode.fbound] at hf; omega⟩
    simp only [MerkleNode.wfB, Bool.and_eq_true, decide_eq_true_eq] at hw
    obtain ⟨⟨hlen, hwcs⟩, hv⟩ := hw
    have hb : MerkleValue.fboundList cs ≤ f := by
      simp only [MerkleNode.fbound] at hf; omega
    rcases v with - | vv
    · have h17 : (MerkleValue.listToItems cs ++ [RlpItem.str []]).length = 17 := by
        simp [MerkleValue.listToItems_length, hlen]
      simp only [MerkleNode.toItem]
      rw [MerkleNode.decode_list17 f _ h17]
      have hcount := MerkleValue.decodeCount_toItems cs [RlpItem.str []] f hwcs hb
      rw [hlen] at hcount
      rw [hcount]
      have hget : (MerkleValue.listToItems cs ++ [RlpItem.str []]).getD 16 (.str []) =
          RlpItem.str [] := by
        have hg := getD_append_len (MerkleValue.listToItems cs) (RlpItem.str [])
          (RlpItem.str [])
        rwa [MerkleValue.listToItems_length, hlen] at hg
      rw [hget]
      simp [RlpItem.isEmpty, RlpItem.data]
    · have hvv : vv ≠ [] := fun h => hv (by rw [h])
      have h17 : (MerkleValue.listToItems cs ++ [RlpItem.str vv]).length = 17 := by
        simp [MerkleValue.listToItems_length, hlen]
      simp only [MerkleNode.toItem]
      rw [MerkleNode.decode_list17 f _ h17]
      have hcount := MerkleValue.decodeCount_toItems cs [RlpItem.str vv] f hwcs hb
      rw [hlen] at hcount
      rw [hcount]
      have hget : (MerkleValue.listToItems cs ++ [RlpItem.str vv]).getD 16 (.str []) =
          RlpItem.str vv := by
        have hg := getD_append_len (MerkleValue.listToItems cs) (RlpItem.str vv)
          (RlpItem.str [])
        rwa [MerkleValue.listToItems_length, hlen] at hg
      rw [hget]
      simp [RlpItem.isEmpty, RlpItem.data, hvv]

theorem MerkleValue.decode_val_toItem : ∀ (c : MerkleValue) (fuel : Nat),
    MerkleValue.wfB c = true → MerkleValue.fbound c ≤ fuel →
    MerkleValue.decode fuel (MerkleValue.toItem c) = some c
  | .empty, fuel, _, hf => by
    obtain ⟨f, rfl⟩ : ∃ f, fuel = f + 1 :=
      ⟨fuel - 1, by simp only [MerkleValue.fbound] at hf; omega⟩
    simp [MerkleValue.toItem, MerkleValue.decode, RlpItem.isEmpty, RlpItem.data]
  | .hash h32, fuel, hw, hf => by
    obtain ⟨f, rfl⟩ : ∃ f, fuel = f + 1 :=
      ⟨fuel - 1, by simp only [MerkleValue.fbound] at hf; omega⟩
    simp only [MerkleValue.wfB, decide_eq_true_eq] at hw
    have hne : h32 ≠ [] := by
      intro h; rw [h] at hw; simp at hw
    simp [MerkleValue.toItem, MerkleValue.decode, RlpItem.isEmpty, RlpItem.data,
      RlpItem.size, hne, hw]
  | .full n, fuel, hw, hf => by
    obtain ⟨f, rfl⟩ : ∃ f, fuel = f + 1 :=
      ⟨fuel - 1, by simp only [MerkleValue.fbound] at hf; omega⟩
    simp only [MerkleValue.wfB, Bool.and_eq_true, decide_eq_true_eq] at hw
    obtain ⟨hwn, hsz⟩ := hw
    have hb : MerkleNode.fbound n ≤ f := by
      simp only [MerkleValue.fbound] at hf; omega
    obtain ⟨x, xs, hshape⟩ := MerkleNode.toItem_cons n
    have hemp : (MerkleNode.toItem n).isEmpty = false := by
      rw [hshape]
      simpa [RlpItem.isEmpty, RlpItem.data, List.isEmpty_iff] using
        rlpPayload_cons_ne_nil x xs
    have hsz32 : (MerkleNode.toItem n).size ≠ 32 := by omega
    simp only [MerkleValue.toItem, MerkleValue.decode]
    rw [hemp]
    simp only [Bool.false_eq_true, if_false]
    rw [if_neg hsz32, if_pos hsz]
    rw [MerkleNode.decode_toItem n f hwn hb]

theorem MerkleValue.decodeCount_toItems : ∀ (cs : List MerkleValue) (tail : List RlpItem)
    (fuel : Nat), MerkleValue.listWfB cs = true → MerkleValue.fboundList cs ≤ fuel →
    MerkleValue.decodeCount fuel cs.length (MerkleValue.listToItems cs ++ tail) = some cs
  | [], tail, fuel, _, hf => by
    obtain ⟨f, rfl⟩ : ∃ f, fuel = f + 1 :=
      ⟨fuel - 1, by simp only [MerkleValue.fboundList] at hf; omega⟩
    rfl
  | c :: cs, tail, fuel, hw, hf => by
    obtain ⟨f, rfl⟩ : ∃ f, fuel = f + 1 :=
      ⟨fuel - 1, by simp only [MerkleValue.fboundList] at hf; omega⟩
    simp only [MerkleValue.listWfB, Bool.and_eq_true] at hw
    have hb1 : MerkleValue.fbound c ≤ f := by
      simp only [MerkleValue.fboundList] at hf; omega
    have hb2 : MerkleValue.fboundList cs ≤ f := by
      simp only [MerkleValue.fboundList] at hf; omega
    simp only [MerkleValue.listToItems, List.cons_append, List.length_cons,
      MerkleValue.decodeCount, MerkleValue.decode_val_toItem c f hw.1 hb1,
      List.append_eq, MerkleValue.decodeCount_toItems cs tail f hw.2 hb2]

end

/-- C7 counterexample: the round-trip claim `decode (encode n) = n` fails
for a Branch whose value slot holds the empty byte string — its encoding
uses the empty-data sentinel, which decodes back as `None`. -/
theorem C7_counterexample :
    MerkleNode.fbound (MerkleNode.branch empty_nodes (some [])) ≤ 100 ∧
    MerkleNode.decode 100 (MerkleNode.toItem (MerkleNode.branch empty_nodes (some []))) ≠
      some (MerkleNode.branch empty_nodes (some [])) := by decide

/-- C7 (amended): for every well-formed merkle node (16 branch children,
branch value slots not the empty string, inlined children below the
32-byte threshold, 32-byte hashes), decoding the RLP encoding of the node
with sufficient fuel yields the node back. -/
theorem C7_decode_encode_roundtrip (n : MerkleNode) (fuel : Nat)
    (hw : MerkleNode.wfB n = true) (hf : MerkleNode.fbound n ≤ fuel) :
    MerkleNode.decode fuel (MerkleNode.toItem n) = some n :=
  MerkleNode.decode_toItem n fuel hw hf

/-- C7 witness: the amended round-trip at a concrete leaf node. -/
theorem C7_decode_encode_roundtrip_witness :
    (MerkleNode.wfB (MerkleNode.leaf [⟨6, by omega⟩] [1, 2, 3]) = true ∧
      MerkleNode.fbound (MerkleNode.leaf [⟨6, by omega⟩] [1, 2, 3]) ≤ 9) ∧
    MerkleNode.decode 9 (MerkleNode.toItem (MerkleNode.leaf [⟨6, by omega⟩] [1, 2, 3])) =
      some (MerkleNode.leaf [⟨6, by omega⟩] [1, 2, 3]) :=
  ⟨⟨by decide, by decide⟩,
    C7_decode_encode_roundtrip (MerkleNode.leaf [⟨6, by omega⟩] [1, 2, 3]) 9
      (by decide) (by decide)⟩

/-- Modelled from the spec: the `Error` type of the trie crate root (the
crate root `lib.rs` is not under `src/`).  `require` is the Missing-data
condition carrying the specific missing hash (spec section 7); `malformed`
models the panic on undecodable stored bytes; `panic` models the other
invariant-violation panics; `fuel` marks exhausted recursion fuel, an
artifact of the embedding. -/
inductive Error where
  | require (h : Bytes)
  | malformed
  | panic
  | fuel
  deriving DecidableEq, Repr

/-- A database handle: the parsed view of `DatabaseHandle::get`, mapping a
hash to the RLP value stored under it (`none` when absent). -/
def Db : Type := Bytes → Option RlpItem

/-- Modelled from the spec: `DatabaseHandle::get_with_error` of the trie
crate root — a failed lookup surfaces the missing hash as a `Require`
error. -/
def dbGetWithError (db : Db) (h : Bytes) : Except Error RlpItem :=
  match db h with
  | some it => .ok it
  | none => .error (.require h)

/-- Modelled from the spec: the `Change` type of the trie crate root — a
change-set accumulating the list of (hash, node value) additions and the
list of removed hashes (spec section 3).  Staging an addition cancels a
pending removal of the same hash and vice versa, as required by the
stored-blob equality asserted by the memory trie tests under `src/`. -/
structure Change where
  adds : List (Bytes × RlpItem)
  removes : List Bytes
  deriving DecidableEq, Repr

/-- `Change::default()`. -/
def Change.empty : Change := ⟨[], []⟩

/-- Modelled from the spec: `Change::add_raw` — stage (hash, value) for
addition, cancelling any pending removal of the hash. -/
def Change.add_raw (c : Change) (h : Bytes) (it : RlpItem) : Change :=
  ⟨c.adds.filter (fun p => decide (p.1 ≠ h)) ++ [(h, it)],
   c.removes.filter (fun h2 => decide (h2 ≠ h))⟩

/-- Modelled from the spec: `Change::remove_raw` — stage a hash for
removal, cancelling any pending addition under the hash. -/
def Change.remove_raw (c : Change) (h : Bytes) : Change :=
  ⟨c.adds.filter (fun p => decide (p.1 ≠ h)),
   c.removes.filter (fun h2 => decide (h2 ≠ h)) ++ [h]⟩

/-- Modelled from the spec: `Change::add_value` — inline the node if its
encoding is below 32 bytes, otherwise stage its bytes under their digest
and refer to it by hash (spec sections 3 and 4.3). -/
def Change.add_value (c : Change) (H : Bytes → Bytes) (n : MerkleNode) :
    MerkleValue × Change :=
  if n.inlinable then (.full n, c)
  else
    let hash := H n.encBytes
    (.hash hash, c.add_raw hash n.toItem)

/-- Modelled from the spec: `Change::add_node` — stage the encoding of a
node unconditionally (used for the new root of each operation). -/
def Change.add_node (c : Change) (H : Bytes → Bytes) (n : MerkleNode) : Change :=
  c.add_raw (H n.encBytes) n.toItem

/-- Modelled from the spec: `Change::merge` — replay the additions of the
other change-set, then its removals. -/
def Change.merge (c other : Change) : Change :=
  let c := other.adds.foldl (fun acc p => acc.add_raw p.1 p.2) c
  other.removes.foldl (fun acc h => acc.remove_raw h) c

mutual

/-- `ops::get::get_by_value` (`ops/get.rs`): resolve a child reference and
continue the walk. -/
def get_by_value : Nat → Db → MerkleValue → NibbleVec → Except Error (Option Bytes)
  | 0, _, _, _ => .error .fuel
  | _ + 1, _, .empty, _ => .ok none
  | fuel + 1, db, .full subnode, nibble => get_by_node fuel db subnode nibble
  | fuel + 1, db, .hash h, nibble => do
    let it ← dbGetWithError db h
    match MerkleNode.decode fuel it with
    | none => .error .malformed
    | some subnode => get_by_node fuel db subnode nibble

/-- `ops::get::get_by_node` (`ops/get.rs`): walk the remaining nibble path
through a node. -/
def get_by_node : Nat → Db → MerkleNode → NibbleVec → Except Error (Option Bytes)
  | 0, _, _, _ => .error .fuel
  | _ + 1, _, .leaf node_nibble node_value, nibble =>
    if node_nibble = nibble then .ok (some node_value) else .ok none
  | fuel + 1, db, .ext node_nibble node_value, nibble =>
    if node_nibble.isPrefixOf nibble then
      get_by_value fuel db node_value (nibble.drop node_nibble.length)
    else .ok none
  | fuel + 1, db, .branch node_nodes node_additional, nibble =>
    match nibble with
    | [] => .ok node_additional
    | ni :: rest => get_by_value fuel db (node_nodes.getD (ni : Nat) .empty) rest

end

/-- `ops::insert::value_and_leaf_branch` (`ops/insert.rs`): build a branch
holding an existing child value (under its remaining path) and a new leaf.
Indexing an empty `anibble` panics. -/
def value_and_leaf_branch (H : Bytes → Bytes) (anibble : NibbleVec) (avalue : MerkleValue)
    (bnibble : NibbleVec) (bvalue : Bytes) : Except Error (MerkleNode × Change) :=
  match anibble with
  | [] => .error .panic
  | ai :: asub =>
    let change := Change.empty
    let nodes := empty_nodes
    let (nodes, change) :=
      if asub.length > 0 then
        let (ext_value, change) := change.add_value H (.ext asub avalue)
        (nodes.set (ai : Nat) ext_value, change)
      else
        (nodes.set (ai : Nat) avalue, change)
    match bnibble with
    | [] => .ok (.branch nodes (some bvalue), change)
    | bi :: bsub =>
      let (bval, change) := change.add_value H (.leaf bsub bvalue)
      .ok (.branch (nodes.set (bi : Nat) bval) none, change)

/-- `ops::insert::two_leaf_branch` (`ops/insert.rs`): build a branch from
two leaves with disjoint remaining paths (an empty path goes to the value
slot). -/
def two_leaf_branch (H : Bytes → Bytes) (anibble : NibbleVec) (avalue : Bytes)
    (bnibble : NibbleVec) (bvalue : Bytes) : MerkleNode × Change :=
  let change := Change.empty
  let nodes := empty_nodes
  let (nodes, additional, change) :=
    match anibble with
    | [] => (nodes, some avalue, change)
    | ai :: asub =>
      let (aval, change) := change.add_value H (.leaf asub avalue)
      (nodes.set (ai : Nat) aval, none, change)
  let (nodes, additional, change) :=
    match bnibble with
    | [] => (nodes, some bvalue, change)
    | bi :: bsub =>
      let (bval, change) := change.add_value H (.leaf bsub bvalue)
      (nodes.set (bi : Nat) bval, additional, change)
  (.branch nodes additional, change)

mutual

/-- `ops::insert::insert_by_value` (`ops/insert.rs`). -/
def insert_by_value (H : Bytes → Bytes) :
    Nat → Db → MerkleValue → NibbleVec → Bytes → Except Error (MerkleValue × Change)
  | 0, _, _, _, _ => .error .fuel
  | _ + 1, _, .empty, nibble, value =>
    .ok (Change.empty.add_value H (.leaf nibble value))
  | fuel + 1, db, .full sub_node, nibble, value => do
    let (new_node, subchange) ← insert_by_node H fuel db sub_node nibble value
    let change := Change.empty.merge subchange
    .ok (change.add_value H new_node)
  | fuel + 1, db, .hash h, nibble, value => do
    let it ← dbGetWithError db h
    match MerkleNode.decode fuel it with
    | none => .error .malformed
    | some sub_node =>
      let change := Change.empty.remove_raw h
      let (new_node, subchange) ← insert_by_node H fuel db sub_node nibble value
      let change := change.merge subchange
      .ok (change.add_value H new_node)

/-- `ops::insert::insert_by_node` (`ops/insert.rs`). -/
def insert_by_node (H : Bytes → Bytes) :
    Nat → Db → MerkleNode → NibbleVec → Bytes → Except Error (MerkleNode × Change)
  | 0, _, _, _, _ => .error .fuel
  | _ + 1, _, .leaf node_nibble node_value, nibble, value =>
    if node_nibble = nibble then
      .ok (.leaf nibble value, Change.empty)
    else
      let (common, nibble_sub, node_nibble_sub) := MPT.nibble.common_with_sub nibble node_nibble
      let (branch, subchange) := two_leaf_branch H node_nibble_sub node_value nibble_sub value
      let change := Change.empty.merge subchange
      if common.length > 0 then
        let (v, change) := change.add_value H branch
        .ok (.ext common v, change)
      else
        .ok (branch, change)
  | fuel + 1, db, .ext node_nibble node_value, nibble, value =>
    if node_nibble.isPrefixOf nibble then do
      let (subvalue, subchange) ←
        insert_by_value H fuel db node_value (nibble.drop node_nibble.length) value
      let change := Change.empty.merge subchange
      .ok (.ext node_nibble subvalue, change)
    else do
      let (common, nibble_sub, node_nibble_sub) := MPT.nibble.common_with_sub nibble node_nibble
      let (branch, subchange) ←
        value_and_leaf_branch H node_nibble_sub node_value nibble_sub value
      let change := Change.empty.merge subchange
      if common.length > 0 then
        let (v, change) := change.add_value H branch
        .ok (.ext common v, change)
      else
        .ok (branch, change)
  | fuel + 1, db, .branch node_nodes node_additional, nibble, value =>
    match nibble with
    | [] => .ok (.branch node_nodes (some value), Change.empty)
    | ni :: rest => do
      let prev := node_nodes.getD (ni : Nat) .empty
      let (new, subchange) ← insert_by_value H fuel db prev rest value
      let change := Change.empty.merge subchange
      .ok (.branch (node_nodes.set (ni : Nat) new) node_additional, change)

end

/-- `ops::insert::insert_by_empty` (`ops/insert.rs`): insertion into an
empty trie builds a leaf spanning the whole path. -/
def insert_by_empty (nibble : NibbleVec) (value : Bytes) : MerkleNode × Change :=
  (.leaf nibble value, Change.empty)

/-- `ops::delete::find_and_remove_child` (`ops/delete.rs`): materialize a
child node, staging its hash for removal; an `Empty` child panics. -/
def find_and_remove_child :
    Nat → Db → MerkleValue → Except Error (MerkleNode × Change)
  | 0, _, _ => .error .fuel
  | _ + 1, _, .empty => .error .panic
  | _ + 1, _, .full sub_node => .ok (sub_node, Change.empty)
  | fuel + 1, db, .hash h => do
    let it ← dbGetWithError db h
    match MerkleNode.decode fuel it with
    | none => .error .malformed
    | some sub_node => .ok (sub_node, Change.empty.remove_raw h)

/-- `ops::delete::collapse_extension` (`ops/delete.rs`): merge an extension
with its rebuilt child — prepend the prefix into a leaf/extension child,
or re-wrap a branch child. -/
def collapse_extension (H : Bytes → Bytes) (node_nibble : NibbleVec)
    (subnode : MerkleNode) : MerkleNode × Change :=
  match subnode with
  | .leaf sub_nibble sub_value =>
    (.leaf (node_nibble ++ sub_nibble) sub_value, Change.empty)
  | .ext sub_nibble sub_value =>
    (.ext (node_nibble ++ sub_nibble) sub_value, Change.empty)
  | .branch cs v =>
    let (subvalue, change) := Change.empty.add_value H (.branch cs v)
    (.ext node_nibble subvalue, change)

/-- `ops::delete::nonempty_node_count` (`ops/delete.rs`): live entries of a
branch — the non-`Empty` children plus the value slot. -/
def nonempty_node_count (nodes : List MerkleValue) (additional : Option Bytes) : Nat :=
  (if additional.isSome then 1 else 0) +
    (nodes.filter (fun v => decide (v ≠ .empty))).length

/-- `ops::delete::collapse_branch` (`ops/delete.rs`): rewrite a branch that
may have become under-populated: zero live entries panics, a sole value
becomes a leaf, a sole child is pulled up and merged with its selector
nibble, two or more live entries keep the branch. -/
def collapse_branch (H : Bytes → Bytes) :
    Nat → Db → List MerkleValue → Option Bytes → Except Error (MerkleNode × Change)
  | 0, _, _, _ => .error .fuel
  | fuel + 1, db, node_nodes, node_additional =>
    match nonempty_node_count node_nodes node_additional, node_additional with
    | 0, _ => .error .panic
    | 1, some av => .ok (.leaf [] av, Change.empty)
    | 1, none =>
      let subindex := node_nodes.findIdx (fun v => v ≠ .empty)
      let subvalue := node_nodes.getD subindex .empty
      if hidx : subindex < 16 then
        let subnibble : Nibble := ⟨subindex, hidx⟩
        do
          let (subnode, subchange) ← find_and_remove_child fuel db subvalue
          let change := Change.empty.merge subchange
          match subnode with
          | .leaf leaf_nibble leaf_value =>
            .ok (.leaf (subnibble :: leaf_nibble) leaf_value, change)
          | .ext ext_nibble ext_value =>
            .ok (.ext (subnibble :: ext_nibble) ext_value, change)
          | .branch cs v =>
            let (subvalue2, change) := change.add_value H (.branch cs v)
            .ok (.ext [subnibble] subvalue2, change)
      else .error .panic
    | _ + 2, _ => .ok (.branch node_nodes node_additional, Change.empty)

mutual

/-- `ops::delete::delete_by_child` (`ops/delete.rs`). -/
def delete_by_child (H : Bytes → Bytes) :
    Nat → Db → MerkleValue → NibbleVec → Except Error (Option MerkleNode × Change)
  | 0, _, _, _ => .error .fuel
  | _ + 1, _, .empty, _ => .ok (none, Change.empty)
  | fuel + 1, db, .full sub_node, nibble => do
    let (new_node, subchange) ← delete_by_node H fuel db sub_node nibble
    let change := Change.empty.merge subchange
    .ok (new_node, change)
  | fuel + 1, db, .hash h, nibble => do
    let it ← dbGetWithError db h
    match MerkleNode.decode fuel it with
    | none => .error .malformed
    | some sub_node =>
      let change := Change.empty.remove_raw h
      let (new_node, subchange) ← delete_by_node H fuel db sub_node nibble
      let change := change.merge subchange
      .ok (new_node, change)

/-- `ops::delete::delete_by_node` (`ops/delete.rs`). -/
def delete_by_node (H : Bytes → Bytes) :
    Nat → Db → MerkleNode → NibbleVec → Except Error (Option MerkleNode × Change)
  | 0, _, _, _ => .error .fuel
  | _ + 1, _, .leaf node_nibble node_value, nibble =>
    if node_nibble = nibble then .ok (none, Change.empty)
    else .ok (some (.leaf node_nibble node_value), Change.empty)
  | fuel + 1, db, .ext node_nibble node_value, nibble =>
    if node_nibble.isPrefixOf nibble then do
      let (subnode, subchange) ←
        delete_by_child H fuel db node_value (nibble.drop node_nibble.length)
      let change := Change.empty.merge subchange
      match subnode with
      | some sn =>
        let (new, subchange2) := collapse_extension H node_nibble sn
        let change := change.merge subchange2
        .ok (some new, change)
      | none => .ok (none, change)
    else .ok (some (.ext node_nibble node_value), Change.empty)
  | fuel + 1, db, .branch node_nodes node_additional, nibble => do
    let (node_nodes, node_additional, needs_collapse, change) ←
      match nibble with
      | [] =>
        pure (node_nodes, (none : Option Bytes), true, Change.empty)
      | ni :: rest => do
        let (new_subnode, subchange) ←
          delete_by_child H fuel db (node_nodes.getD (ni : Nat) .empty) rest
        let change := Change.empty.merge subchange
        match new_subnode with
        | some ns =>
          let (new_subvalue, change) := change.add_value H ns
          pure (node_nodes.set (ni : Nat) new_subvalue, node_additional, false, change)
        | none =>
          pure (node_nodes.set (ni : Nat) MerkleValue.empty, node_additional, true, change)
    if needs_collapse then
      if nonempty_node_count node_nodes node_additional > 0 then do
        let (new, subchange) ← collapse_branch H fuel db node_nodes node_additional
        let change := change.merge subchange
        .ok (some new, change)
      else
        .ok (none, change)
    else
      .ok (some (.branch node_nodes node_additional), change)

end

/-- A key-value map keyed by nibble paths (the `HashMap<NibbleVec, &[u8]>`
of `ops/build.rs`, as an association list with distinct keys). -/
abbrev NMap := List (NibbleVec × Bytes)

/-- `ops::build::make_submap` (`ops/build.rs`): strip a common prefix
length off every key. -/
def make_submap (common_len : Nat) (m : NMap) : NMap :=
  m.map (fun kv => (kv.1.drop common_len, kv.2))

/-- `ops::build::build_value` (`ops/build.rs`): turn a built node into a
merkle value through the inlining rule. -/
def build_value (H : Bytes → Bytes) (node : MerkleNode) : MerkleValue × Change :=
  Change.empty.add_value H node

mutual

/-- `ops::build::build_node` (`ops/build.rs`): build the node for a
non-empty map bottom-up — a single pair becomes a leaf; a common key
prefix becomes an extension; otherwise fan out into a 16-slot branch with
the empty key in the value slot.  An empty map panics. -/
def build_node (H : Bytes → Bytes) : Nat → NMap → Except Error (MerkleNode × Change)
  | 0, _ => .error .fuel
  | fuel + 1, m =>
    match m with
    | [] => .error .panic
    | [(key, value)] => .ok (.leaf key value, Change.empty)
    | _ =>
      let common := nibble.common_all (m.map (fun kv => kv.1))
      if common.length > 0 then do
        let submap := make_submap common.length m
        let (node, subchange) ← build_node H fuel submap
        let change := Change.empty.merge subchange
        let (value, subchange2) := build_value H node
        let change := change.merge subchange2
        .ok (.ext common value, change)
      else do
        let (nodes, change) ← build_children H fuel m 0 Change.empty
        let additional :=
          (m.find? (fun kv => decide (kv.1.length = 0))).map (fun kv => kv.2)
        .ok (.branch nodes additional, change)

/-- The `0..16` loop of `build_node`: build the children whose keys start
with each nibble in turn, threading the accumulated change-set. -/
def build_children (H : Bytes → Bytes) :
    Nat → NMap → Nat → Change → Except Error (List MerkleValue × Change)
  | 0, _, _, _ => .error .fuel
  | fuel + 1, m, i, change =>
    if hi : i < 16 then
      let nib : Nibble := ⟨i, hi⟩
      let submap := make_submap 1 (m.filter (fun kv =>
        match kv.1 with
        | [] => false
        | k0 :: _ => decide (k0 = nib)))
      if submap.length > 0 then do
        let (node, subchange) ← build_node H fuel submap
        let change := change.merge subchange
        let (value, subchange2) := build_value H node
        let change := change.merge subchange2
        let (rest, change) ← build_children H fuel m (i + 1) change
        .ok (value :: rest, change)
      else do
        let (rest, change) ← build_children H fuel m (i + 1) change
        .ok (.empty :: rest, change)
    else
      .ok ([], change)

end

/-- Modelled from the spec: `EMPTY_TRIE_HASH` of the trie crate root — the
digest of the RLP encoding of the empty byte string (spec section 6),
never looked up in storage. -/
def EMPTY_TRIE_HASH (H : Bytes → Bytes) : Bytes := H (serStr [])

/-- Modelled from the spec: the top-level `get` of the trie crate root — an
empty root performs no lookup; otherwise the root node is fetched and
decoded and the nibble path of the key walked (spec sections 4.3 and 6). -/
def get (H : Bytes → Bytes) (fuel : Nat) (db : Db) (root : Bytes) (key : Bytes) :
    Except Error (Option Bytes) :=
  if root = EMPTY_TRIE_HASH H then .ok none
  else do
    let it ← dbGetWithError db root
    match MerkleNode.decode fuel it with
    | none => .error .malformed
    | some node => get_by_node fuel db node (nibble.from_key key)

/-- Modelled from the spec: the top-level `insert` of the trie crate root —
build a leaf for an empty root or rewrite the path from the fetched root
node, stage the old root for removal and the new root node under its
digest, and return the new root hash with the change-set (spec sections
2 and 4.3). -/
def insert (H : Bytes → Bytes) (fuel : Nat) (db : Db) (root : Bytes)
    (key value : Bytes) : Except Error (Bytes × Change) := do
  let nib := nibble.from_key key
  let (new, change) ←
    if root = EMPTY_TRIE_HASH H then
      let (new, subchange) := insert_by_empty nib value
      pure (new, Change.empty.merge subchange)
    else do
      let it ← dbGetWithError db root
      match MerkleNode.decode fuel it with
      | none => .error .malformed
      | some old =>
        let change := Change.empty.remove_raw root
        let (new, subchange) ← insert_by_node H fuel db old nib value
        pure (new, change.merge subchange)
  .ok (H new.encBytes, change.add_node H new)

/-- Modelled from the spec: the top-level `delete` of the trie crate root —
an empty root is a no-op; otherwise the root node is fetched and rewritten,
the old root staged for removal, and a vanished root yields
`EMPTY_TRIE_HASH` (spec sections 4.3 and 6). -/
def delete (H : Bytes → Bytes) (fuel : Nat) (db : Db) (root : Bytes)
    (key : Bytes) : Except Error (Bytes × Change) :=
  if root = EMPTY_TRIE_HASH H then .ok (root, Change.empty)
  else do
    let it ← dbGetWithError db root
    match MerkleNode.decode fuel it with
    | none => .error .malformed
    | some old =>
      let change := Change.empty.remove_raw root
      let (new, subchange) ← delete_by_node H fuel db old (nibble.from_key key)
      let change := change.merge subchange
      match new with
      | some n => .ok (H n.encBytes, change.add_node H n)
      | none => .ok (EMPTY_TRIE_HASH H, change)

/-- Modelled from the spec: the top-level `build` of the trie crate root —
an empty map yields the empty trie; otherwise the map is re-keyed by
nibble path, `build_node` constructs the trie, and the root node is staged
under its digest (spec section 4.3). -/
def build (H : Bytes → Bytes) (fuel : Nat) (m : List (Bytes × Bytes)) :
    Except Error (Bytes × Change) :=
  match m with
  | [] => .ok (EMPTY_TRIE_HASH H, Change.empty)
  | _ => do
    let node_map : NMap := m.map (fun kv => (nibble.from_key kv.1, kv.2))
    let (node, subchange) ← build_node H fuel node_map
    let change := Change.empty.merge subchange
    .ok (H node.encBytes, change.add_node H node)

/-- Pointwise insertion into a hash-keyed store (`HashMap::insert`). -/
def dbInsert (db : Db) (h : Bytes) (it : RlpItem) : Db :=
  fun h2 => if h2 = h then some it else db h2

/-- Pointwise removal from a hash-keyed store (`HashMap::remove`). -/
def dbRemove (db : Db) (h : Bytes) : Db :=
  fun h2 => if h2 = h then none else db h2

/-- `MemoryTrieMut` (`trie/memory/src/memory.rs`): a memory-backed trie —
a hash-keyed node store plus the current root hash. -/
structure MemoryTrieMut where
  database : Db
  root : Bytes

/-- `MemoryTrieMut::default`: empty store, `EMPTY_TRIE_HASH` root. -/
def MemoryTrieMut.default (H : Bytes → Bytes) : MemoryTrieMut :=
  ⟨fun _ => none, EMPTY_TRIE_HASH H⟩

/-- `MemoryTrieMut::apply_change`: write all additions, then delete all
removals. -/
def MemoryTrieMut.apply_change (t : MemoryTrieMut) (change : Change) : MemoryTrieMut :=
  let db := change.adds.foldl (fun db p => dbInsert db p.1 p.2) t.database
  let db := change.removes.foldl (fun db h => dbRemove db h) db
  { t with database := db }

/-- `TrieMut::insert` for `MemoryTrieMut`: run the insert algorithm, apply
its change-set and adopt the new root; the `unwrap` of a failed operation
panics (modelled as `none`). -/
def MemoryTrieMut.insert (H : Bytes → Bytes) (fuel : Nat) (t : MemoryTrieMut)
    (key value : Bytes) : Option MemoryTrieMut :=
  match MPT.insert H fuel t.database t.root key value with
  | .error _ => none
  | .ok (new_root, change) => some { (t.apply_change change) with root := new_root }

/-- `TrieMut::delete` for `MemoryTrieMut`. -/
def MemoryTrieMut.delete (H : Bytes → Bytes) (fuel : Nat) (t : MemoryTrieMut)
    (key : Bytes) : Option MemoryTrieMut :=
  match MPT.delete H fuel t.database t.root key with
  | .error _ => none
  | .ok (new_root, change) => some { (t.apply_change change) with root := new_root }

/-- `TrieMut::get` for `MemoryTrieMut`. -/
def MemoryTrieMut.get (H : Bytes → Bytes) (fuel : Nat) (t : MemoryTrieMut)
    (key : Bytes) : Option (Option Bytes) :=
  match MPT.get H fuel t.database t.root key with
  | .error _ => none
  | .ok v => some v

/-- `MemoryTrieMut::build`: build a trie from a whole map in one pass and
apply the resulting change-set to a fresh store. -/
def MemoryTrieMut.build (H : Bytes → Bytes) (fuel : Nat)
    (m : List (Bytes × Bytes)) : Option MemoryTrieMut :=
  match MPT.build H fuel m with
  | .error _ => none
  | .ok (new_root, change) =>
    some { ((MemoryTrieMut.default H).apply_change change) with root := new_root }

/-- `TrieCollection` (`trie/memory/src/gc.rs`): a store together with a
reference counter for every content hash.  The counter is the canonical
`ItemCounter`, modelled from the spec (section 4.7): `increase` adds one
to the count of a hash, `decrease` subtracts one, each returning the new
count. -/
structure TrieCollection where
  database : Db
  counter : Bytes → Nat

/-- `TrieCollection::apply` (`trie/memory/src/gc.rs`): drain a change-set —
each added hash is written to the store and its count increased; each
removed hash has its count decreased and is physically deleted exactly
when the decreased count is zero. -/
def TrieCollection.apply (col : TrieCollection) (change : Change) : TrieCollection :=
  let col := change.adds.foldl (fun col p =>
    { database := dbInsert col.database p.1 p.2,
      counter := fun h => if h = p.1 then col.counter p.1 + 1 else col.counter h }) col
  change.removes.foldl (fun col h =>
    let r := col.counter h - 1
    { database := if r = 0 then dbRemove col.database h else col.database,
      counter := fun h2 => if h2 = h then r else col.counter h2 }) col

mutual

/-- Check that every branch stored in the trie under a node keeps at least
two live entries (children through hashes are fetched and decoded;
unresolvable or undecodable references yield `none`). -/
def branchesOk : Nat → Db → MerkleNode → Option Bool
  | 0, _, _ => none
  | _ + 1, _, .leaf _ _ => some true
  | fuel + 1, db, .ext _ c => branchesOkV fuel db c
  | fuel + 1, db, .branch cs v =>
    if nonempty_node_count cs v < 2 then some false
    else branchesOkList fuel db cs

/-- Branch check through a child reference. -/
def branchesOkV : Nat → Db → MerkleValue → Option Bool
  | 0, _, _ => none
  | _ + 1, _, .empty => some true
  | fuel + 1, db, .full n => branchesOk fuel db n
  | fuel + 1, db, .hash h =>
    match db h with
    | none => none
    | some it =>
      match MerkleNode.decode fuel it with
      | none => none
      | some n => branchesOk fuel db n

/-- Branch check over all children. -/
def branchesOkList : Nat → Db → List MerkleValue → Option Bool
  | 0, _, _ => none
  | _ + 1, _, [] => some true
  | fuel + 1, db, c :: cs =>
    match branchesOkV fuel db c with
    | none => none
    | some false => some false
    | some true => branchesOkList fuel db cs

end

/-- A 32-byte digest for concrete scenarios: the input truncated or
zero-padded to 32 bytes.  Injective on the byte strings each scenario
hashes, which the scenario checks by evaluation. -/
def padHash : Bytes → Bytes := fun b => (b ++ List.replicate 32 0).take 32

/-- Fold a list of (key, value) pairs into a memory trie by repeated
`TrieMut::insert`. -/
def insertAll (H : Bytes → Bytes) (fuel : Nat) (pairs : List (Bytes × Bytes))
    (t : Option MemoryTrieMut) : Option MemoryTrieMut :=
  pairs.foldl (fun t kv => t.bind (fun t2 => t2.insert H fuel kv.1 kv.2)) t

/-- The shared-subtree map of the C1 counterexample: two branches carry
identical (non-inlinable) subtrees; modifying one orphans the other. -/
def c1Map : List (Bytes × Bytes) :=
  [([1, 10], List.replicate 20 65), ([1, 11], List.replicate 20 66),
   ([2, 10], List.replicate 20 65), ([2, 11], List.replicate 20 66),
   ([1, 12], List.replicate 20 67), ([2, 12], List.replicate 20 67)]

/-- C1 counterexample: building this map in one pass succeeds, but
inserting the same pairs one at a time into an empty trie panics — the
fifth insert rewrites one of two identical shared subtrees and stages the
shared node for removal, so the sixth insert cannot resolve it — hence
repeated insertion produces no root hash at all. -/
theorem C1_counterexample :
    (MemoryTrieMut.build padHash 100 c1Map).isSome = true ∧
    (insertAll padHash 100 c1Map (some (MemoryTrieMut.default padHash))).isSome = false := by
  decide

/-- The two-key map with an empty value at a branch value slot used by the
C2 and C3 counterexamples. -/
def c3Map : List (Bytes × Bytes) := [([100, 111], []), ([100, 111, 103], [120])]

/-- C2 counterexample: on the trie of `c3Map` the key `[100,111,120]` is
absent, yet insert of that key followed by its delete does not restore the
root: the walk re-decodes the branch whose value slot holds the empty
string, loses it, and the delete collapses the branch. -/
theorem C2_counterexample :
    ((MemoryTrieMut.build padHash 200 c3Map).bind
      (fun t => t.get padHash 200 [100, 111, 120])) = some none ∧
    (((MemoryTrieMut.build padHash 200 c3Map).bind
        (fun t => t.insert padHash 200 [100, 111, 120] [121])).bind
      (fun t => t.delete padHash 200 [100, 111, 120])).map (fun t => t.root) ≠
      (MemoryTrieMut.build padHash 200 c3Map).map (fun t => t.root) ∧
    ((((MemoryTrieMut.build padHash 200 c3Map).bind
        (fun t => t.insert padHash 200 [100, 111, 120] [121])).bind
      (fun t => t.delete padHash 200 [100, 111, 120]))).isSome = true := by
  decide

/-- C3 counterexample: deleting the absent key `[100,111,120]` from the
trie of `c3Map` returns a different root (the stored branch with an
empty-string value slot decodes without it and is collapsed), and the
change-set stages additions. -/
theorem C3_counterexample :
    ((MemoryTrieMut.build padHash 200 c3Map).bind
      (fun t => t.get padHash 200 [100, 111, 120])) = some none ∧
    ((MemoryTrieMut.build padHash 200 c3Map).bind
      (fun t => t.delete padHash 200 [100, 111, 120])).map (fun t => t.root) ≠
      (MemoryTrieMut.build padHash 200 c3Map).map (fun t => t.root) ∧
    ((MemoryTrieMut.build padHash 200 c3Map).map (fun t =>
      match MPT.delete padHash 200 t.database t.root [100, 111, 120] with
      | .ok (_, change) => change.adds.length
      | .error _ => 0)) ≠ some 0 := by
  decide

/-- The three-key map of the C5 counterexample. -/
def c5Map : List (Bytes × Bytes) :=
  [([100, 111], []), ([100, 111, 103], [120]), ([100, 111, 104], [121])]

/-- C5 counterexample: deleting `[100,111,103]` from the trie of `c5Map`
leaves a stored branch with exactly one live entry (the branch lost its
value slot to the empty-string decode and its sibling subtree collapsed,
but no collapse ran on the branch itself). -/
theorem C5_counterexample :
    (((MemoryTrieMut.build padHash 200 c5Map).bind
      (fun t => t.delete padHash 200 [100, 111, 103])).bind
      (fun t => (t.database t.root).bind (fun it =>
        (MerkleNode.decode 100 it).bind (fun n =>
          branchesOk 100 t.database n)))) = some false := by
  decide

/-- C10 counterexample: after inserting key `[]` with the empty value into
a trie holding `[103] := [120]`, the inserted key reads back as absent —
its value sits in a branch value slot whose encoding is the empty-data
sentinel, which get decodes as `None`. -/
theorem C10_counterexample :
    (((MemoryTrieMut.default padHash).insert padHash 100 [103] [120]).bind
      (fun t => t.insert padHash 100 [] [])).bind
      (fun t => t.get padHash 100 []) = some none := by
  decide

section GC

/-- The add phase of `TrieCollection::apply` as a fold. -/
def gcAddStep (col : TrieCollection) (p : Bytes × RlpItem) : TrieCollection :=
  { database := dbInsert col.database p.1 p.2,
    counter := fun h => if h = p.1 then col.counter p.1 + 1 else col.counter h }

/-- The remove phase of `TrieCollection::apply` as a fold. -/
def gcRemoveStep (col : TrieCollection) (h : Bytes) : TrieCollection :=
  let r := col.counter h - 1
  { database := if r = 0 then dbRemove col.database h else col.database,
    counter := fun h2 => if h2 = h then r else col.counter h2 }

theorem TrieCollection.apply_eq (col : TrieCollection) (change : Change) :
    col.apply change =
      change.removes.foldl gcRemoveStep (change.adds.foldl gcAddStep col) := by
  rfl

theorem gcAdds_frame (ps : List (Bytes × RlpItem)) (col : TrieCollection) (h : Bytes)
    (hno : ∀ p ∈ ps, p.1 ≠ h) :
    (ps.foldl gcAddStep col).database h = col.database h ∧
      (ps.foldl gcAddStep col).counter h = col.counter h := by
  induction ps generalizing col with
  | nil => exact ⟨rfl, rfl⟩
  | cons p ps ih =>
    have hp : p.1 ≠ h := hno p (List.mem_cons_self p ps)
    have hrest : ∀ q ∈ ps, q.1 ≠ h := fun q hq => hno q (List.mem_cons_of_mem p hq)
    have hstep := ih (gcAddStep col p) hrest
    refine ⟨?_, ?_⟩
    · rw [List.foldl_cons, hstep.1]
      simp only [gcAddStep, dbInsert]
      rw [if_neg (fun he => hp he.symm)]
    · rw [List.foldl_cons, hstep.2]
      simp only [gcAddStep]
      rw [if_neg (fun he => hp he.symm)]

theorem gcRemoves_frame (rs : List Bytes) (col : TrieCollection) (h : Bytes)
    (hno : h ∉ rs) :
    (rs.foldl gcRemoveStep col).database h = col.database h ∧
      (rs.foldl gcRemoveStep col).counter h = col.counter h := by
  induction rs generalizing col with
  | nil => exact ⟨rfl, rfl⟩
  | cons r rs ih =>
    have hr : h ≠ r := fun he => hno (he ▸ List.mem_cons_self r rs)
    have hrest : h ∉ rs := fun hm => hno (List.mem_cons_of_mem r hm)
    have hstep := ih (gcRemoveStep col r) hrest
    refine ⟨?_, ?_⟩
    · rw [List.foldl_cons, hstep.1]
      simp only [gcRemoveStep]
      split
      · simp only [dbRemove]
        rw [if_neg hr]
      · rfl
    · rw [List.foldl_cons, hstep.2]
      simp only [gcRemoveStep]
      rw [if_neg hr]

theorem gcAdds_hit (ps : List (Bytes × RlpItem)) (col : TrieCollection)
    (p : Bytes × RlpItem) (hmem : p ∈ ps) (hnd : (ps.map Prod.fst).Nodup) :
    (ps.foldl gcAddStep col).database p.1 = some p.2 ∧
      (ps.foldl gcAddStep col).counter p.1 = col.counter p.1 + 1 := by
  induction ps generalizing col with
  | nil => cases hmem
  | cons q ps ih =>
    rw [List.map_cons, List.nodup_cons] at hnd
    rcases List.mem_cons.mp hmem with rfl | hmem2
    · have hrest : ∀ r ∈ ps, r.1 ≠ p.1 := by
        intro r hr he
        exact hnd.1 (he ▸ List.mem_map_of_mem Prod.fst hr)
      have hframe := gcAdds_frame ps (gcAddStep col p) p.1 hrest
      refine ⟨?_, ?_⟩
      · rw [List.foldl_cons, hframe.1]
        simp [gcAddStep, dbInsert]
      · rw [List.foldl_cons, hframe.2]
        simp [gcAddStep]
    · have hstep := ih (gcAddStep col q) hmem2 hnd.2
      have hq : p.1 ≠ q.1 := by
        intro he
        exact hnd.1 (he ▸ List.mem_map_of_mem Prod.fst hmem2)
      refine ⟨?_, ?_⟩
      · rw [List.foldl_cons, hstep.1]
      · rw [List.foldl_cons, hstep.2]
        simp only [gcAddStep]
        rw [if_neg hq]

theorem gcRemoves_hit (rs : List Bytes) (col : TrieCollection) (h : Bytes)
    (hmem : h ∈ rs) (hnd : rs.Nodup) :
    (rs.foldl gcRemoveStep col).counter h = col.counter h - 1 ∧
      (rs.foldl gcRemoveStep col).database h =
        (if col.counter h - 1 = 0 then none else col.database h) := by
  induction rs generalizing col with
  | nil => cases hmem
  | cons r rs ih =>
    rw [List.nodup_cons] at hnd
    rcases List.mem_cons.mp hmem with rfl | hmem2
    · have hframe := gcRemoves_frame rs (gcRemoveStep col h) h hnd.1
      refine ⟨?_, ?_⟩
      · rw [List.foldl_cons, hframe.2]
        simp [gcRemoveStep]
      · rw [List.foldl_cons, hframe.1]
        simp only [gcRemoveStep]
        split
        · simp [dbRemove]
        · rfl
    · have hr : h ≠ r := by
        intro he; rw [he] at hmem2; exact hnd.1 hmem2
      have hstep := ih (gcRemoveStep col r) hmem2 hnd.2
      have hcnt : (gcRemoveStep col r).counter h = col.counter h := by
        simp only [gcRemoveStep]
        rw [if_neg hr]
      have hdb : (gcRemoveStep col r).database h = col.database h := by
        simp only [gcRemoveStep]
        split
        · simp only [dbRemove]
          rw [if_neg hr]
        · rfl
      refine ⟨?_, ?_⟩
      · rw [List.foldl_cons, hstep.1, hcnt]
      · rw [List.foldl_cons, hstep.2, hcnt, hdb]

/-- C9: draining a change-set through `TrieCollection::apply` increments
the reference count of every added hash and writes its bytes to the store,
decrements the count of every removed hash, and physically deletes a
removed hash exactly when its decreased count is zero (otherwise the store
entry is left as it was).  The hypotheses state the change-set invariants:
distinct added hashes, distinct removed hashes, and no hash both added and
removed. -/
theorem C9_apply_refcounts (col : TrieCollection) (change : Change)
    (hnda : (change.adds.map Prod.fst).Nodup) (hndr : change.removes.Nodup)
    (hdisj : ∀ h ∈ change.removes, ∀ p ∈ change.adds, p.1 ≠ h) :
    (∀ p ∈ change.adds,
      (col.apply change).database p.1 = some p.2 ∧
        (col.apply change).counter p.1 = col.counter p.1 + 1) ∧
    (∀ h ∈ change.removes,
      (col.apply change).counter h = col.counter h - 1 ∧
        (col.apply change).database h =
          (if col.counter h - 1 = 0 then none else col.database h)) := by
  rw [TrieCollection.apply_eq]
  constructor
  · intro p hp
    have hadds := gcAdds_hit change.adds col p hp hnda
    have hnomem : p.1 ∉ change.removes := by
      intro hmem
      exact hdisj p.1 hmem p hp rfl
    have hframe := gcRemoves_frame change.removes (change.adds.foldl gcAddStep col)
      p.1 hnomem
    exact ⟨hframe.1.trans hadds.1, hframe.2.trans hadds.2⟩
  · intro h hmem
    have hnoadd : ∀ p ∈ change.adds, p.1 ≠ h := fun p hp => hdisj h hmem p hp
    have haf := gcAdds_frame change.adds col h hnoadd
    have hrem := gcRemoves_hit change.removes (change.adds.foldl gcAddStep col) h hmem hndr
    refine ⟨?_, ?_⟩
    · rw [hrem.1, haf.2]
    · rw [hrem.2, haf.2, haf.1]

/-- C9 witness: the theorem applied to a concrete collection and
change-set. -/
theorem C9_apply_refcounts_witness :
    (((⟨[1], RlpItem.str [5]⟩ : Bytes × RlpItem) ∈
        (Change.mk [([1], .str [5])] [[2]]).adds) ∧
      (TrieCollection.apply
          ⟨fun h => if h = [2] then some (.str [9]) else none,
           fun h => if h = [2] then 1 else 0⟩
          (Change.mk [([1], .str [5])] [[2]])).database [1] = some (.str [5])) := by
  refine ⟨by decide, ?_⟩
  have h9 := (C9_apply_refcounts
    ⟨fun h => if h = [2] then some (.str [9]) else none,
     fun h => if h = [2] then 1 else 0⟩
    (Change.mk [([1], .str [5])] [[2]])
    (by decide) (by decide) (by decide)).1
    ⟨[1], RlpItem.str [5]⟩ (by decide)
  exact h9.1

end GC

mutual

/-- Every hash reference reachable from the node resolves in the handle to
decodable bytes (with the available fuel): the trie under the node is
fully materialized in the view of the handle. -/
def resolvN : Nat → Db → MerkleNode → Bool
  | 0, _, _ => false
  | _ + 1, _, .leaf _ _ => true
  | fuel + 1, db, .ext _ c => resolvV fuel db c
  | fuel + 1, db, .branch cs _ =>
    resolvV fuel db (cs.getD 0 .empty) && resolvV fuel db (cs.getD 1 .empty) &&
    resolvV fuel db (cs.getD 2 .empty) && resolvV fuel db (cs.getD 3 .empty) &&
    resolvV fuel db (cs.getD 4 .empty) && resolvV fuel db (cs.getD 5 .empty) &&
    resolvV fuel db (cs.getD 6 .empty) && resolvV fuel db (cs.getD 7 .empty) &&
    resolvV fuel db (cs.getD 8 .empty) && resolvV fuel db (cs.getD 9 .empty) &&
    resolvV fuel db (cs.getD 10 .empty) && resolvV fuel db (cs.getD 11 .empty) &&
    resolvV fuel db (cs.getD 12 .empty) && resolvV fuel db (cs.getD 13 .empty) &&
    resolvV fuel db (cs.getD 14 .empty) && resolvV fuel db (cs.getD 15 .empty)

/-- Resolvability through a child reference. -/
def resolvV : Nat → Db → MerkleValue → Bool
  | 0, _, _ => false
  | _ + 1, _, .empty => true
  | fuel + 1, db, .full n => resolvN fuel db n
  | fuel + 1, db, .hash h =>
    match db h with
    | none => false
    | some it =>
      match MerkleNode.decode fuel it with
      | none => false
      | some n => resolvN fuel db n

end

theorem resolvN_branch_child (fuel : Nat) (db : Db) (cs : List MerkleValue)
    (v : Option Bytes) (h : resolvN (fuel + 1) db (.branch cs v) = true) (i : Fin 16) :
    resolvV fuel db (cs.getD (i : Nat) .empty) = true := by
  simp only [resolvN, Bool.and_eq_true] at h
  obtain ⟨⟨⟨⟨⟨⟨⟨⟨⟨⟨⟨⟨⟨⟨⟨h0, h1⟩, h2⟩, h3⟩, h4⟩, h5⟩, h6⟩, h7⟩, h8⟩,
    h9⟩, h10⟩, h11⟩, h12⟩, h13⟩, h14⟩, h15⟩ := h
  fin_cases i <;> assumption

mutual

theorem get_error_shape_node : ∀ (fuel : Nat) (db : Db) (n : MerkleNode)
    (p : NibbleVec) (e : Error), get_by_node fuel db n p = .error e →
    e = .fuel ∨ e = .malformed ∨ ∃ h, e = .require h ∧ db h = none
  | 0, _, _, _, _, h => by
    simp only [get_by_node] at h
    exact Or.inl (Except.error.inj h).symm
  | fuel + 1, db, .leaf nn nv, p, e, h => by
    simp only [get_by_node] at h
    split at h <;> cases h
  | fuel + 1, db, .ext nn nv, p, e, h => by
    simp only [get_by_node] at h
    split at h
    · exact get_error_shape_value fuel db nv (p.drop nn.length) e h
    · cases h
  | fuel + 1, db, .branch cs v, p, e, h => by
    simp only [get_by_node] at h
    match p, h with
    | [], h => cases h
    | ni :: rest, h => exact get_error_shape_value fuel db (cs.getD (ni : Nat) .empty) rest e h

theorem get_error_shape_value : ∀ (fuel : Nat) (db : Db) (c : MerkleValue)
    (p : NibbleVec) (e : Error), get_by_value fuel db c p = .error e →
    e = .fuel ∨ e = .malformed ∨ ∃ h, e = .require h ∧ db h = none
  | 0, _, _, _, _, h => by
    simp only [get_by_value] at h
    exact Or.inl (Except.error.inj h).symm
  | _ + 1, _, .empty, _, _, h => by cases h
  | fuel + 1, db, .full n, p, e, h => by
    simp only [get_by_value] at h
    exact get_error_shape_node fuel db n p e h
  | fuel + 1, db, .hash hh, p, e, h => by
    simp only [get_by_value] at h
    cases hdb : db hh with
    | none =>
      simp only [dbGetWithError, hdb, bind, Except.bind] at h
      refine Or.inr (Or.inr ⟨hh, ?_, hdb⟩)
      cases h
      rfl
    | some it =>
      simp only [dbGetWithError, hdb, bind, Except.bind] at h
      cases hdec : MerkleNode.decode fuel it with
      | none =>
        rw [hdec] at h
        cases h
        exact Or.inr (Or.inl rfl)
      | some n =>
        rw [hdec] at h
        exact get_error_shape_node fuel db n p e h

end

mutual

theorem get_resolv_ok_node : ∀ (fuel : Nat) (db : Db) (n : MerkleNode)
    (p : NibbleVec), resolvN fuel db n = true →
    ∃ v, get_by_node fuel db n p = .ok v
  | 0, db, n, _, hr => by simp [resolvN] at hr
  | fuel + 1, db, .leaf nn nv, p, _ => by
    simp only [get_by_node]
    split
    · exact ⟨some nv, rfl⟩
    · exact ⟨none, rfl⟩
  | fuel + 1, db, .ext nn nv, p, hr => by
    simp only [resolvN] at hr
    simp only [get_by_node]
    split
    · exact get_resolv_ok_value fuel db nv (p.drop nn.length) hr
    · exact ⟨none, rfl⟩
  | fuel + 1, db, .branch cs v, p, hr => by
    simp only [get_by_node]
    match p with
    | [] => exact ⟨v, rfl⟩
    | ni :: rest =>
      exact get_resolv_ok_value fuel db (cs.getD (ni : Nat) .empty) rest
        (resolvN_branch_child fuel db cs v hr ni)

theorem get_resolv_ok_value : ∀ (fuel : Nat) (db : Db) (c : MerkleValue)
    (p : NibbleVec), resolvV fuel db c = true →
    ∃ v, get_by_value fuel db c p = .ok v
  | 0, db, c, _, hr => by simp [resolvV] at hr
  | _ + 1, _, .empty, _, _ => ⟨none, rfl⟩
  | fuel + 1, db, .full n, p, hr => by
    simp only [resolvV] at hr
    simp only [get_by_value]
    exact get_resolv_ok_node fuel db n p hr
  | fuel + 1, db, .hash hh, p, hr => by
    simp only [resolvV] at hr
    simp only [get_by_value]
    cases hdb : db hh with
    | none => rw [hdb] at hr; cases hr
    | some it =>
      simp only [hdb] at hr
      simp only [dbGetWithError, hdb, bind, Except.bind]
      cases hdec : MerkleNode.decode fuel it with
      | none => rw [hdec] at hr; cases hr
      | some n =>
        rw [hdec] at hr
        exact get_resolv_ok_node fuel db n p hr

end

/-- C6: the get walk propagates an error only for a hash it needed to
dereference and the handle could not resolve: every returned error is
either the `Require` of a hash absent from the handle (carrying that
hash), or one of the two embedding artifacts (`fuel` for exhausted
recursion fuel, `malformed` for stored bytes that fail to decode — a
panic, not a returned error, in the code); and on a fully resolvable trie
the walk never errors — in particular a merely absent key yields
`Ok(None)`. -/
theorem C6_get_error_iff (fuel : Nat) (db : Db) (n : MerkleNode) (p : NibbleVec) :
    (∀ e, get_by_node fuel db n p = .error e →
      e = .fuel ∨ e = .malformed ∨ ∃ h, e = Error.require h ∧ db h = none) ∧
    (resolvN fuel db n = true → ∃ v, get_by_node fuel db n p = .ok v) :=
  ⟨fun e he => get_error_shape_node fuel db n p e he,
   fun hr => get_resolv_ok_node fuel db n p hr⟩

/-- C6 witness: looking up an absent key in a concrete fully resolvable
one-leaf trie returns `Ok(None)`. -/
theorem C6_get_error_iff_witness :
    (resolvN 5 (fun _ => none) (.leaf [⟨1, by omega⟩] [7]) = true) ∧
    (∃ v, get_by_node 5 (fun _ => none) (.leaf [⟨1, by omega⟩] [7]) [⟨2, by omega⟩] = .ok v) :=
  ⟨by decide,
    (C6_get_error_iff 5 (fun _ => none) (.leaf [⟨1, by omega⟩] [7]) [⟨2, by omega⟩]).2
      (by decide)⟩

/-- `MerkleIterator` (`iter.rs`): the walk state — accumulated nibble
prefix (`prefix` in the source), the raw bytes of the current node
(`value`, kept as the parsed RLP item), the child slot index, an optional
nested child iterator, and the empty marker. -/
inductive MerkleIterator where
  | mk (pfx : NibbleVec) (value : RlpItem) (index : Nat)
       (child : Option MerkleIterator) (is_empty : Bool)

/-- Accumulated prefix of an iterator state. -/
def MerkleIterator.pfx : MerkleIterator → NibbleVec
  | .mk p _ _ _ _ => p

/-- Current node bytes of an iterator state. -/
def MerkleIterator.value : MerkleIterator → RlpItem
  | .mk _ v _ _ _ => v

/-- Child index of an iterator state. -/
def MerkleIterator.index : MerkleIterator → Nat
  | .mk _ _ i _ _ => i

/-- Nested child iterator. -/
def MerkleIterator.child : MerkleIterator → Option MerkleIterator
  | .mk _ _ _ c _ => c

/-- Empty marker. -/
def MerkleIterator.is_empty : MerkleIterator → Bool
  | .mk _ _ _ _ e => e

/-- `MerkleIterator::new`: start at the given root node bytes. -/
def MerkleIterator.new (value : RlpItem) : MerkleIterator :=
  .mk [] value 0 none false

/-- `iter::prepare_value_as_child` (`iter.rs`): build the nested iterator
for a child value — `Empty` has none, `Full` embeds the re-encoded node,
`Hash` fetches the bytes (`unwrap` panics when absent). -/
def prepare_value_as_child (db : Db) (pfx subnibble : NibbleVec)
    (value : MerkleValue) : Except Error (Option MerkleIterator) :=
  let nib := pfx ++ subnibble
  match value with
  | .empty => .ok none
  | .full sub_node => .ok (some (.mk nib sub_node.toItem 0 none false))
  | .hash h =>
    match db h with
    | none => .error .panic
    | some it => .ok (some (.mk nib it 0 none false))

mutual

/-- `MerkleIterator::next` (`iter.rs`): produce the next (key, value) pair
and the successor state (`none` when the walk is exhausted). -/
def MerkleIterator.next :
    Nat → Db → MerkleIterator → Except Error (Option (Bytes × Bytes) × MerkleIterator)
  | 0, _, _ => .error .fuel
  | fuel + 1, db, .mk pfx value index child is_empty =>
    if is_empty then .ok (none, .mk pfx value index child is_empty)
    else
      match MerkleNode.decode fuel value with
      | none => .error .malformed
      | some (.leaf node_nibble node_value) =>
        if index = 0 then
          .ok (some (nibble.into_key (pfx ++ node_nibble), node_value),
            .mk pfx value (index + 1) child is_empty)
        else
          .ok (none, .mk pfx value index child is_empty)
      | some (.ext node_nibble node_value) =>
        if index = 0 then do
          let child2 ← prepare_value_as_child db pfx node_nibble node_value
          match child2 with
          | some c => do
            let (res, c2) ← MerkleIterator.next fuel db c
            .ok (res, .mk pfx value (index + 1) (some c2) is_empty)
          | none => .ok (none, .mk pfx value index child2 is_empty)
        else
          match child with
          | some c => do
            let (res, c2) ← MerkleIterator.next fuel db c
            .ok (res, .mk pfx value index (some c2) is_empty)
          | none => .error .panic
      | some (.branch nodes additional) => do
        let (res, index2, child2) ←
          MerkleIterator.branchLoop fuel db nodes additional pfx index child
        .ok (res, .mk pfx value index2 child2 is_empty)

/-- The `while self.index <= 16` loop of the branch arm of
`MerkleIterator::next`: drain the child iterator of each slot in
ascending order, then the branch value slot. -/
def MerkleIterator.branchLoop (fuel2 : Nat) (db : Db) (nodes : List MerkleValue)
    (additional : Option Bytes) (pfx : NibbleVec) :
    Nat → Option MerkleIterator → Except Error (Option (Bytes × Bytes) × Nat × Option MerkleIterator) :=
  match fuel2 with
  | 0 => fun _ _ => .error .fuel
  | fuel + 1 => fun index child =>
    if index ≤ 16 then
      if hidx : index < 16 then
        match child with
        | some c => do
          let (res, c2) ← MerkleIterator.next fuel db c
          match res with
          | some val => .ok (some val, index, some c2)
          | none => MerkleIterator.branchLoop fuel db nodes additional pfx index none
        | none =>
          let value := nodes.getD index .empty
          let subnibble : NibbleVec := [⟨index, hidx⟩]
          match prepare_value_as_child db pfx subnibble value with
          | .error e => .error e
          | .ok child2 =>
            MerkleIterator.branchLoop fuel db nodes additional pfx (index + 1) child2
      else
        match additional with
        | some val =>
          .ok (some (nibble.into_key pfx, val), index + 1, child)
        | none =>
          MerkleIterator.branchLoop fuel db nodes additional pfx (index + 1) child
    else
      .ok (none, index, child)

end

/-- Drain an iterator into the list of pairs it yields. -/
def iterAll : Nat → Db → MerkleIterator → Except Error (List (Bytes × Bytes))
  | 0, _, _ => .error .fuel
  | fuel + 1, db, st => do
    let (res, st2) ← MerkleIterator.next fuel db st
    match res with
    | none => .ok []
    | some kv => do
      let rest ← iterAll fuel db st2
      .ok (kv :: rest)

instance exceptDecEq {e a : Type} [DecidableEq e] [DecidableEq a] :
    DecidableEq (Except e a) := fun x y =>
  match x, y with
  | .error e1, .error e2 =>
    decidable_of_iff (e1 = e2) ⟨fun h => by rw [h], fun h => by cases h; rfl⟩
  | .ok a1, .ok a2 =>
    decidable_of_iff (a1 = a2) ⟨fun h => by rw [h], fun h => by cases h; rfl⟩
  | .error _, .ok _ => isFalse (fun h => by cases h)
  | .ok _, .error _ => isFalse (fun h => by cases h)

/-- The two-key map of the C4 counterexample: `[100,111]` terminates at
the value slot of the branch its extension leads to, `[100,111,103]`
passes through that branch. -/
def c4Map : List (Bytes × Bytes) := [([100, 111], [10]), ([100, 111, 103], [11])]

/-- C4 counterexample: iterating the trie of `c4Map` yields the longer key
`[100,111,103]` before its strict prefix `[100,111]` — the branch value
slot is visited at index 16, after all 16 children — refuting the claimed
ascending nibble-path order. -/
theorem C4_counterexample :
    (MemoryTrieMut.build padHash 200 c4Map).bind (fun t =>
      (t.database t.root).map (fun it => iterAll 100 t.database (MerkleIterator.new it))) =
      some (.ok [([100, 111, 103], [11]), ([100, 111], [10])]) := by decide

mutual

theorem MerkleNode.decode_mono : ∀ (f f2 : Nat) (it : RlpItem) (n : MerkleNode),
    f ≤ f2 → MerkleNode.decode f it = some n → MerkleNode.decode f2 it = some n
  | 0, _, _, _, _, h => by simp [MerkleNode.decode] at h
  | f + 1, f2, it, n, hle, h => by
    obtain ⟨g, rfl⟩ : ∃ g, f2 = g + 1 := ⟨f2 - 1, by omega⟩
    have hfg : f ≤ g := by omega
    rcases it with s | xs
    · simp [MerkleNode.decode] at h
    · rcases xs with - | ⟨a, - | ⟨b, - | ⟨c, rest⟩⟩⟩
      · simp [MerkleNode.decode] at h
      · simp [MerkleNode.decode] at h
      · simp only [MerkleNode.decode] at h ⊢
        cases hnd : nibble.decode a.data with
        | none => rw [hnd] at h; cases h
        | some pt =>
          rw [hnd] at h
          rcases pt with ⟨nib, ty⟩
          cases ty
          · exact h
          · cases hvd : MerkleValue.decode f b with
            | none => rw [hvd] at h; cases h
            | some cval =>
              rw [hvd] at h
              rw [MerkleValue.decode_val_mono f g b cval hfg hvd]
              exact h
      · by_cases h17 : (a :: b :: c :: rest).length = 17
        · rw [MerkleNode.decode_list17 f _ h17] at h
          rw [MerkleNode.decode_list17 g _ h17]
          cases hdc : MerkleValue.decodeCount f 16 (a :: b :: c :: rest) with
          | none => rw [hdc] at h; cases h
          | some children =>
            rw [hdc] at h
            rw [MerkleValue.decodeCount_mono f g 16 (a :: b :: c :: rest) children hfg hdc]
            exact h
        · exfalso
          simp [MerkleNode.decode] at h
          simp only [List.length_cons] at h17
          omega

theorem MerkleValue.decodeCount_mono : ∀ (f f2 k : Nat) (xs : List RlpItem)
    (cs : List MerkleValue), f ≤ f2 →
    MerkleValue.decodeCount f k xs = some cs → MerkleValue.decodeCount f2 k xs = some cs
  | 0, _, _, _, _, _, h => by simp [MerkleValue.decodeCount] at h
  | f + 1, f2, 0, xs, cs, hle, h => by
    obtain ⟨g, rfl⟩ : ∃ g, f2 = g + 1 := ⟨f2 - 1, by omega⟩
    simpa [MerkleValue.decodeCount] using h
  | f + 1, f2, k + 1, [], cs, hle, h => by simp [MerkleValue.decodeCount] at h
  | f + 1, f2, k + 1, x :: rest, cs, hle, h => by
    obtain ⟨g, rfl⟩ : ∃ g, f2 = g + 1 := ⟨f2 - 1, by omega⟩
    have hfg : f ≤ g := by omega
    simp only [MerkleValue.decodeCount] at h ⊢
    cases hvd : MerkleValue.decode f x with
    | none => rw [hvd] at h; cases h
    | some cv =>
      rw [hvd] at h
      rw [MerkleValue.decode_val_mono f g x cv hfg hvd]
      cases hdc : MerkleValue.decodeCount f k rest with
      | none => rw [hdc] at h; cases h
      | some cs2 =>
        rw [hdc] at h
        rw [MerkleValue.decodeCount_mono f g k rest cs2 hfg hdc]
        exact h

theorem MerkleValue.decode_val_mono : ∀ (f f2 : Nat) (it : RlpItem) (c : MerkleValue),
    f ≤ f2 → MerkleValue.decode f it = some c → MerkleValue.decode f2 it = some c
  | 0, _, _, _, _, h => by simp [MerkleValue.decode] at h
  | f + 1, f2, it, c, hle, h => by
    obtain ⟨g, rfl⟩ : ∃ g, f2 = g + 1 := ⟨f2 - 1, by omega⟩
    have hfg : f ≤ g := by omega
    simp only [MerkleValue.decode] at h ⊢
    split at h
    · rw [if_pos (by assumption)]
      exact h
    · rw [if_neg (by assumption)]
      split at h
      · rw [if_pos (by assumption)]
        exact h
      · rw [if_neg (by assumption)]
        split at h
        · rw [if_pos (by assumption)]
          cases hnd : MerkleNode.decode f it with
          | none => rw [hnd] at h; cases h
          | some n =>
            rw [hnd] at h
            rw [MerkleNode.decode_mono f g it n hfg hnd]
            exact h
        · rw [if_neg (by assumption)]
          exact h

end

/- Canonical shape: the invariant the trie algorithms maintain for every
node reachable from a root they produced.  It is the key hypothesis of the
structural claims: extensions have a nonempty prefix and a branch child,
branches carry 16 children, at least two live entries and no empty-string
value, inline children are below the 32-byte threshold, and every hash
child is backed in the handle by exactly the encoding of a canonical,
non-inlinable node whose digest is that hash. -/

def MerkleNode.isBranch : MerkleNode → Bool
  | .branch _ _ => true
  | _ => false

theorem rlpLenHeader_length_pos (offset len : Nat) :
    0 < (rlpLenHeader offset len).length := by
  unfold rlpLenHeader; split <;> simp

/-- A node whose whole encoding is below 32 bytes has payload below 32
bytes (its header is nonempty). -/
theorem inlinable_size_lt (n : MerkleNode) (h : n.inlinable = true) :
    (MerkleNode.toItem n).size < 32 := by
  obtain ⟨x, xs, hshape⟩ := MerkleNode.toItem_cons n
  simp only [MerkleNode.inlinable, MerkleNode.encBytes, hshape, rlpSerialize,
    List.length_append, decide_eq_true_eq] at h
  have hpos := rlpLenHeader_length_pos 0xc0 (rlpPayload (x :: xs)).length
  simp only [RlpItem.size, hshape, RlpItem.data]
  omega

mutual

/-- Canonical shape of a node (see the section comment).  Fuel flows
exactly as in the get/insert/delete walks. -/
def canonN (H : Bytes → Bytes) : Nat → Db → MerkleNode → Bool
  | 0, _, _ => false
  | _ + 1, _, .leaf _ value => decide (value ≠ [])
  | fuel + 1, db, .ext p c =>
    decide (p ≠ []) && canonV H fuel true db c
  | fuel + 1, db, .branch cs v =>
    decide (cs.length = 16) && decide (2 ≤ nonempty_node_count cs v) &&
    decide (v ≠ some ([] : Bytes)) &&
    canonV H fuel false db (cs.getD 0 .empty) &&
    canonV H fuel false db (cs.getD 1 .empty) &&
    canonV H fuel false db (cs.getD 2 .empty) &&
    canonV H fuel false db (cs.getD 3 .empty) &&
    canonV H fuel false db (cs.getD 4 .empty) &&
    canonV H fuel false db (cs.getD 5 .empty) &&
    canonV H fuel false db (cs.getD 6 .empty) &&
    canonV H fuel false db (cs.getD 7 .empty) &&
    canonV H fuel false db (cs.getD 8 .empty) &&
    canonV H fuel false db (cs.getD 9 .empty) &&
    canonV H fuel false db (cs.getD 10 .empty) &&
    canonV H fuel false db (cs.getD 11 .empty) &&
    canonV H fuel false db (cs.getD 12 .empty) &&
    canonV H fuel false db (cs.getD 13 .empty) &&
    canonV H fuel false db (cs.getD 14 .empty) &&
    canonV H fuel false db (cs.getD 15 .empty)

/-- Canonical shape of a child reference.  `req` is true when the child
sits under an extension, which must point at a branch. -/
def canonV (H : Bytes → Bytes) : Nat → Bool → Db → MerkleValue → Bool
  | 0, _, _, _ => false
  | _ + 1, req, _, .empty => !req
  | fuel + 1, req, db, .full n =>
    canonN H fuel db n && n.inlinable && (!req || n.isBranch)
  | fuel + 1, req, db, .hash h =>
    match db h with
    | none => false
    | some it =>
      match MerkleNode.decode fuel it with
      | none => false
      | some n =>
        canonN H fuel db n && !n.inlinable && decide (MerkleNode.toItem n = it) &&
          decide (H (rlpSerialize it) = h) && decide (h.length = 32) &&
          (!req || n.isBranch)

end

theorem canonN_branch_child {H : Bytes → Bytes} (fuel : Nat) (db : Db)
    (cs : List MerkleValue) (v : Option Bytes)
    (h : canonN H (fuel + 1) db (.branch cs v) = true) (i : Fin 16) :
    canonV H fuel false db (cs.getD (i : Nat) .empty) = true := by
  simp only [canonN, Bool.and_eq_true] at h
  obtain ⟨⟨⟨⟨⟨⟨⟨⟨⟨⟨⟨⟨⟨⟨⟨⟨⟨⟨h0, h1⟩, h2⟩, h3⟩, h4⟩, h5⟩, h6⟩, h7⟩, h8⟩, h9⟩,
    h10⟩, h11⟩, h12⟩, h13⟩, h14⟩, h15⟩, h16⟩, h17⟩, h18⟩ := h
  fin_cases i <;> assumption

theorem canonN_branch_parts {H : Bytes → Bytes} (fuel : Nat) (db : Db)
    (cs : List MerkleValue) (v : Option Bytes)
    (h : canonN H (fuel + 1) db (.branch cs v) = true) :
    cs.length = 16 ∧ 2 ≤ nonempty_node_count cs v ∧ v ≠ some ([] : Bytes) := by
  simp only [canonN, Bool.and_eq_true, decide_eq_true_eq] at h
  exact ⟨h.1.1.1.1.1.1.1.1.1.1.1.1.1.1.1.1.1.1,
    h.1.1.1.1.1.1.1.1.1.1.1.1.1.1.1.1.1.2,
    h.1.1.1.1.1.1.1.1.1.1.1.1.1.1.1.1.2⟩

theorem MerkleValue.listWfB_of_forall : ∀ cs : List MerkleValue,
    (∀ c ∈ cs, MerkleValue.wfB c = true) → MerkleValue.listWfB cs = true
  | [], _ => rfl
  | c :: cs, h => by
    simp only [MerkleValue.listWfB, Bool.and_eq_true]
    exact ⟨h c (List.mem_cons_self c cs),
      MerkleValue.listWfB_of_forall cs (fun x hx => h x (List.mem_cons_of_mem c hx))⟩

mutual

/-- Canonical nodes are well-formed (so their encodings round-trip). -/
theorem canonN_wf {H : Bytes → Bytes} : ∀ (fuel : Nat) (db : Db) (n : MerkleNode),
    canonN H fuel db n = true → MerkleNode.wfB n = true
  | 0, _, _, h => by simp [canonN] at h
  | fuel + 1, db, .leaf p v, _ => rfl
  | fuel + 1, db, .ext p c, h => by
    simp only [canonN, Bool.and_eq_true] at h
    simpa only [MerkleNode.wfB] using canonV_wf fuel true db c h.2
  | fuel + 1, db, .branch cs v, h => by
    obtain ⟨hlen, _, hv⟩ := canonN_branch_parts fuel db cs v h
    simp only [MerkleNode.wfB, Bool.and_eq_true, decide_eq_true_eq]
    refine ⟨⟨hlen, ?_⟩, hv⟩
    refine MerkleValue.listWfB_of_forall cs (fun c hc => ?_)
    obtain ⟨i, hi, hci⟩ := List.mem_iff_getElem.mp hc
    have hi16 : i < 16 := by omega
    have := canonN_branch_child fuel db cs v h ⟨i, hi16⟩
    rw [List.getD_eq_getElem cs .empty hi] at this
    rw [← hci]
    exact canonV_wf fuel false db _ this

theorem canonV_wf {H : Bytes → Bytes} : ∀ (fuel : Nat) (req : Bool) (db : Db)
    (c : MerkleValue), canonV H fuel req db c = true → MerkleValue.wfB c = true
  | 0, _, _, _, h => by simp [canonV] at h
  | fuel + 1, req, db, .empty, _ => rfl
  | fuel + 1, req, db, .full n, h => by
    simp only [canonV, Bool.and_eq_true] at h
    simp only [MerkleValue.wfB, Bool.and_eq_true, decide_eq_true_eq]
    exact ⟨canonN_wf fuel db n h.1.1, inlinable_size_lt n h.1.2⟩
  | fuel + 1, req, db, .hash hh, h => by
    simp only [canonV] at h
    cases hdb : db hh with
    | none => simp only [hdb] at h; cases h
    | some it =>
      simp only [hdb] at h
      cases hdec : MerkleNode.decode fuel it with
      | none => simp only [hdec] at h; cases h
      | some n =>
        simp only [hdec] at h
        simp only [Bool.and_eq_true, decide_eq_true_eq] at h
        simp only [MerkleValue.wfB, decide_eq_true_eq]
        exact h.1.2

end

/- Change-set bookkeeping: a change is database-neutral when every staged
addition re-asserts bytes the handle already stores and no removal
survives.  The walks below stage a removal only for a hash they later
re-add, so neutrality composes through `merge`. -/

/-- Every staged addition is already present, byte for byte, in the
handle. -/
def Change.dbSub (db : Db) (c : Change) : Prop :=
  ∀ q ∈ c.adds, db q.1 = some q.2

/-- Every staged removal is among the given hashes. -/
def Change.remSub (hs : List Bytes) (c : Change) : Prop :=
  ∀ x ∈ c.removes, x ∈ hs

theorem Change.dbSub_empty (db : Db) : Change.dbSub db Change.empty := by
  intro q hq; cases hq

theorem Change.remSub_empty (hs : List Bytes) : Change.remSub hs Change.empty := by
  intro x hx; cases hx

theorem Change.remSub_mono {hs hs2 : List Bytes} {c : Change} (hsub : hs ⊆ hs2)
    (hc : Change.remSub hs c) : Change.remSub hs2 c :=
  fun x hx => hsub (hc x hx)

theorem Change.dbSub_add_raw {db : Db} {c : Change} {h : Bytes} {it : RlpItem}
    (hc : Change.dbSub db c) (hdb : db h = some it) :
    Change.dbSub db (c.add_raw h it) := by
  intro q hq
  simp only [Change.add_raw, List.mem_append, List.mem_filter,
    List.mem_singleton] at hq
  rcases hq with ⟨hq, -⟩ | rfl
  · exact hc q hq
  · exact hdb

theorem Change.remSub_add_raw {hs : List Bytes} {c : Change} {h : Bytes}
    {it : RlpItem} (hc : Change.remSub hs c) :
    Change.remSub hs (c.add_raw h it) := by
  intro x hx
  simp only [Change.add_raw, List.mem_filter] at hx
  exact hc x hx.1

theorem Change.dbSub_remove_raw {db : Db} {c : Change} {h : Bytes}
    (hc : Change.dbSub db c) : Change.dbSub db (c.remove_raw h) := by
  intro q hq
  simp only [Change.remove_raw, List.mem_filter] at hq
  exact hc q hq.1

theorem Change.remSub_remove_raw {hs : List Bytes} {c : Change} {h : Bytes}
    (hc : Change.remSub hs c) (hh : h ∈ hs) :
    Change.remSub hs (c.remove_raw h) := by
  intro x hx
  simp only [Change.remove_raw, List.mem_append, List.mem_filter,
    List.mem_singleton] at hx
  rcases hx with ⟨hx, -⟩ | rfl
  · exact hc x hx
  · exact hh

theorem Change.dbSub_foldl_add {db : Db} :
    ∀ (ps : List (Bytes × RlpItem)) (c : Change),
    (∀ q ∈ ps, db q.1 = some q.2) → Change.dbSub db c →
    Change.dbSub db (ps.foldl (fun acc p => acc.add_raw p.1 p.2) c)
  | [], c, _, hc => hc
  | p :: ps, c, hps, hc => by
    simp only [List.foldl_cons]
    exact Change.dbSub_foldl_add ps _ (fun q hq => hps q (List.mem_cons_of_mem p hq))
      (Change.dbSub_add_raw hc (hps p (List.mem_cons_self p ps)))

theorem Change.remSub_foldl_add {hs : List Bytes} :
    ∀ (ps : List (Bytes × RlpItem)) (c : Change), Change.remSub hs c →
    Change.remSub hs (ps.foldl (fun acc p => acc.add_raw p.1 p.2) c)
  | [], c, hc => hc
  | p :: ps, c, hc => by
    simp only [List.foldl_cons]
    exact Change.remSub_foldl_add ps _ (Change.remSub_add_raw hc)

theorem Change.dbSub_foldl_remove {db : Db} :
    ∀ (rs : List Bytes) (c : Change), Change.dbSub db c →
    Change.dbSub db (rs.foldl (fun acc h => acc.remove_raw h) c)
  | [], c, hc => hc
  | r :: rs, c, hc => by
    simp only [List.foldl_cons]
    exact Change.dbSub_foldl_remove rs _ (Change.dbSub_remove_raw hc)

theorem Change.remSub_foldl_remove {hs : List Bytes} :
    ∀ (rs : List Bytes) (c : Change), Change.remSub hs c →
    (∀ x ∈ rs, x ∈ hs) →
    Change.remSub hs (rs.foldl (fun acc h => acc.remove_raw h) c)
  | [], c, hc, _ => hc
  | r :: rs, c, hc, hrs => by
    simp only [List.foldl_cons]
    exact Change.remSub_foldl_remove rs _
      (Change.remSub_remove_raw hc (hrs r (List.mem_cons_self r rs)))
      (fun x hx => hrs x (List.mem_cons_of_mem r hx))

theorem Change.dbSub_merge {db : Db} {c c2 : Change} (hc : Change.dbSub db c)
    (h2 : Change.dbSub db c2) : Change.dbSub db (c.merge c2) := by
  unfold Change.merge
  exact Change.dbSub_foldl_remove c2.removes _ (Change.dbSub_foldl_add c2.adds c h2 hc)

theorem Change.remSub_merge {hs : List Bytes} {c c2 : Change}
    (hc : Change.remSub hs c) (h2 : Change.remSub hs c2) :
    Change.remSub hs (c.merge c2) := by
  unfold Change.merge
  exact Change.remSub_foldl_remove c2.removes _ (Change.remSub_foldl_add c2.adds c hc) h2

theorem Change.remSub_close {c : Change} {h : Bytes} {it : RlpItem}
    (hc : Change.remSub [h] c) : Change.remSub [] (c.add_raw h it) := by
  intro x hx
  simp only [Change.add_raw, List.mem_filter, decide_eq_true_eq, ne_eq] at hx
  have := hc x hx.1
  simp only [List.mem_singleton] at this
  exact absurd this hx.2

theorem Change.remSub_nil_eq {c : Change} (hc : Change.remSub [] c) :
    c.removes = [] := by
  rcases hr : c.removes with - | ⟨x, xs⟩
  · rfl
  · exact absurd (hc x (by rw [hr]; exact List.mem_cons_self x xs)) (by simp)

theorem set_getD_self {α : Type} : ∀ (l : List α) (i : Nat) (d : α),
    l.set i (l.getD i d) = l
  | [], _, _ => rfl
  | a :: l, 0, d => rfl
  | a :: l, i + 1, d => by
    show a :: l.set i (l.getD i d) = a :: l
    rw [set_getD_self l i d]

theorem Change.merge_empty (c : Change) : c.merge Change.empty = c := rfl

/-- The relation between a canonical child reference and the node it
resolves to: `Change::add_value` applied to the node reproduces the
reference (inline below the threshold, else the digest already backed by
the handle). -/
def addValueInv (H : Bytes → Bytes) (db : Db) (c : MerkleValue)
    (n : MerkleNode) : Prop :=
  (n.inlinable = true ∧ c = .full n) ∨
  (n.inlinable = false ∧ c = .hash (H n.encBytes) ∧ db (H n.encBytes) = some n.toItem)

theorem add_value_close {H : Bytes → Bytes} {db : Db} {c : MerkleValue}
    {n : MerkleNode} (hinv : addValueInv H db c n) (acc : Change)
    (hdb : Change.dbSub db acc)
    (hrs : Change.remSub (if n.inlinable then ([] : List Bytes) else [H n.encBytes]) acc) :
    (acc.add_value H n).1 = c ∧ Change.dbSub db (acc.add_value H n).2 ∧
      Change.remSub [] (acc.add_value H n).2 := by
  rcases hinv with ⟨hinl, rfl⟩ | ⟨hninl, rfl, hdbn⟩
  · rw [if_pos hinl] at hrs
    have h2 : acc.add_value H n = (.full n, acc) := by
      simp only [Change.add_value]
      rw [if_pos hinl]
    rw [h2]
    exact ⟨rfl, hdb, hrs⟩
  · rw [if_neg (by simp [hninl])] at hrs
    have h2 : acc.add_value H n =
        (.hash (H n.encBytes), acc.add_raw (H n.encBytes) n.toItem) := by
      simp only [Change.add_value]
      rw [if_neg (by simp [hninl])]
    rw [h2]
    exact ⟨rfl, Change.dbSub_add_raw hdb hdbn, Change.remSub_close hrs⟩

theorem add_value_merge_close {H : Bytes → Bytes} {db : Db} {c : MerkleValue}
    {n : MerkleNode} (hinv : addValueInv H db c n) (acc : Change)
    (hdb : Change.dbSub db acc)
    (hrs : Change.remSub (if n.inlinable then ([] : List Bytes) else [H n.encBytes]) acc) :
    (Change.empty.add_value H n).1 = c ∧
    Change.dbSub db (acc.merge (Change.empty.add_value H n).2) ∧
    Change.remSub [] (acc.merge (Change.empty.add_value H n).2) := by
  rcases hinv with ⟨hinl, rfl⟩ | ⟨hninl, rfl, hdbn⟩
  · rw [if_pos hinl] at hrs
    have h2 : Change.empty.add_value H n = (.full n, Change.empty) := by
      simp only [Change.add_value]
      rw [if_pos hinl]
    rw [h2]
    rw [Change.merge_empty]
    exact ⟨rfl, hdb, hrs⟩
  · rw [if_neg (by simp [hninl])] at hrs
    have h2 : Change.empty.add_value H n =
        (.hash (H n.encBytes), Change.empty.add_raw (H n.encBytes) n.toItem) := by
      simp only [Change.add_value]
      rw [if_neg (by simp [hninl])]
    rw [h2]
    have hm : acc.merge (Change.empty.add_raw (H n.encBytes) n.toItem) =
        acc.add_raw (H n.encBytes) n.toItem := rfl
    rw [hm]
    exact ⟨rfl, Change.dbSub_add_raw hdb hdbn, Change.remSub_close hrs⟩

mutual

/-- Deleting a key the get walk reports absent leaves a canonical node
unchanged, and every change it stages is database-neutral. -/
theorem delete_absent_node {H : Bytes → Bytes} : ∀ (fuel : Nat) (db : Db)
    (n : MerkleNode) (p : NibbleVec),
    canonN H fuel db n = true →
    get_by_node fuel db n p = .ok none →
    ∃ ch, delete_by_node H fuel db n p = .ok (some n, ch) ∧
      Change.dbSub db ch ∧ Change.remSub [] ch
  | 0, db, n, p, hc, _ => by simp [canonN] at hc
  | fuel + 1, db, .leaf nn nv, p, _, hg => by
    simp only [get_by_node] at hg
    split at hg
    · exact absurd (Except.ok.inj hg) (by simp)
    · refine ⟨Change.empty, ?_, Change.dbSub_empty db, Change.remSub_empty []⟩
      simp only [delete_by_node]
      rw [if_neg (by assumption)]
  | fuel + 1, db, .ext nn nv, p, hc, hg => by
    simp only [canonN, Bool.and_eq_true] at hc
    simp only [get_by_node] at hg
    by_cases hpre : nn.isPrefixOf p
    · rw [if_pos hpre] at hg
      rcases delete_absent_child fuel true db nv (p.drop nn.length) hc.2 hg with
        ⟨hemp, -⟩ | ⟨m, ch, hdel, hdbS, hrs, hinv, hbr⟩
      · rw [hemp] at hc
        have hc2 := hc.2
        rcases fuel with - | w <;> simp [canonV] at hc2
      · have hbr2 := hbr rfl
        obtain ⟨bcs, bv, rfl⟩ : ∃ bcs bv, m = .branch bcs bv := by
          cases m with
          | branch bcs bv => exact ⟨bcs, bv, rfl⟩
          | leaf a b => simp [MerkleNode.isBranch] at hbr2
          | ext a b => simp [MerkleNode.isBranch] at hbr2
        obtain ⟨hsv, hdbF, hrsF⟩ := add_value_merge_close hinv (Change.empty.merge ch)
          (Change.dbSub_merge (Change.dbSub_empty db) hdbS)
          (Change.remSub_merge (Change.remSub_empty _) hrs)
        rcases hav : Change.empty.add_value H (MerkleNode.branch bcs bv) with ⟨sv, cv⟩
        rw [hav] at hsv hdbF hrsF
        simp only at hsv hdbF hrsF
        refine ⟨(Change.empty.merge ch).merge cv, ?_, hdbF, hrsF⟩
        simp only [delete_by_node]
        rw [if_pos hpre]
        simp only [bind, Except.bind, hdel, collapse_extension, hav]
        rw [hsv]
    · rw [if_neg hpre] at hg
      refine ⟨Change.empty, ?_, Change.dbSub_empty db, Change.remSub_empty []⟩
      simp only [delete_by_node]
      rw [if_neg hpre]
  | 1, db, .branch cs v, p, hc, hg => by
    have h0 := canonN_branch_child 0 db cs v hc (0 : Fin 16)
    simp [canonV] at h0
  | g + 2, db, .branch cs v, p, hc, hg => by
    obtain ⟨hlen, hcount, hvne⟩ := canonN_branch_parts (g + 1) db cs v hc
    obtain ⟨k, hk⟩ : ∃ k, nonempty_node_count cs v = k + 2 :=
      ⟨nonempty_node_count cs v - 2, by omega⟩
    simp only [get_by_node] at hg
    match p, hg with
    | [], hg =>
      have hv : v = none := Except.ok.inj hg
      subst hv
      have heq : delete_by_node H (g + 1 + 1) db (.branch cs none) [] =
          .ok (some (.branch cs none), Change.empty) := by
        simp only [delete_by_node, bind, Except.bind, pure, Except.pure,
          Change.merge_empty, collapse_branch, hk]
        have hp : k + 2 > 0 := by omega
        simp [hp]
      exact ⟨Change.empty, heq, Change.dbSub_empty db, Change.remSub_empty []⟩
    | ni :: rest, hg =>
      have hcv := canonN_branch_child (g + 1) db cs v hc ⟨(ni : Nat), ni.isLt⟩
      rcases delete_absent_child (g + 1) false db (cs.getD (ni : Nat) .empty) rest
          hcv hg with ⟨hemp, hdelc⟩ | ⟨m, ch, hdelc, hdbS, hrs, hinv, -⟩
      · have hset : cs.set (ni : Nat) MerkleValue.empty = cs := by
          conv_lhs => rw [← hemp]
          exact set_getD_self cs (ni : Nat) .empty
        have heq : delete_by_node H (g + 1 + 1) db (.branch cs v) (ni :: rest) =
            .ok (some (.branch cs v), Change.empty) := by
          simp only [delete_by_node, bind, Except.bind, pure, Except.pure, hdelc,
            Change.merge_empty, hset, collapse_branch, hk]
          have hp : k + 2 > 0 := by omega
          simp [hp]
        exact ⟨Change.empty, heq, Change.dbSub_empty db, Change.remSub_empty []⟩
      · obtain ⟨hsv, hdbF, hrsF⟩ := add_value_close hinv (Change.empty.merge ch)
          (Change.dbSub_merge (Change.dbSub_empty db) hdbS)
          (Change.remSub_merge (Change.remSub_empty _) hrs)
        rcases hav : (Change.empty.merge ch).add_value H m with ⟨sv, cv⟩
        rw [hav] at hsv hdbF hrsF
        simp only at hsv hdbF hrsF
        have hset : cs.set (ni : Nat) sv = cs := by
          rw [hsv]
          exact set_getD_self cs (ni : Nat) .empty
        have heq : delete_by_node H (g + 1 + 1) db (.branch cs v) (ni :: rest) =
            .ok (some (.branch cs v), cv) := by
          simp only [delete_by_node, bind, Except.bind, pure, Except.pure, hdelc, hav,
            hset]
          simp
        exact ⟨cv, heq, hdbF, hrsF⟩

/-- Deleting an absent key through a child reference: an `Empty` child is
untouched; otherwise the materialized child node comes back unchanged with
a change-set whose only possible removal is the hash the parent re-adds. -/
theorem delete_absent_child {H : Bytes → Bytes} : ∀ (fuel : Nat) (req : Bool) (db : Db)
    (c : MerkleValue) (p : NibbleVec),
    canonV H fuel req db c = true →
    get_by_value fuel db c p = .ok none →
    (c = .empty ∧ delete_by_child H fuel db c p = .ok (none, Change.empty)) ∨
    (∃ n ch, delete_by_child H fuel db c p = .ok (some n, ch) ∧
      Change.dbSub db ch ∧
      Change.remSub (if n.inlinable then ([] : List Bytes) else [H n.encBytes]) ch ∧
      addValueInv H db c n ∧ (req = true → n.isBranch = true))
  | 0, req, db, c, p, hc, _ => by simp [canonV] at hc
  | fuel + 1, req, db, .empty, p, _, _ => Or.inl ⟨rfl, rfl⟩
  | fuel + 1, req, db, .full m, p, hc, hg => by
    simp only [canonV, Bool.and_eq_true] at hc
    obtain ⟨⟨hcn, hinl⟩, hreq⟩ := hc
    simp only [get_by_value] at hg
    obtain ⟨ch, hdel, hdbS, hrs⟩ := delete_absent_node fuel db m p hcn hg
    refine Or.inr ⟨m, Change.empty.merge ch, ?_,
      Change.dbSub_merge (Change.dbSub_empty db) hdbS, ?_, Or.inl ⟨hinl, rfl⟩, ?_⟩
    · simp only [delete_by_child, bind, Except.bind, hdel]
    · rw [if_pos hinl]
      exact Change.remSub_merge (Change.remSub_empty _) hrs
    · intro hr
      rw [hr] at hreq
      simpa using hreq
  | fuel + 1, req, db, .hash hh, p, hc, hg => by
    simp only [canonV] at hc
    cases hdb : db hh with
    | none =>
      simp only [hdb] at hc
      cases hc
    | some it =>
      simp only [hdb] at hc
      cases hdec : MerkleNode.decode fuel it with
      | none =>
        simp only [hdec] at hc
        cases hc
      | some m =>
        simp only [hdec] at hc
        simp only [Bool.and_eq_true, decide_eq_true_eq] at hc
        obtain ⟨⟨⟨⟨⟨hcn, hninl⟩, hti⟩, hH⟩, hlen32⟩, hreq⟩ := hc
        have hninl2 : m.inlinable = false := by simpa using hninl
        simp only [get_by_value, dbGetWithError, hdb, bind, Except.bind, hdec] at hg
        obtain ⟨ch, hdel, hdbS, hrs⟩ := delete_absent_node fuel db m p hcn hg
        have hHe : H m.encBytes = hh := by
          rw [MerkleNode.encBytes, hti]
          exact hH
        refine Or.inr ⟨m, (Change.empty.remove_raw hh).merge ch, ?_, ?_, ?_, ?_, ?_⟩
        · simp only [delete_by_child, dbGetWithError, hdb, bind, Except.bind, hdec, hdel]
        · exact Change.dbSub_merge (Change.dbSub_remove_raw (Change.dbSub_empty db)) hdbS
        · rw [if_neg (by simp [hninl2]), hHe]
          refine Change.remSub_merge ?_ (Change.remSub_mono (by simp) hrs)
          intro x hx
          simpa [Change.remove_raw, Change.empty] using hx
        · refine Or.inr ⟨hninl2, ?_, ?_⟩
          · rw [hHe]
          · rw [hHe, hdb, hti]
        · intro hr
          rw [hr] at hreq
          simpa using hreq

end

theorem dbInsert_foldl_neutral : ∀ (ps : List (Bytes × RlpItem)) (db : Db),
    (∀ q ∈ ps, db q.1 = some q.2) →
    ∀ h2, (ps.foldl (fun d p => dbInsert d p.1 p.2) db) h2 = db h2
  | [], db, _, h2 => rfl
  | p :: ps, db, hps, h2 => by
    simp only [List.foldl_cons]
    rw [dbInsert_foldl_neutral ps (dbInsert db p.1 p.2) ?later h2]
    case later =>
      intro q hq
      unfold dbInsert
      split
      · rename_i heq
        rw [← hps q (List.mem_cons_of_mem p hq), heq, hps p (List.mem_cons_self p ps)]
      · exact hps q (List.mem_cons_of_mem p hq)
    unfold dbInsert
    split
    · rename_i heq
      rw [heq, hps p (List.mem_cons_self p ps)]
    · rfl

/-- Applying a database-neutral change-set leaves the store pointwise
unchanged. -/
theorem apply_change_neutral (db : Db) (root : Bytes) (ch : Change)
    (hdb : Change.dbSub db ch) (hrs : Change.remSub [] ch) :
    ∀ h2, (MemoryTrieMut.apply_change ⟨db, root⟩ ch).database h2 = db h2 := by
  intro h2
  have hrm : ch.removes = [] := Change.remSub_nil_eq hrs
  simp only [MemoryTrieMut.apply_change, hrm, List.foldl_nil]
  exact dbInsert_foldl_neutral ch.adds db hdb h2

/-- C3 (amended): deleting a key that the get walk reports absent from a
canonical trie returns the same root hash, and the change-set it stages is
database-neutral: after add/remove cancellation no removal survives and
every staged addition re-asserts bytes the store already holds, so
applying the change leaves the store pointwise unchanged.  (The literally
empty change-set claimed holds only for the empty trie: the walk re-stages
the nodes it traversed, root included.) -/
theorem C3_delete_absent (H : Bytes → Bytes) (fuel : Nat) (db : Db)
    (root key : Bytes) (n : MerkleNode)
    (hne : root ≠ EMPTY_TRIE_HASH H)
    (hdb : db root = some n.toItem)
    (hdec : MerkleNode.decode fuel n.toItem = some n)
    (hroot : H n.encBytes = root)
    (hcanon : canonN H fuel db n = true)
    (habs : get H fuel db root key = .ok none) :
    ∃ ch, delete H fuel db root key = .ok (root, ch) ∧
      Change.remSub [] ch ∧ Change.dbSub db ch ∧
      ∀ h2, (MemoryTrieMut.apply_change ⟨db, root⟩ ch).database h2 = db h2 := by
  unfold get at habs
  rw [if_neg hne] at habs
  simp only [dbGetWithError, hdb, bind, Except.bind, hdec] at habs
  obtain ⟨ch, hdel, hdbS, hrs⟩ := delete_absent_node fuel db n (nibble.from_key key)
    hcanon habs
  have hfinal : delete H fuel db root key =
      .ok (H n.encBytes, ((Change.empty.remove_raw root).merge ch).add_node H n) := by
    unfold delete
    rw [if_neg hne]
    simp only [dbGetWithError, hdb, bind, Except.bind, hdec, hdel]
  rw [hroot] at hfinal
  have hrem0 : Change.remSub [root] (Change.empty.remove_raw root) := by
    intro x hx
    simpa [Change.remove_raw, Change.empty] using hx
  have hrem : Change.remSub []
      (((Change.empty.remove_raw root).merge ch).add_node H n) := by
    unfold Change.add_node
    rw [hroot]
    exact Change.remSub_close
      (Change.remSub_merge hrem0 (Change.remSub_mono (by simp) hrs))
  have hdbA : Change.dbSub db
      (((Change.empty.remove_raw root).merge ch).add_node H n) := by
    unfold Change.add_node
    rw [hroot]
    exact Change.dbSub_add_raw
      (Change.dbSub_merge (Change.dbSub_remove_raw (Change.dbSub_empty db)) hdbS) hdb
  exact ⟨_, hfinal, hrem, hdbA, apply_change_neutral db root _ hdbA hrem⟩

/-- Concrete single-leaf trie for the C3 witness. -/
def c3node : MerkleNode := .leaf (nibble.from_key [1]) [7]

def c3root : Bytes := padHash c3node.encBytes

def c3db : Db := fun b => if b = c3root then some c3node.toItem else none

/-- C3 witness: the amended absent-delete theorem at a concrete
single-leaf trie and absent key. -/
theorem C3_delete_absent_witness :
    (c3root ≠ EMPTY_TRIE_HASH padHash ∧
     c3db c3root = some c3node.toItem ∧
     MerkleNode.decode 3 c3node.toItem = some c3node ∧
     padHash c3node.encBytes = c3root ∧
     canonN padHash 3 c3db c3node = true ∧
     get padHash 3 c3db c3root [2] = .ok none) ∧
    ∃ ch, delete padHash 3 c3db c3root [2] = .ok (c3root, ch) ∧
      Change.remSub [] ch ∧ Change.dbSub c3db ch ∧
      ∀ h2, (MemoryTrieMut.apply_change ⟨c3db, c3root⟩ ch).database h2 = c3db h2 :=
  ⟨⟨by decide, by decide, by decide, by decide, by decide, by decide⟩,
    C3_delete_absent padHash 3 c3db c3root [2] c3node (by decide) (by decide)
      (by decide) (by decide) (by decide) (by decide)⟩

/- Liveness of branches in a node tree: every branch a node contains
in memory (following inline children, not hash references) has at least
two live entries.  This is the structural half of the collapse invariant
the delete algorithm maintains. -/

mutual

/-- No under-populated branch inside the in-memory node tree. -/
def MerkleNode.liveOk : MerkleNode → Bool
  | .leaf _ _ => true
  | .ext _ c => MerkleValue.liveOkV c
  | .branch cs v =>
    decide (2 ≤ nonempty_node_count cs v) && MerkleValue.liveOkList cs

def MerkleValue.liveOkV : MerkleValue → Bool
  | .empty => true
  | .hash _ => true
  | .full n => n.liveOk

def MerkleValue.liveOkList : List MerkleValue → Bool
  | [] => true
  | c :: cs => MerkleValue.liveOkV c && MerkleValue.liveOkList cs

end

theorem MerkleValue.liveOkList_of_forall : ∀ cs : List MerkleValue,
    (∀ c ∈ cs, MerkleValue.liveOkV c = true) → MerkleValue.liveOkList cs = true
  | [], _ => rfl
  | c :: cs, h => by
    simp only [MerkleValue.liveOkList, Bool.and_eq_true]
    exact ⟨h c (List.mem_cons_self c cs),
      MerkleValue.liveOkList_of_forall cs (fun x hx => h x (List.mem_cons_of_mem c hx))⟩

mutual

/-- Canonical nodes satisfy the branch-liveness invariant. -/
theorem canonN_liveOk {H : Bytes → Bytes} : ∀ (fuel : Nat) (db : Db) (n : MerkleNode),
    canonN H fuel db n = true → n.liveOk = true
  | 0, _, _, h => by simp [canonN] at h
  | fuel + 1, db, .leaf p v, _ => rfl
  | fuel + 1, db, .ext p c, h => by
    simp only [canonN, Bool.and_eq_true] at h
    simpa only [MerkleNode.liveOk] using canonV_liveOk fuel true db c h.2
  | fuel + 1, db, .branch cs v, h => by
    obtain ⟨hlen, hcount, hv⟩ := canonN_branch_parts fuel db cs v h
    simp only [MerkleNode.liveOk, Bool.and_eq_true, decide_eq_true_eq]
    refine ⟨hcount, ?_⟩
    refine MerkleValue.liveOkList_of_forall cs (fun c hc => ?_)
    obtain ⟨i, hi, hci⟩ := List.mem_iff_getElem.mp hc
    have hi16 : i < 16 := by omega
    have := canonN_branch_child fuel db cs v h ⟨i, hi16⟩
    rw [List.getD_eq_getElem cs .empty hi] at this
    rw [← hci]
    exact canonV_liveOk fuel false db _ this

theorem canonV_liveOk {H : Bytes → Bytes} : ∀ (fuel : Nat) (req : Bool) (db : Db)
    (c : MerkleValue), canonV H fuel req db c = true → MerkleValue.liveOkV c = true
  | 0, _, _, _, h => by simp [canonV] at h
  | fuel + 1, req, db, .empty, _ => rfl
  | fuel + 1, req, db, .full n, h => by
    simp only [canonV, Bool.and_eq_true] at h
    simpa only [MerkleValue.liveOkV] using canonN_liveOk fuel db n h.1.1
  | fuel + 1, req, db, .hash hh, _ => rfl

end

/-- Every staged addition is the encoding of a well-formed node all of
whose in-memory branches are at least two-live. -/
def Change.addsGood (c : Change) : Prop :=
  ∀ q ∈ c.adds, ∃ m : MerkleNode, q.2 = MerkleNode.toItem m ∧
    MerkleNode.wfB m = true ∧ m.liveOk = true

theorem Change.addsGood_empty : Change.addsGood Change.empty := by
  intro q hq; cases hq

theorem Change.addsGood_add_raw {c : Change} {h : Bytes} {m : MerkleNode}
    (hc : Change.addsGood c) (hw : MerkleNode.wfB m = true) (hl : m.liveOk = true) :
    Change.addsGood (c.add_raw h (MerkleNode.toItem m)) := by
  intro q hq
  simp only [Change.add_raw, List.mem_append, List.mem_filter,
    List.mem_singleton] at hq
  rcases hq with ⟨hq, -⟩ | rfl
  · exact hc q hq
  · exact ⟨m, rfl, hw, hl⟩

theorem Change.addsGood_remove_raw {c : Change} {h : Bytes}
    (hc : Change.addsGood c) : Change.addsGood (c.remove_raw h) := by
  intro q hq
  simp only [Change.remove_raw, List.mem_filter] at hq
  exact hc q hq.1

theorem Change.addsGood_foldl_add {ps : List (Bytes × RlpItem)}
    (hps : ∀ q ∈ ps, ∃ m : MerkleNode, q.2 = MerkleNode.toItem m ∧
      MerkleNode.wfB m = true ∧ m.liveOk = true) :
    ∀ (c : Change), Change.addsGood c →
    Change.addsGood (ps.foldl (fun acc p => acc.add_raw p.1 p.2) c) := by
  induction ps with
  | nil => intro c hc; exact hc
  | cons p ps ih =>
    intro c hc
    simp only [List.foldl_cons]
    obtain ⟨m, hm, hw, hl⟩ := hps p (List.mem_cons_self p ps)
    refine ih (fun q hq => hps q (List.mem_cons_of_mem p hq)) _ ?_
    rw [hm]
    exact Change.addsGood_add_raw hc hw hl

theorem Change.addsGood_foldl_remove : ∀ (rs : List Bytes) (c : Change),
    Change.addsGood c →
    Change.addsGood (rs.foldl (fun acc h => acc.remove_raw h) c)
  | [], c, hc => hc
  | r :: rs, c, hc => by
    simp only [List.foldl_cons]
    exact Change.addsGood_foldl_remove rs _ (Change.addsGood_remove_raw hc)

theorem Change.addsGood_merge {c c2 : Change} (hc : Change.addsGood c)
    (h2 : Change.addsGood c2) : Change.addsGood (c.merge c2) := by
  unfold Change.merge
  exact Change.addsGood_foldl_remove c2.removes _ (Change.addsGood_foldl_add h2 c hc)

theorem Change.addsGood_add_value {c : Change} {H : Bytes → Bytes} {n : MerkleNode}
    (hc : Change.addsGood c) (hw : MerkleNode.wfB n = true) (hl : n.liveOk = true) :
    Change.addsGood (c.add_value H n).2 := by
  unfold Change.add_value
  split
  · exact hc
  · exact Change.addsGood_add_raw hc hw hl

theorem Change.addsGood_add_node {c : Change} {H : Bytes → Bytes} {n : MerkleNode}
    (hc : Change.addsGood c) (hw : MerkleNode.wfB n = true) (hl : n.liveOk = true) :
    Change.addsGood (c.add_node H n) :=
  Change.addsGood_add_raw hc hw hl

theorem getD_set_ne {α : Type} : ∀ (l : List α) (i j : Nat) (x d : α), i ≠ j →
    (l.set i x).getD j d = l.getD j d
  | [], _, _, _, _, _ => rfl
  | a :: l, 0, 0, x, d, h => absurd rfl h
  | a :: l, 0, j + 1, x, d, _ => rfl
  | a :: l, i + 1, 0, x, d, _ => rfl
  | a :: l, i + 1, j + 1, x, d, h =>
    getD_set_ne l i j x d (fun he => h (by rw [he]))

theorem filter_length_set_nonempty : ∀ (cs : List MerkleValue) (i : Nat)
    (x : MerkleValue), cs.getD i .empty ≠ .empty → x ≠ .empty →
    ((cs.set i x).filter (fun c => decide (c ≠ MerkleValue.empty))).length =
      (cs.filter (fun c => decide (c ≠ MerkleValue.empty))).length
  | [], i, x, h, _ => by simp [List.getD] at h
  | c :: cs, 0, x, h, hx => by
    have hc : c ≠ MerkleValue.empty := by simpa using h
    show ((x :: cs).filter _).length = ((c :: cs).filter _).length
    simp [List.filter_cons, hc, hx]
  | c :: cs, i + 1, x, h, hx => by
    show ((c :: cs.set i x).filter _).length = ((c :: cs).filter _).length
    have hrec := filter_length_set_nonempty cs i x (by simpa using h) hx
    simp only [List.filter_cons]
    split <;> simpa using hrec

theorem count_set_nonempty (cs : List MerkleValue) (i : Nat) (x : MerkleValue)
    (v : Option Bytes) (h : cs.getD i .empty ≠ .empty) (hx : x ≠ .empty) :
    nonempty_node_count (cs.set i x) v = nonempty_node_count cs v := by
  unfold nonempty_node_count
  rw [filter_length_set_nonempty cs i x h hx]

theorem liveOkList_set {cs : List MerkleValue} {i : Nat} {x : MerkleValue}
    (hcs : MerkleValue.liveOkList cs = true) (hx : MerkleValue.liveOkV x = true) :
    MerkleValue.liveOkList (cs.set i x) = true := by
  induction cs generalizing i with
  | nil => exact hcs
  | cons c cs ih =>
    simp only [MerkleValue.liveOkList, Bool.and_eq_true] at hcs
    cases i with
    | zero =>
      show MerkleValue.liveOkList (x :: cs) = true
      simp only [MerkleValue.liveOkList, Bool.and_eq_true]
      exact ⟨hx, hcs.2⟩
    | succ j =>
      show MerkleValue.liveOkList (c :: cs.set j x) = true
      simp only [MerkleValue.liveOkList, Bool.and_eq_true]
      exact ⟨hcs.1, ih hcs.2⟩

theorem listWfB_set {cs : List MerkleValue} {i : Nat} {x : MerkleValue}
    (hcs : MerkleValue.listWfB cs = true) (hx : MerkleValue.wfB x = true) :
    MerkleValue.listWfB (cs.set i x) = true := by
  induction cs generalizing i with
  | nil => exact hcs
  | cons c cs ih =>
    simp only [MerkleValue.listWfB, Bool.and_eq_true] at hcs
    cases i with
    | zero =>
      show MerkleValue.listWfB (x :: cs) = true
      simp only [MerkleValue.listWfB, Bool.and_eq_true]
      exact ⟨hx, hcs.2⟩
    | succ j =>
      show MerkleValue.listWfB (c :: cs.set j x) = true
      simp only [MerkleValue.listWfB, Bool.and_eq_true]
      exact ⟨hcs.1, ih hcs.2⟩

theorem find_and_remove_good {H : Bytes → Bytes} {fuel f2 : Nat} {req : Bool}
    {db : Db} {c : MerkleValue} {m : MerkleNode} {ch : Change}
    (hc : canonV H (fuel + 1) req db c = true)
    (hrun : find_and_remove_child f2 db c = .ok (m, ch)) :
    canonN H fuel db m = true ∧ ch.adds = [] := by
  cases c with
  | empty =>
    cases f2 with
    | zero => cases hrun
    | succ g => cases hrun
  | full sub =>
    cases f2 with
    | zero => cases hrun
    | succ g =>
      simp only [find_and_remove_child] at hrun
      have hp := Except.ok.inj hrun
      simp only [Prod.mk.injEq] at hp
      obtain ⟨rfl, rfl⟩ := hp
      simp only [canonV, Bool.and_eq_true] at hc
      exact ⟨hc.1.1, rfl⟩
  | hash hh =>
    cases f2 with
    | zero => cases hrun
    | succ g =>
      simp only [canonV] at hc
      cases hdb : db hh with
      | none =>
        simp only [hdb] at hc
        cases hc
      | some it =>
        simp only [hdb] at hc
        cases hdec : MerkleNode.decode fuel it with
        | none =>
          simp only [hdec] at hc
          cases hc
        | some m0 =>
          simp only [hdec] at hc
          simp only [Bool.and_eq_true, decide_eq_true_eq] at hc
          simp only [find_and_remove_child, dbGetWithError, hdb, bind,
            Except.bind] at hrun
          cases hdec2 : MerkleNode.decode g it with
          | none =>
            rw [hdec2] at hrun
            cases hrun
          | some m2 =>
            rw [hdec2] at hrun
            have hp := Except.ok.inj hrun
            simp only [Prod.mk.injEq] at hp
            obtain ⟨rfl, rfl⟩ := hp
            have he : MerkleNode.decode (fuel + g) it = some m2 :=
              MerkleNode.decode_mono g (fuel + g) it m2 (by omega) hdec2
            rw [MerkleNode.decode_mono fuel (fuel + g) it m0 (by omega) hdec] at he
            obtain rfl := (Option.some.inj he).symm
            exact ⟨hc.1.1.1.1.1, rfl⟩

theorem addsGood_of_nil {ch : Change} (h : ch.adds = []) : Change.addsGood ch := by
  intro q hq
  rw [h] at hq
  cases hq

theorem collapse_branch_good {H : Bytes → Bytes} (hH32 : ∀ b, (H b).length = 32)
    {fuel f2 : Nat} {db : Db} {cs : List MerkleValue} {v : Option Bytes}
    {m : MerkleNode} {ch : Change}
    (hlen : cs.length = 16)
    (hkids : ∀ i : Fin 16, canonV H (fuel + 1) false db (cs.getD (i : Nat) .empty) = true)
    (hv : v ≠ some ([] : Bytes))
    (hrun : collapse_branch H f2 db cs v = .ok (m, ch)) :
    m.liveOk = true ∧ MerkleNode.wfB m = true ∧ Change.addsGood ch := by
  have hwkids : MerkleValue.listWfB cs = true := by
    refine MerkleValue.listWfB_of_forall cs (fun c hc => ?_)
    obtain ⟨i, hi, hci⟩ := List.mem_iff_getElem.mp hc
    have hi16 : i < 16 := by omega
    have := hkids ⟨i, hi16⟩
    rw [List.getD_eq_getElem cs .empty hi] at this
    rw [← hci]
    exact canonV_wf (fuel + 1) false db _ this
  have hlkids : MerkleValue.liveOkList cs = true := by
    refine MerkleValue.liveOkList_of_forall cs (fun c hc => ?_)
    obtain ⟨i, hi, hci⟩ := List.mem_iff_getElem.mp hc
    have hi16 : i < 16 := by omega
    have := hkids ⟨i, hi16⟩
    rw [List.getD_eq_getElem cs .empty hi] at this
    rw [← hci]
    exact canonV_liveOk (fuel + 1) false db _ this
  cases f2 with
  | zero => cases hrun
  | succ g =>
    simp only [collapse_branch] at hrun
    rcases hcnt : nonempty_node_count cs v with - | k
    · simp only [hcnt] at hrun
      cases hrun
    · rcases k with - | k
      · -- exactly one live entry
        rcases v with - | av
        · -- no value: pull up the sole child
          simp only [hcnt] at hrun
          by_cases hidx : cs.findIdx (fun w => w ≠ .empty) < 16
          · rw [dif_pos hidx] at hrun
            cases hfr : find_and_remove_child g db
                (cs.getD (cs.findIdx (fun w => w ≠ .empty)) .empty) with
            | error e =>
              rw [hfr] at hrun
              cases hrun
            | ok pr =>
              rcases pr with ⟨subnode, ch2⟩
              obtain ⟨hcansub, hadds2⟩ :=
                find_and_remove_good (hkids ⟨cs.findIdx (fun w => w ≠ .empty), hidx⟩) hfr
              have hg2 : Change.addsGood (Change.empty.merge ch2) :=
                Change.addsGood_merge Change.addsGood_empty (addsGood_of_nil hadds2)
              rw [hfr] at hrun
              simp only [bind, Except.bind] at hrun
              cases subnode with
              | leaf lp lv =>
                have hp := Except.ok.inj hrun
                simp only [Prod.mk.injEq] at hp
                obtain ⟨rfl, rfl⟩ := hp
                exact ⟨rfl, rfl, hg2⟩
              | ext ep ev =>
                have hp := Except.ok.inj hrun
                simp only [Prod.mk.injEq] at hp
                obtain ⟨rfl, rfl⟩ := hp
                refine ⟨?_, ?_, hg2⟩
                · simpa only [MerkleNode.liveOk] using
                    canonN_liveOk fuel db (.ext ep ev) hcansub
                · simpa only [MerkleNode.wfB] using
                    canonN_wf fuel db (.ext ep ev) hcansub
              | branch bcs bbv =>
                have hwb : MerkleNode.wfB (.branch bcs bbv) = true :=
                  canonN_wf fuel db _ hcansub
                have hlb : MerkleNode.liveOk (.branch bcs bbv) = true :=
                  canonN_liveOk fuel db _ hcansub
                have hp := Except.ok.inj hrun
                simp only [Prod.mk.injEq] at hp
                obtain ⟨rfl, rfl⟩ := hp
                rcases hav : (Change.empty.merge ch2).add_value H (.branch bcs bbv)
                  with ⟨sv, cv⟩
                have hgv : Change.addsGood cv := by
                  have := Change.addsGood_add_value (H := H)
                    (n := MerkleNode.branch bcs bbv) hg2 hwb hlb
                  rwa [hav] at this
                have hsv : MerkleValue.wfB sv = true ∧ MerkleValue.liveOkV sv = true := by
                  have h2 : ((Change.empty.merge ch2).add_value H
                      (.branch bcs bbv)).1 = sv := by rw [hav]
                  unfold Change.add_value at h2
                  split at h2
                  · rw [← h2]
                    simp only [MerkleValue.wfB, MerkleValue.liveOkV, Bool.and_eq_true,
                      decide_eq_true_eq]
                    exact ⟨⟨hwb, inlinable_size_lt _ (by assumption)⟩, hlb⟩
                  · rw [← h2]
                    simp only [MerkleValue.wfB, MerkleValue.liveOkV,
                      decide_eq_true_eq]
                    exact ⟨hH32 _, trivial⟩
                simp only [hav]
                refine ⟨?_, ?_, hgv⟩
                · simpa only [MerkleNode.liveOk] using hsv.2
                · simpa only [MerkleNode.wfB] using hsv.1
          · rw [dif_neg hidx] at hrun
            cases hrun
        · -- sole value becomes a leaf
          simp only [hcnt] at hrun
          have hp := Except.ok.inj hrun
          simp only [Prod.mk.injEq] at hp
          obtain ⟨rfl, rfl⟩ := hp
          exact ⟨rfl, rfl, Change.addsGood_empty⟩
      · -- at least two live entries: branch kept
        simp only [hcnt] at hrun
        have hp := Except.ok.inj hrun
        simp only [Prod.mk.injEq] at hp
        obtain ⟨rfl, rfl⟩ := hp
        refine ⟨?_, ?_, Change.addsGood_empty⟩
        · simp only [MerkleNode.liveOk, Bool.and_eq_true, decide_eq_true_eq]
          exact ⟨by omega, hlkids⟩
        · simp only [MerkleNode.wfB, Bool.and_eq_true, decide_eq_true_eq]
          exact ⟨⟨hlen, hwkids⟩, hv⟩

mutual

/-- Every node a (successful) delete stages or returns is well-formed and
free of under-populated branches. -/
theorem delete_live_node {H : Bytes → Bytes} (hH32 : ∀ b, (H b).length = 32) :
    ∀ (fuel : Nat) (db : Db) (n : MerkleNode) (p : NibbleVec)
    (res : Option MerkleNode) (ch : Change),
    canonN H fuel db n = true →
    delete_by_node H fuel db n p = .ok (res, ch) →
    Change.addsGood ch ∧
      ∀ m, res = some m → m.liveOk = true ∧ MerkleNode.wfB m = true
  | 0, _, _, _, _, _, _, hrun => by cases hrun
  | fuel + 1, db, .leaf nn nv, p, res, ch, _, hrun => by
    simp only [delete_by_node] at hrun
    split at hrun
    · have hp := Except.ok.inj hrun
      simp only [Prod.mk.injEq] at hp
      obtain ⟨rfl, rfl⟩ := hp
      exact ⟨Change.addsGood_empty, fun m hm => by cases hm⟩
    · have hp := Except.ok.inj hrun
      simp only [Prod.mk.injEq] at hp
      obtain ⟨rfl, rfl⟩ := hp
      exact ⟨Change.addsGood_empty, fun m hm => by cases Option.some.inj hm; exact ⟨rfl, rfl⟩⟩
  | fuel + 1, db, .ext nn nv, p, res, ch, hc, hrun => by
    simp only [canonN, Bool.and_eq_true] at hc
    simp only [delete_by_node] at hrun
    by_cases hpre : nn.isPrefixOf p
    · rw [if_pos hpre] at hrun
      cases hdc : delete_by_child H fuel db nv (p.drop nn.length) with
      | error e =>
        rw [hdc] at hrun
        cases hrun
      | ok pr =>
        rcases pr with ⟨subres, ch2⟩
        obtain ⟨hgood2, hres2⟩ := delete_live_child hH32 fuel true db nv
          (p.drop nn.length) subres ch2 hc.2 hdc
        rw [hdc] at hrun
        simp only [bind, Except.bind] at hrun
        cases subres with
        | none =>
          have hp := Except.ok.inj hrun
          simp only [Prod.mk.injEq] at hp
          obtain ⟨rfl, rfl⟩ := hp
          exact ⟨Change.addsGood_merge Change.addsGood_empty hgood2, fun m hm => by cases hm⟩
        | some sn =>
          obtain ⟨hlsn, hwsn⟩ := hres2 sn rfl
          cases sn with
          | leaf sp sv2 =>
            have hp := Except.ok.inj hrun
            simp only [Prod.mk.injEq] at hp
            obtain ⟨rfl, rfl⟩ := hp
            refine ⟨Change.addsGood_merge
              (Change.addsGood_merge Change.addsGood_empty hgood2)
              Change.addsGood_empty, fun m hm => ?_⟩
            cases Option.some.inj hm
            exact ⟨rfl, rfl⟩
          | ext sp sv2 =>
            have hp := Except.ok.inj hrun
            simp only [Prod.mk.injEq] at hp
            obtain ⟨rfl, rfl⟩ := hp
            refine ⟨Change.addsGood_merge
              (Change.addsGood_merge Change.addsGood_empty hgood2)
              Change.addsGood_empty, fun m hm => ?_⟩
            cases Option.some.inj hm
            constructor
            · simpa only [MerkleNode.liveOk] using hlsn
            · simpa only [MerkleNode.wfB] using hwsn
          | branch bcs bbv =>
            have hp := Except.ok.inj hrun
            simp only [Prod.mk.injEq] at hp
            obtain ⟨rfl, rfl⟩ := hp
            rcases hav : Change.empty.add_value H (.branch bcs bbv) with ⟨sv, cv⟩
            have hgv : Change.addsGood cv := by
              have := Change.addsGood_add_value (H := H)
                (n := MerkleNode.branch bcs bbv) Change.addsGood_empty hwsn hlsn
              rwa [hav] at this
            have hsv : MerkleValue.wfB sv = true ∧ MerkleValue.liveOkV sv = true := by
              have h2 : (Change.empty.add_value H (.branch bcs bbv)).1 = sv := by
                rw [hav]
              unfold Change.add_value at h2
              split at h2
              · rw [← h2]
                simp only [MerkleValue.wfB, MerkleValue.liveOkV, Bool.and_eq_true,
                  decide_eq_true_eq]
                exact ⟨⟨hwsn, inlinable_size_lt _ (by assumption)⟩, hlsn⟩
              · rw [← h2]
                simp only [MerkleValue.wfB, MerkleValue.liveOkV, decide_eq_true_eq]
                exact ⟨hH32 _, trivial⟩
            simp only [collapse_extension, hav]
            refine ⟨Change.addsGood_merge
              (Change.addsGood_merge Change.addsGood_empty hgood2) hgv,
              fun m hm => ?_⟩
            cases Option.some.inj hm
            constructor
            · simpa only [MerkleNode.liveOk] using hsv.2
            · simpa only [MerkleNode.wfB] using hsv.1
    · rw [if_neg hpre] at hrun
      have hp := Except.ok.inj hrun
      simp only [Prod.mk.injEq] at hp
      obtain ⟨rfl, rfl⟩ := hp
      refine ⟨Change.addsGood_empty, fun m hm => ?_⟩
      cases Option.some.inj hm
      constructor
      · simpa only [MerkleNode.liveOk] using canonV_liveOk fuel true db nv hc.2
      · simpa only [MerkleNode.wfB] using canonV_wf fuel true db nv hc.2
  | 1, db, .branch cs v, p, res, ch, hc, hrun => by
    have h0 := canonN_branch_child 0 db cs v hc (0 : Fin 16)
    simp [canonV] at h0
  | g + 2, db, .branch cs v, p, res, ch, hc, hrun => by
    obtain ⟨hlen, hcount, hvne⟩ := canonN_branch_parts (g + 1) db cs v hc
    have hkids : ∀ i : Fin 16,
        canonV H (g + 1) false db (cs.getD (i : Nat) .empty) = true :=
      canonN_branch_child (g + 1) db cs v hc
    have hlkids : MerkleValue.liveOkList cs = true := by
      refine MerkleValue.liveOkList_of_forall cs (fun c2 hc2 => ?_)
      obtain ⟨i, hi, hci⟩ := List.mem_iff_getElem.mp hc2
      have hi16 : i < 16 := by omega
      have := hkids ⟨i, hi16⟩
      rw [List.getD_eq_getElem cs .empty hi] at this
      rw [← hci]
      exact canonV_liveOk (g + 1) false db _ this
    have hwkids : MerkleValue.listWfB cs = true := by
      refine MerkleValue.listWfB_of_forall cs (fun c2 hc2 => ?_)
      obtain ⟨i, hi, hci⟩ := List.mem_iff_getElem.mp hc2
      have hi16 : i < 16 := by omega
      have := hkids ⟨i, hi16⟩
      rw [List.getD_eq_getElem cs .empty hi] at this
      rw [← hci]
      exact canonV_wf (g + 1) false db _ this
    rcases p with - | ⟨ni, rest⟩
    · simp only [delete_by_node, bind, Except.bind, pure, Except.pure,
        eq_self_iff_true, if_true] at hrun
      by_cases hpos : nonempty_node_count cs none > 0
      · rw [if_pos hpos] at hrun
        cases hcp : collapse_branch H (g + 1) db cs none with
        | error e =>
          rw [hcp] at hrun
          cases hrun
        | ok pr =>
          rcases pr with ⟨mm, cc⟩
          obtain ⟨hlm, hwm, hgc⟩ := collapse_branch_good hH32 hlen
            hkids (by simp) hcp
          rw [hcp] at hrun
          have hp := Except.ok.inj hrun
          simp only [Prod.mk.injEq] at hp
          obtain ⟨rfl, rfl⟩ := hp
          refine ⟨Change.addsGood_merge Change.addsGood_empty hgc, fun m hm => ?_⟩
          cases Option.some.inj hm
          exact ⟨hlm, hwm⟩
      · rw [if_neg hpos] at hrun
        have hp := Except.ok.inj hrun
        simp only [Prod.mk.injEq] at hp
        obtain ⟨rfl, rfl⟩ := hp
        exact ⟨Change.addsGood_empty, fun m hm => by cases hm⟩
    · simp only [delete_by_node, bind, Except.bind, pure, Except.pure] at hrun
      cases hdc : delete_by_child H (g + 1) db (cs.getD (ni : Nat) .empty) rest with
      | error e =>
        rw [hdc] at hrun
        cases hrun
      | ok pr =>
        rcases pr with ⟨subres, ch2⟩
        obtain ⟨hgood2, hres2⟩ := delete_live_child hH32 (g + 1) false db
          (cs.getD (ni : Nat) .empty) rest subres ch2 (hkids ⟨(ni : Nat), ni.isLt⟩) hdc
        rw [hdc] at hrun
        cases subres with
        | some ns =>
          obtain ⟨hlns, hwns⟩ := hres2 ns rfl
          have hne_child : cs.getD (ni : Nat) .empty ≠ .empty := by
            intro heq
            rw [heq] at hdc
            cases g with
            | zero =>
              have := Except.ok.inj hdc
              simp only [Prod.mk.injEq] at this
              cases this.1
            | succ g2 =>
              have := Except.ok.inj hdc
              simp only [Prod.mk.injEq] at this
              cases this.1
          rcases hav : (Change.empty.merge ch2).add_value H ns with ⟨nsv, cc⟩
          have hgv : Change.addsGood cc := by
            have := Change.addsGood_add_value (H := H) (n := ns)
              (Change.addsGood_merge Change.addsGood_empty hgood2) hwns hlns
            rwa [hav] at this
          have hnsv : MerkleValue.wfB nsv = true ∧ MerkleValue.liveOkV nsv = true ∧
              nsv ≠ .empty := by
            have h2 : ((Change.empty.merge ch2).add_value H ns).1 = nsv := by rw [hav]
            unfold Change.add_value at h2
            split at h2
            · rw [← h2]
              simp only [MerkleValue.wfB, MerkleValue.liveOkV, Bool.and_eq_true,
                decide_eq_true_eq]
              exact ⟨⟨hwns, inlinable_size_lt _ (by assumption)⟩, hlns, by simp⟩
            · rw [← h2]
              simp only [MerkleValue.wfB, MerkleValue.liveOkV, decide_eq_true_eq]
              exact ⟨hH32 _, trivial, by simp⟩
          simp only [hav, Bool.false_eq_true, if_false] at hrun
          have hp := Except.ok.inj hrun
          simp only [Prod.mk.injEq] at hp
          obtain ⟨rfl, rfl⟩ := hp
          refine ⟨hgv, fun m hm => ?_⟩
          cases Option.some.inj hm
          constructor
          · simp only [MerkleNode.liveOk, Bool.and_eq_true, decide_eq_true_eq]
            constructor
            · rw [count_set_nonempty cs (ni : Nat) nsv v hne_child hnsv.2.2]
              omega
            · exact liveOkList_set hlkids hnsv.2.1
          · simp only [MerkleNode.wfB, Bool.and_eq_true, decide_eq_true_eq]
            exact ⟨⟨by simp [hlen], listWfB_set hwkids hnsv.1⟩, hvne⟩
        | none =>
          have hkids2 : ∀ i : Fin 16, canonV H (g + 1) false db
              ((cs.set (ni : Nat) .empty).getD (i : Nat) .empty) = true := by
            intro i
            by_cases hii : (ni : Nat) = (i : Nat)
            · rw [← hii]
              have hlt : (ni : Nat) < cs.length := by rw [hlen]; exact ni.isLt
              have hgetset : (cs.set (ni : Nat) MerkleValue.empty).getD (ni : Nat)
                  .empty = .empty := by
                rw [List.getD_eq_getElem _ _ (by simpa using hlt)]
                simp
              rw [hgetset]
              simp [canonV]
            · rw [getD_set_ne cs (ni : Nat) (i : Nat) _ _ hii]
              exact hkids i
          simp only [eq_self_iff_true, if_true] at hrun
          by_cases hpos : nonempty_node_count (cs.set (ni : Nat) .empty) v > 0
          · rw [if_pos hpos] at hrun
            cases hcp : collapse_branch H (g + 1) db (cs.set (ni : Nat) .empty) v with
            | error e =>
              rw [hcp] at hrun
              cases hrun
            | ok pr2 =>
              rcases pr2 with ⟨mm, cc⟩
              obtain ⟨hlm, hwm, hgc⟩ := collapse_branch_good hH32
                (by simp [hlen]) hkids2 hvne hcp
              rw [hcp] at hrun
              have hp := Except.ok.inj hrun
              simp only [Prod.mk.injEq] at hp
              obtain ⟨rfl, rfl⟩ := hp
              refine ⟨Change.addsGood_merge
                (Change.addsGood_merge Change.addsGood_empty hgood2) hgc,
                fun m hm => ?_⟩
              cases Option.some.inj hm
              exact ⟨hlm, hwm⟩
          · rw [if_neg hpos] at hrun
            have hp := Except.ok.inj hrun
            simp only [Prod.mk.injEq] at hp
            obtain ⟨rfl, rfl⟩ := hp
            exact ⟨Change.addsGood_merge Change.addsGood_empty hgood2,
              fun m hm => by cases hm⟩

theorem delete_live_child {H : Bytes → Bytes} (hH32 : ∀ b, (H b).length = 32) :
    ∀ (fuel : Nat) (req : Bool) (db : Db) (c : MerkleValue) (p : NibbleVec)
    (res : Option MerkleNode) (ch : Change),
    canonV H fuel req db c = true →
    delete_by_child H fuel db c p = .ok (res, ch) →
    Change.addsGood ch ∧
      ∀ m, res = some m → m.liveOk = true ∧ MerkleNode.wfB m = true
  | 0, _, _, _, _, _, _, _, hrun => by cases hrun
  | fuel + 1, req, db, .empty, p, res, ch, _, hrun => by
    have hp := Except.ok.inj hrun
    simp only [Prod.mk.injEq] at hp
    obtain ⟨rfl, rfl⟩ := hp
    exact ⟨Change.addsGood_empty, fun m hm => by cases hm⟩
  | fuel + 1, req, db, .full sub, p, res, ch, hc, hrun => by
    simp only [canonV, Bool.and_eq_true] at hc
    simp only [delete_by_child] at hrun
    cases hdn : delete_by_node H fuel db sub p with
    | error e =>
      rw [hdn] at hrun
      cases hrun
    | ok pr =>
      rcases pr with ⟨subres, ch2⟩
      obtain ⟨hgood2, hres2⟩ := delete_live_node hH32 fuel db sub p subres ch2
        hc.1.1 hdn
      rw [hdn] at hrun
      simp only [bind, Except.bind] at hrun
      have hp := Except.ok.inj hrun
      simp only [Prod.mk.injEq] at hp
      obtain ⟨rfl, rfl⟩ := hp
      exact ⟨Change.addsGood_merge Change.addsGood_empty hgood2, hres2⟩
  | fuel + 1, req, db, .hash hh, p, res, ch, hc, hrun => by
    simp only [canonV] at hc
    cases hdb : db hh with
    | none =>
      simp only [hdb] at hc
      cases hc
    | some it =>
      simp only [hdb] at hc
      cases hdec : MerkleNode.decode fuel it with
      | none =>
        simp only [hdec] at hc
        cases hc
      | some m0 =>
        simp only [hdec] at hc
        simp only [Bool.and_eq_true, decide_eq_true_eq] at hc
        simp only [delete_by_child, dbGetWithError, hdb, bind, Except.bind,
          hdec] at hrun
        cases hdn : delete_by_node H fuel db m0 p with
        | error e =>
          rw [hdn] at hrun
          cases hrun
        | ok pr =>
          rcases pr with ⟨subres, ch2⟩
          obtain ⟨hgood2, hres2⟩ := delete_live_node hH32 fuel db m0 p subres ch2
            hc.1.1.1.1.1 hdn
          rw [hdn] at hrun
          have hp := Except.ok.inj hrun
          simp only [Prod.mk.injEq] at hp
          obtain ⟨rfl, rfl⟩ := hp
          exact ⟨Change.addsGood_merge
            (Change.addsGood_remove_raw Change.addsGood_empty) hgood2, hres2⟩

end

/-- C5 (amended): on a canonical trie every node a successful delete
stages — the rewritten path, any collapsed branch, and the new root — is a
well-formed node none of whose in-memory branches has fewer than two live
entries; in particular a branch reduced to a single live entry is
collapsed into a leaf or extension rather than stored.  (Stored nodes the
operation did not touch are canonical by hypothesis, hence also at least
two-live.) -/
theorem C5_delete_live (H : Bytes → Bytes) (fuel : Nat) (db : Db)
    (root key : Bytes) (n : MerkleNode)
    (hH32 : ∀ b, (H b).length = 32)
    (hne : root ≠ EMPTY_TRIE_HASH H)
    (hdb : db root = some n.toItem)
    (hdec : MerkleNode.decode fuel n.toItem = some n)
    (hcanon : canonN H fuel db n = true) :
    ∀ pr : Bytes × Change, delete H fuel db root key = .ok pr →
      Change.addsGood pr.2 := by
  intro pr hrun
  unfold delete at hrun
  rw [if_neg hne] at hrun
  simp only [dbGetWithError, hdb, bind, Except.bind, hdec] at hrun
  cases hdn : delete_by_node H fuel db n (nibble.from_key key) with
  | error e =>
    rw [hdn] at hrun
    cases hrun
  | ok pr2 =>
    rcases pr2 with ⟨res, ch2⟩
    obtain ⟨hgood2, hres2⟩ := delete_live_node hH32 fuel db n (nibble.from_key key)
      res ch2 hcanon hdn
    rw [hdn] at hrun
    cases res with
    | some nn =>
      obtain ⟨hln, hwn⟩ := hres2 nn rfl
      have hp := Except.ok.inj hrun
      rw [← hp]
      exact Change.addsGood_add_node (Change.addsGood_merge
        (Change.addsGood_remove_raw Change.addsGood_empty) hgood2) hwn hln
    | none =>
      have hp := Except.ok.inj hrun
      rw [← hp]
      exact Change.addsGood_merge (Change.addsGood_remove_raw Change.addsGood_empty)
        hgood2

/-- Concrete canonical two-leaf branch trie for the C5 witness. -/
def c5wnode : MerkleNode :=
  .branch ((empty_nodes.set 1 (.full (.leaf [(0 : Fin 16)] [5]))).set 2
    (.full (.leaf [(0 : Fin 16)] [6]))) none

def c5wroot : Bytes := padHash c5wnode.encBytes

def c5wdb : Db := fun b => if b = c5wroot then some c5wnode.toItem else none

/-- C5 witness: the amended liveness theorem at a concrete two-leaf branch
trie (deleting key `[16]` collapses the branch to a leaf). -/
theorem C5_delete_live_witness :
    ((∀ b, (padHash b).length = 32) ∧
     c5wroot ≠ EMPTY_TRIE_HASH padHash ∧
     c5wdb c5wroot = some c5wnode.toItem ∧
     MerkleNode.decode 50 c5wnode.toItem = some c5wnode ∧
     canonN padHash 50 c5wdb c5wnode = true) ∧
    ∀ pr : Bytes × Change, delete padHash 50 c5wdb c5wroot [16] = .ok pr →
      Change.addsGood pr.2 :=
  ⟨⟨fun b => by
      simp only [padHash, List.length_take, List.length_append, List.length_replicate]
      omega,
    by decide, by decide, by decide, by decide⟩,
    C5_delete_live padHash 50 c5wdb c5wroot [16] c5wnode
      (fun b => by
        simp only [padHash, List.length_take, List.length_append, List.length_replicate]
        omega)
      (by decide) (by decide) (by decide) (by decide)⟩

theorem getD_set_lt {α : Type} : ∀ (l : List α) (i : Nat) (x d : α), i < l.length →
    (l.set i x).getD i d = x
  | [], i, _, _, h => by simp at h
  | a :: l, 0, x, d, _ => rfl
  | a :: l, i + 1, x, d, h => by
    show (l.set i x).getD i d = x
    exact getD_set_lt l i x d (by simpa using h)

/-- The `common_with_sub` split: both paths are the common prefix followed
by their remainders, and the remainders (when nonempty) start with
distinct nibbles. -/
theorem common_spec : ∀ a b : NibbleVec,
    a = nibble.common a b ++ a.drop (nibble.common a b).length ∧
    b = nibble.common a b ++ b.drop (nibble.common a b).length ∧
    (∀ x xs y ys, a.drop (nibble.common a b).length = x :: xs →
      b.drop (nibble.common a b).length = y :: ys → x ≠ y)
  | [], b => by
    refine ⟨rfl, rfl, ?_⟩
    intro x xs y ys hx hy
    simp at hx
  | a :: as_, [] => by
    refine ⟨rfl, rfl, ?_⟩
    intro x xs y ys hx hy
    simp at hy
  | a :: as_, b :: bs => by
    by_cases hab : a = b
    · subst hab
      obtain ⟨h1, h2, h3⟩ := common_spec as_ bs
      simp only [nibble.common, if_pos rfl]
      refine ⟨?_, ?_, ?_⟩
      · simpa using congrArg (List.cons a) h1
      · simpa using congrArg (List.cons a) h2
      · intro x xs y ys hx hy
        exact h3 x xs y ys (by simpa using hx) (by simpa using hy)
    · simp only [nibble.common, if_neg hab]
      refine ⟨rfl, rfl, ?_⟩
      intro x xs y ys hx hy
      simp only [List.length_nil, List.drop_zero] at hx hy
      cases hx
      cases hy
      exact hab

mutual

theorem get_by_node_mono : ∀ (f f2 : Nat) (db : Db) (n : MerkleNode)
    (p : NibbleVec) (r : Option Bytes), f ≤ f2 →
    get_by_node f db n p = .ok r → get_by_node f2 db n p = .ok r
  | 0, f2, db, n, p, r, hle, h => by simp [get_by_node] at h
  | f + 1, f2, db, .leaf nn nv, p, r, hle, h => by
    obtain ⟨g, rfl⟩ : ∃ g, f2 = g + 1 := ⟨f2 - 1, by omega⟩
    simp only [get_by_node] at h ⊢
    exact h
  | f + 1, f2, db, .ext nn nv, p, r, hle, h => by
    obtain ⟨g, rfl⟩ : ∃ g, f2 = g + 1 := ⟨f2 - 1, by omega⟩
    have hfg : f ≤ g := by omega
    simp only [get_by_node] at h ⊢
    by_cases hpre : nn.isPrefixOf p
    · rw [if_pos hpre] at h ⊢
      exact get_by_value_mono f g db nv (p.drop nn.length) r hfg h
    · rw [if_neg hpre] at h ⊢
      exact h
  | f + 1, f2, db, .branch cs v, p, r, hle, h => by
    obtain ⟨g, rfl⟩ : ∃ g, f2 = g + 1 := ⟨f2 - 1, by omega⟩
    have hfg : f ≤ g := by omega
    simp only [get_by_node] at h ⊢
    match p, h with
    | [], h => exact h
    | ni :: rest, h =>
      exact get_by_value_mono f g db (cs.getD (ni : Nat) .empty) rest r hfg h

theorem get_by_value_mono : ∀ (f f2 : Nat) (db : Db) (c : MerkleValue)
    (p : NibbleVec) (r : Option Bytes), f ≤ f2 →
    get_by_value f db c p = .ok r → get_by_value f2 db c p = .ok r
  | 0, f2, db, c, p, r, hle, h => by simp [get_by_value] at h
  | f + 1, f2, db, .empty, p, r, hle, h => by
    obtain ⟨g, rfl⟩ : ∃ g, f2 = g + 1 := ⟨f2 - 1, by omega⟩
    exact h
  | f + 1, f2, db, .full m, p, r, hle, h => by
    obtain ⟨g, rfl⟩ : ∃ g, f2 = g + 1 := ⟨f2 - 1, by omega⟩
    have hfg : f ≤ g := by omega
    simp only [get_by_value] at h ⊢
    exact get_by_node_mono f g db m p r hfg h
  | f + 1, f2, db, .hash hh, p, r, hle, h => by
    obtain ⟨g, rfl⟩ : ∃ g, f2 = g + 1 := ⟨f2 - 1, by omega⟩
    have hfg : f ≤ g := by omega
    simp only [get_by_value, dbGetWithError, bind, Except.bind] at h ⊢
    cases hdb : db hh with
    | none =>
      simp only [hdb] at h
      cases h
    | some it =>
      simp only [hdb] at h ⊢
      cases hdec : MerkleNode.decode f it with
      | none =>
        simp only [hdec] at h
        cases h
      | some m =>
        simp only [hdec] at h
        simp only [MerkleNode.decode_mono f g it m hfg hdec]
        exact get_by_node_mono f g db m p r hfg h

end

/- Collision accounting: the content-addressed store breaks only when the
digest function maps two distinct RLP values to the same hash.  The
insert correctness theorem below either establishes the postcondition or
exhibits such a concrete collision. -/

/-- Two distinct RLP values share a digest. -/
def HCollision (H : Bytes → Bytes) : Prop :=
  ∃ it it2 : RlpItem, it ≠ it2 ∧ H (rlpSerialize it) = H (rlpSerialize it2)

/-- Every staged addition is stored under the digest of its bytes. -/
def Change.keyed (H : Bytes → Bytes) (c : Change) : Prop :=
  ∀ q ∈ c.adds, q.1 = H (rlpSerialize q.2)

/-- The staged additions have pairwise distinct hashes (an invariant of
`add_raw`, which cancels the previous pair under the same hash). -/
def Change.keysNodup (c : Change) : Prop := (c.adds.map Prod.fst).Nodup

/-- No hash is both staged for addition and for removal (an invariant of
the mutual cancellation in `add_raw` and `remove_raw`). -/
def Change.exclusive (c : Change) : Prop := ∀ q ∈ c.adds, q.1 ∉ c.removes

theorem Change.keyed_empty (H : Bytes → Bytes) : Change.keyed H Change.empty := by
  intro q hq; cases hq

theorem Change.keysNodup_empty : Change.keysNodup Change.empty := List.nodup_nil

theorem Change.exclusive_empty : Change.exclusive Change.empty := by
  intro q hq; cases hq

theorem Change.keyed_add_raw {H : Bytes → Bytes} {c : Change} {h : Bytes}
    {it : RlpItem} (hc : Change.keyed H c) (hh : h = H (rlpSerialize it)) :
    Change.keyed H (c.add_raw h it) := by
  intro q hq
  simp only [Change.add_raw, List.mem_append, List.mem_filter,
    List.mem_singleton] at hq
  rcases hq with ⟨hq, -⟩ | rfl
  · exact hc q hq
  · exact hh

theorem Change.keyed_remove_raw {H : Bytes → Bytes} {c : Change} {h : Bytes}
    (hc : Change.keyed H c) : Change.keyed H (c.remove_raw h) := by
  intro q hq
  simp only [Change.remove_raw, List.mem_filter] at hq
  exact hc q hq.1

theorem Change.keysNodup_add_raw {c : Change} {h : Bytes} {it : RlpItem}
    (hc : Change.keysNodup c) : Change.keysNodup (c.add_raw h it) := by
  unfold Change.keysNodup Change.add_raw
  simp only [List.map_append, List.map_cons, List.map_nil]
  rw [List.nodup_append]
  refine ⟨hc.sublist (List.Sublist.map Prod.fst (List.filter_sublist c.adds)),
    List.nodup_singleton h, ?_⟩
  intro x hx hx2
  simp only [List.mem_singleton] at hx2
  subst hx2
  obtain ⟨q, hq, rfl⟩ := List.mem_map.mp hx
  have := (List.mem_filter.mp hq).2
  simp at this

theorem Change.keysNodup_remove_raw {c : Change} {h : Bytes}
    (hc : Change.keysNodup c) : Change.keysNodup (c.remove_raw h) :=
  hc.sublist (List.Sublist.map Prod.fst (List.filter_sublist c.adds))

theorem Change.exclusive_add_raw {c : Change} {h : Bytes} {it : RlpItem}
    (hc : Change.exclusive c) : Change.exclusive (c.add_raw h it) := by
  intro q hq hq2
  simp only [Change.add_raw, List.mem_append, List.mem_filter,
    List.mem_singleton] at hq
  simp only [Change.add_raw, List.mem_filter, decide_eq_true_eq, ne_eq] at hq2
  rcases hq with ⟨hq, -⟩ | rfl
  · exact hc q hq hq2.1
  · exact hq2.2 rfl

theorem Change.exclusive_remove_raw {c : Change} {h : Bytes}
    (hc : Change.exclusive c) : Change.exclusive (c.remove_raw h) := by
  intro q hq hq2
  simp only [Change.remove_raw, List.mem_filter, decide_eq_true_eq, ne_eq] at hq
  simp only [Change.remove_raw, List.mem_append, List.mem_filter,
    List.mem_singleton, decide_eq_true_eq, ne_eq] at hq2
  rcases hq2 with ⟨hq2, -⟩ | heq
  · exact hc q hq.1 hq2
  · exact hq.2 heq

theorem Change.keyed_foldl_add {H : Bytes → Bytes} :
    ∀ (ps : List (Bytes × RlpItem)) (c : Change),
    (∀ q ∈ ps, q.1 = H (rlpSerialize q.2)) → Change.keyed H c →
    Change.keyed H (ps.foldl (fun acc p => acc.add_raw p.1 p.2) c)
  | [], c, _, hc => hc
  | p :: ps, c, hps, hc => by
    simp only [List.foldl_cons]
    exact Change.keyed_foldl_add ps _ (fun q hq => hps q (List.mem_cons_of_mem p hq))
      (Change.keyed_add_raw hc (hps p (List.mem_cons_self p ps)))

theorem Change.keyed_foldl_remove {H : Bytes → Bytes} :
    ∀ (rs : List Bytes) (c : Change), Change.keyed H c →
    Change.keyed H (rs.foldl (fun acc h => acc.remove_raw h) c)
  | [], c, hc => hc
  | r :: rs, c, hc => by
    simp only [List.foldl_cons]
    exact Change.keyed_foldl_remove rs _ (Change.keyed_remove_raw hc)

theorem Change.keyed_merge {H : Bytes → Bytes} {c c2 : Change}
    (hc : Change.keyed H c) (h2 : Change.keyed H c2) :
    Change.keyed H (c.merge c2) := by
  unfold Change.merge
  exact Change.keyed_foldl_remove c2.removes _ (Change.keyed_foldl_add c2.adds c h2 hc)

theorem Change.keysNodup_foldl_add :
    ∀ (ps : List (Bytes × RlpItem)) (c : Change), Change.keysNodup c →
    Change.keysNodup (ps.foldl (fun acc p => acc.add_raw p.1 p.2) c)
  | [], c, hc => hc
  | p :: ps, c, hc => by
    simp only [List.foldl_cons]
    exact Change.keysNodup_foldl_add ps _ (Change.keysNodup_add_raw hc)

theorem Change.keysNodup_foldl_remove :
    ∀ (rs : List Bytes) (c : Change), Change.keysNodup c →
    Change.keysNodup (rs.foldl (fun acc h => acc.remove_raw h) c)
  | [], c, hc => hc
  | r :: rs, c, hc => by
    simp only [List.foldl_cons]
    exact Change.keysNodup_foldl_remove rs _ (Change.keysNodup_remove_raw hc)

theorem Change.keysNodup_merge {c c2 : Change} (hc : Change.keysNodup c) :
    Change.keysNodup (c.merge c2) := by
  unfold Change.merge
  exact Change.keysNodup_foldl_remove c2.removes _ (Change.keysNodup_foldl_add c2.adds c hc)

theorem Change.exclusive_foldl_add :
    ∀ (ps : List (Bytes × RlpItem)) (c : Change), Change.exclusive c →
    Change.exclusive (ps.foldl (fun acc p => acc.add_raw p.1 p.2) c)
  | [], c, hc => hc
  | p :: ps, c, hc => by
    simp only [List.foldl_cons]
    exact Change.exclusive_foldl_add ps _ (Change.exclusive_add_raw hc)

theorem Change.exclusive_foldl_remove :
    ∀ (rs : List Bytes) (c : Change), Change.exclusive c →
    Change.exclusive (rs.foldl (fun acc h => acc.remove_raw h) c)
  | [], c, hc => hc
  | r :: rs, c, hc => by
    simp only [List.foldl_cons]
    exact Change.exclusive_foldl_remove rs _ (Change.exclusive_remove_raw hc)

theorem Change.exclusive_merge {c c2 : Change} (hc : Change.exclusive c) :
    Change.exclusive (c.merge c2) := by
  unfold Change.merge
  exact Change.exclusive_foldl_remove c2.removes _ (Change.exclusive_foldl_add c2.adds c hc)

theorem Change.keyed_add_value {H : Bytes → Bytes} {c : Change} {n : MerkleNode}
    (hc : Change.keyed H c) : Change.keyed H (c.add_value H n).2 := by
  unfold Change.add_value
  split
  · exact hc
  · exact Change.keyed_add_raw hc rfl

theorem Change.keysNodup_add_value {H : Bytes → Bytes} {c : Change} {n : MerkleNode}
    (hc : Change.keysNodup c) : Change.keysNodup (c.add_value H n).2 := by
  unfold Change.add_value
  split
  · exact hc
  · exact Change.keysNodup_add_raw hc

theorem Change.exclusive_add_value {H : Bytes → Bytes} {c : Change} {n : MerkleNode}
    (hc : Change.exclusive c) : Change.exclusive (c.add_value H n).2 := by
  unfold Change.add_value
  split
  · exact hc
  · exact Change.exclusive_add_raw hc

/-- A pair already staged keeps its membership under later `add_raw` calls
with fresh hashes. -/
theorem adds_mem_foldl_add {q : Bytes × RlpItem} :
    ∀ (ps : List (Bytes × RlpItem)) (c : Change), q ∈ c.adds →
    q.1 ∉ ps.map Prod.fst →
    q ∈ (ps.foldl (fun acc p => acc.add_raw p.1 p.2) c).adds
  | [], c, hq, _ => hq
  | p :: ps, c, hq, hfresh => by
    simp only [List.foldl_cons]
    simp only [List.map_cons, List.mem_cons, not_or] at hfresh
    refine adds_mem_foldl_add ps _ ?_ hfresh.2
    simp only [Change.add_raw, List.mem_append, List.mem_filter]
    exact Or.inl ⟨hq, by simpa using hfresh.1⟩

theorem adds_mem_foldl_remove {q : Bytes × RlpItem} :
    ∀ (rs : List Bytes) (c : Change), q ∈ c.adds → q.1 ∉ rs →
    q ∈ (rs.foldl (fun acc h => acc.remove_raw h) c).adds
  | [], c, hq, _ => hq
  | r :: rs, c, hq, hfresh => by
    simp only [List.foldl_cons]
    simp only [List.mem_cons, not_or] at hfresh
    refine adds_mem_foldl_remove rs _ ?_ hfresh.2
    simp only [Change.remove_raw, List.mem_filter]
    exact ⟨hq, by simpa using hfresh.1⟩

/-- Every addition of the merged-in change survives the merge (its hashes
are pairwise distinct and none is also staged for removal). -/
theorem merge_adds_mem {c c2 : Change} (h2n : Change.keysNodup c2)
    (h2e : Change.exclusive c2) {q : Bytes × RlpItem} (hq : q ∈ c2.adds) :
    q ∈ (c.merge c2).adds := by
  unfold Change.merge
  refine adds_mem_foldl_remove c2.removes _ ?_ (h2e q hq)
  unfold Change.keysNodup at h2n
  clear h2e
  generalize c2.adds = ps at hq h2n ⊢
  revert c h2n hq
  induction ps with
  | nil =>
    intro c hq h2n
    cases hq
  | cons p ps ih =>
    intro c hq h2n
    simp only [List.foldl_cons]
    simp only [List.map_cons, List.nodup_cons] at h2n
    rcases List.mem_cons.mp hq with rfl | hq2
    · refine adds_mem_foldl_add ps _ ?_ h2n.1
      simp only [Change.add_raw, List.mem_append, List.mem_singleton]
      exact Or.inr trivial
    · exact ih hq2 h2n.2

theorem resolves_through_add_raw {H : Bytes → Bytes} {db2 : Db} {c : Change}
    {h2 : Bytes} {it2 : RlpItem} (hk : Change.keyed H c)
    (hkey : h2 = H (rlpSerialize it2))
    (hres : ∀ q ∈ (c.add_raw h2 it2).adds, db2 q.1 = some q.2) :
    (∀ q ∈ c.adds, db2 q.1 = some q.2) ∨ HCollision H := by
  by_cases hcol : ∃ q ∈ c.adds, q.1 = h2 ∧ q.2 ≠ it2
  · obtain ⟨q, hq, hq1, hq2⟩ := hcol
    refine Or.inr ⟨q.2, it2, hq2, ?_⟩
    rw [← hk q hq, hq1, hkey]
  · push_neg at hcol
    refine Or.inl (fun q hq => ?_)
    by_cases hqh : q.1 = h2
    · have hit : q.2 = it2 := hcol q hq hqh
      have hmem : (h2, it2) ∈ (c.add_raw h2 it2).adds := by
        simp [Change.add_raw]
      rw [hqh, hit]
      exact hres (h2, it2) hmem
    · refine hres q ?_
      simp only [Change.add_raw, List.mem_append, List.mem_filter]
      exact Or.inl ⟨hq, by simpa using hqh⟩

theorem resolves_through_add_value {H : Bytes → Bytes} {db2 : Db} {c : Change}
    {n : MerkleNode} (hk : Change.keyed H c)
    (hres : ∀ q ∈ (c.add_value H n).2.adds, db2 q.1 = some q.2) :
    (∀ q ∈ c.adds, db2 q.1 = some q.2) ∨ HCollision H := by
  unfold Change.add_value at hres
  split at hres
  · exact Or.inl hres
  · exact resolves_through_add_raw hk rfl hres

theorem resolves_through_merge {db2 : Db} {c c2 : Change}
    (h2n : Change.keysNodup c2) (h2e : Change.exclusive c2)
    (hres : ∀ q ∈ (c.merge c2).adds, db2 q.1 = some q.2) :
    ∀ q ∈ c2.adds, db2 q.1 = some q.2 :=
  fun q hq => hres q (merge_adds_mem h2n h2e hq)

theorem add_value_pair_mem {H : Bytes → Bytes} {c : Change} {n : MerkleNode}
    (hninl : n.inlinable = false) :
    (H n.encBytes, n.toItem) ∈ (c.add_value H n).2.adds := by
  unfold Change.add_value
  rw [if_neg (by simp [hninl])]
  simp [Change.add_raw]

/-- `add_value` dispatch: the produced child reference is well-formed, and
a get through it reaches the node (resolving the staged pair when the node
went to the store by hash). -/
theorem add_value_fst {H : Bytes → Bytes} (hH32 : ∀ b, (H b).length = 32)
    {c : Change} {n : MerkleNode} (hw : MerkleNode.wfB n = true) :
    MerkleValue.wfB (c.add_value H n).1 = true ∧
    ∀ (db2 : Db), (∀ q ∈ (c.add_value H n).2.adds, db2 q.1 = some q.2) →
    ∀ (p : NibbleVec) (r : Option Bytes) (f1 : Nat),
      get_by_node f1 db2 n p = .ok r →
      ∃ f0, get_by_value f0 db2 (c.add_value H n).1 p = .ok r := by
  by_cases hinl : n.inlinable = true
  · have h2 : c.add_value H n = (.full n, c) := by
      simp only [Change.add_value]
      rw [if_pos hinl]
    rw [h2]
    constructor
    · simp only [MerkleValue.wfB, Bool.and_eq_true, decide_eq_true_eq]
      exact ⟨hw, inlinable_size_lt n hinl⟩
    · intro db2 hres p r f1 hget
      exact ⟨f1 + 1, by simpa only [get_by_value] using hget⟩
  · have hninl : n.inlinable = false := by simpa using hinl
    have h2 : c.add_value H n =
        (.hash (H n.encBytes), c.add_raw (H n.encBytes) n.toItem) := by
      simp only [Change.add_value]
      rw [if_neg (by simp [hninl])]
    rw [h2]
    constructor
    · simp only [MerkleValue.wfB, decide_eq_true_eq]
      exact hH32 _
    · intro db2 hres p r f1 hget
      have hpair : db2 (H n.encBytes) = some n.toItem := by
        have := hres (H n.encBytes, n.toItem) (by simp [Change.add_raw])
        exact this
      refine ⟨max f1 n.fbound + 1, ?_⟩
      simp only [get_by_value, dbGetWithError, hpair, bind, Except.bind]
      rw [MerkleNode.decode_toItem n (max f1 n.fbound) hw (le_max_right f1 n.fbound)]
      exact get_by_node_mono f1 (max f1 n.fbound) db2 n p r (le_max_left f1 n.fbound) hget

/-- Push a resolution hypothesis through the standard staging pattern
`(base.merge sub).add_value`. -/
theorem resolves_through_stage {H : Bytes → Bytes} {db2 : Db}
    {base sub : Change} {n : MerkleNode}
    (hkb : Change.keyed H base) (hks : Change.keyed H sub)
    (hns : Change.keysNodup sub) (hes : Change.exclusive sub)
    (hres : ∀ q ∈ ((base.merge sub).add_value H n).2.adds, db2 q.1 = some q.2) :
    (∀ q ∈ sub.adds, db2 q.1 = some q.2) ∨ HCollision H := by
  rcases resolves_through_add_value (Change.keyed_merge hkb hks) hres with h | h
  · exact Or.inl (resolves_through_merge hns hes h)
  · exact Or.inr h

/-- The branch `two_leaf_branch` builds: well-formed, with a
well-behaved change-set, and a get along the second (new-leaf) path
returns the new value. -/
theorem two_leaf_branch_props {H : Bytes → Bytes} (hH32 : ∀ b, (H b).length = 32)
    (anib : NibbleVec) (av : Bytes) (bnib : NibbleVec) (bv : Bytes)
    (hav : av ≠ []) (hbv : bv ≠ []) :
    MerkleNode.wfB (two_leaf_branch H anib av bnib bv).1 = true ∧
    Change.keyed H (two_leaf_branch H anib av bnib bv).2 ∧
    Change.keysNodup (two_leaf_branch H anib av bnib bv).2 ∧
    Change.exclusive (two_leaf_branch H anib av bnib bv).2 ∧
    ∀ (db2 : Db),
      (∀ q ∈ (two_leaf_branch H anib av bnib bv).2.adds, db2 q.1 = some q.2) →
      ∃ f0, get_by_node f0 db2 (two_leaf_branch H anib av bnib bv).1 bnib =
        .ok (some bv) := by
  rcases anib with - | ⟨ai, asub⟩
  · rcases bnib with - | ⟨bi, bsub⟩
    · have heq : two_leaf_branch H [] av [] bv =
          (.branch empty_nodes (some bv), Change.empty) := by
        simp only [two_leaf_branch]
      rw [heq]
      refine ⟨?_, Change.keyed_empty H, Change.keysNodup_empty,
        Change.exclusive_empty, ?_⟩
      · simp only [MerkleNode.wfB, Bool.and_eq_true, decide_eq_true_eq]
        exact ⟨⟨by simp [empty_nodes], by decide⟩, by simpa using hbv⟩
      · intro db2 _
        exact ⟨1, rfl⟩
    · rcases hbav : Change.empty.add_value H (.leaf bsub bv) with ⟨bval, chb⟩
      have hprops := add_value_fst hH32 (c := Change.empty)
        (n := MerkleNode.leaf bsub bv) rfl
      rw [hbav] at hprops
      have heq : two_leaf_branch H [] av (bi :: bsub) bv =
          (.branch (empty_nodes.set (bi : Nat) bval) (some av), chb) := by
        simp only [two_leaf_branch, hbav]
      rw [heq]
      refine ⟨?_, ?_, ?_, ?_, ?_⟩
      · simp only [MerkleNode.wfB, Bool.and_eq_true, decide_eq_true_eq]
        refine ⟨⟨by simp [empty_nodes], listWfB_set (by decide) hprops.1⟩, ?_⟩
        simpa using hav
      · have := Change.keyed_add_value (H := H) (c := Change.empty)
          (n := .leaf bsub bv) (Change.keyed_empty H)
        rwa [hbav] at this
      · have := Change.keysNodup_add_value (H := H) (c := Change.empty)
          (n := .leaf bsub bv) Change.keysNodup_empty
        rwa [hbav] at this
      · have := Change.exclusive_add_value (H := H) (c := Change.empty)
          (n := .leaf bsub bv) Change.exclusive_empty
        rwa [hbav] at this
      · intro db2 hres
        obtain ⟨f0, hget⟩ := hprops.2 db2 hres bsub (some bv) 1
          (by simp [get_by_node])
        refine ⟨f0 + 1, ?_⟩
        simp only [get_by_node]
        rw [getD_set_lt empty_nodes (bi : Nat) bval .empty
          (by simp [empty_nodes])]
        exact hget
  · rcases haav : Change.empty.add_value H (.leaf asub av) with ⟨aval, cha⟩
    have haprops := add_value_fst hH32 (c := Change.empty)
      (n := MerkleNode.leaf asub av) rfl
    rw [haav] at haprops
    have hachange : Change.keyed H cha ∧ Change.keysNodup cha ∧
        Change.exclusive cha := by
      refine ⟨?_, ?_, ?_⟩
      · have := Change.keyed_add_value (H := H) (c := Change.empty)
          (n := .leaf asub av) (Change.keyed_empty H)
        rwa [haav] at this
      · have := Change.keysNodup_add_value (H := H) (c := Change.empty)
          (n := .leaf asub av) Change.keysNodup_empty
        rwa [haav] at this
      · have := Change.exclusive_add_value (H := H) (c := Change.empty)
          (n := .leaf asub av) Change.exclusive_empty
        rwa [haav] at this
    rcases bnib with - | ⟨bi, bsub⟩
    · have heq : two_leaf_branch H (ai :: asub) av [] bv =
          (.branch (empty_nodes.set (ai : Nat) aval) (some bv), cha) := by
        simp only [two_leaf_branch, haav]
      rw [heq]
      refine ⟨?_, hachange.1, hachange.2.1, hachange.2.2, ?_⟩
      · simp only [MerkleNode.wfB, Bool.and_eq_true, decide_eq_true_eq]
        refine ⟨⟨by simp [empty_nodes], listWfB_set (by decide) haprops.1⟩, ?_⟩
        simpa using hbv
      · intro db2 _
        exact ⟨1, rfl⟩
    · rcases hbav : cha.add_value H (.leaf bsub bv) with ⟨bval, chb⟩
      have hbprops := add_value_fst hH32 (c := cha)
        (n := MerkleNode.leaf bsub bv) rfl
      rw [hbav] at hbprops
      have heq : two_leaf_branch H (ai :: asub) av (bi :: bsub) bv =
          (.branch ((empty_nodes.set (ai : Nat) aval).set (bi : Nat) bval) none,
            chb) := by
        simp only [two_leaf_branch, haav, hbav]
      rw [heq]
      refine ⟨?_, ?_, ?_, ?_, ?_⟩
      · simp only [MerkleNode.wfB, Bool.and_eq_true, decide_eq_true_eq]
        refine ⟨⟨by simp [empty_nodes], ?_⟩, by simp⟩
        exact listWfB_set (listWfB_set (by decide) haprops.1) hbprops.1
      · have := Change.keyed_add_value (H := H) (c := cha)
          (n := .leaf bsub bv) hachange.1
        rwa [hbav] at this
      · have := Change.keysNodup_add_value (H := H) (c := cha)
          (n := .leaf bsub bv) hachange.2.1
        rwa [hbav] at this
      · have := Change.exclusive_add_value (H := H) (c := cha)
          (n := .leaf bsub bv) hachange.2.2
        rwa [hbav] at this
      · intro db2 hres
        obtain ⟨f0, hget⟩ := hbprops.2 db2 hres bsub (some bv) 1
          (by simp [get_by_node])
        refine ⟨f0 + 1, ?_⟩
        simp only [get_by_node]
        rw [getD_set_lt _ (bi : Nat) bval .empty (by simp [empty_nodes])]
        exact hget

/-- The branch `value_and_leaf_branch` builds (when it does not panic):
well-formed, well-behaved change-set, and a get along the new-leaf path
returns the new value. -/
theorem value_and_leaf_branch_props {H : Bytes → Bytes}
    (hH32 : ∀ b, (H b).length = 32)
    (anib : NibbleVec) (ava : MerkleValue) (bnib : NibbleVec) (bv : Bytes)
    {nd : MerkleNode} {ch : Change}
    (hwa : MerkleValue.wfB ava = true) (hbv : bv ≠ [])
    (hrun : value_and_leaf_branch H anib ava bnib bv = .ok (nd, ch)) :
    MerkleNode.wfB nd = true ∧
    Change.keyed H ch ∧ Change.keysNodup ch ∧ Change.exclusive ch ∧
    ∀ (db2 : Db), (∀ q ∈ ch.adds, db2 q.1 = some q.2) →
      ∃ f0, get_by_node f0 db2 nd bnib = .ok (some bv) := by
  rcases anib with - | ⟨ai, asub⟩
  · cases hrun
  · by_cases hlen : asub.length > 0
    · rcases hxav : Change.empty.add_value H (.ext asub ava) with ⟨xval, chx⟩
      have hxprops := add_value_fst hH32 (c := Change.empty)
        (n := MerkleNode.ext asub ava) (by simpa only [MerkleNode.wfB] using hwa)
      rw [hxav] at hxprops
      have hxchange : Change.keyed H chx ∧ Change.keysNodup chx ∧
          Change.exclusive chx := by
        refine ⟨?_, ?_, ?_⟩
        · have := Change.keyed_add_value (H := H) (c := Change.empty)
            (n := .ext asub ava) (Change.keyed_empty H)
          rwa [hxav] at this
        · have := Change.keysNodup_add_value (H := H) (c := Change.empty)
            (n := .ext asub ava) Change.keysNodup_empty
          rwa [hxav] at this
        · have := Change.exclusive_add_value (H := H) (c := Change.empty)
            (n := .ext asub ava) Change.exclusive_empty
          rwa [hxav] at this
      rcases bnib with - | ⟨bi, bsub⟩
      · have heq : value_and_leaf_branch H (ai :: asub) ava [] bv =
            .ok (.branch (empty_nodes.set (ai : Nat) xval) (some bv), chx) := by
          simp only [value_and_leaf_branch]
          rw [if_pos hlen]
          simp only [hxav]
        rw [heq] at hrun
        have hp := Except.ok.inj hrun
        simp only [Prod.mk.injEq] at hp
        obtain ⟨rfl, rfl⟩ := hp
        refine ⟨?_, hxchange.1, hxchange.2.1, hxchange.2.2, fun db2 _ => ⟨1, rfl⟩⟩
        simp only [MerkleNode.wfB, Bool.and_eq_true, decide_eq_true_eq]
        exact ⟨⟨by simp [empty_nodes], listWfB_set (by decide) hxprops.1⟩,
          by simpa using hbv⟩
      · rcases hbav : chx.add_value H (.leaf bsub bv) with ⟨bval, chb⟩
        have hbprops := add_value_fst hH32 (c := chx)
          (n := MerkleNode.leaf bsub bv) rfl
        rw [hbav] at hbprops
        have heq : value_and_leaf_branch H (ai :: asub) ava (bi :: bsub) bv =
            .ok (.branch ((empty_nodes.set (ai : Nat) xval).set (bi : Nat) bval)
              none, chb) := by
          simp only [value_and_leaf_branch]
          rw [if_pos hlen]
          simp only [hxav, hbav]
        rw [heq] at hrun
        have hp := Except.ok.inj hrun
        simp only [Prod.mk.injEq] at hp
        obtain ⟨rfl, rfl⟩ := hp
        refine ⟨?_, ?_, ?_, ?_, ?_⟩
        · simp only [MerkleNode.wfB, Bool.and_eq_true, decide_eq_true_eq]
          exact ⟨⟨by simp [empty_nodes],
            listWfB_set (listWfB_set (by decide) hxprops.1) hbprops.1⟩, by simp⟩
        · have := Change.keyed_add_value (H := H) (c := chx)
            (n := .leaf bsub bv) hxchange.1
          rwa [hbav] at this
        · have := Change.keysNodup_add_value (H := H) (c := chx)
            (n := .leaf bsub bv) hxchange.2.1
          rwa [hbav] at this
        · have := Change.exclusive_add_value (H := H) (c := chx)
            (n := .leaf bsub bv) hxchange.2.2
          rwa [hbav] at this
        · intro db2 hres
          obtain ⟨f0, hget⟩ := hbprops.2 db2 hres bsub (some bv) 1
            (by simp [get_by_node])
          refine ⟨f0 + 1, ?_⟩
          simp only [get_by_node]
          rw [getD_set_lt _ (bi : Nat) bval .empty (by simp [empty_nodes])]
          exact hget
    · rcases bnib with - | ⟨bi, bsub⟩
      · have heq : value_and_leaf_branch H (ai :: asub) ava [] bv =
            .ok (.branch (empty_nodes.set (ai : Nat) ava) (some bv),
              Change.empty) := by
          simp only [value_and_leaf_branch]
          rw [if_neg hlen]
        rw [heq] at hrun
        have hp := Except.ok.inj hrun
        simp only [Prod.mk.injEq] at hp
        obtain ⟨rfl, rfl⟩ := hp
        refine ⟨?_, Change.keyed_empty H, Change.keysNodup_empty,
          Change.exclusive_empty, fun db2 _ => ⟨1, rfl⟩⟩
        simp only [MerkleNode.wfB, Bool.and_eq_true, decide_eq_true_eq]
        exact ⟨⟨by simp [empty_nodes], listWfB_set (by decide) hwa⟩,
          by simpa using hbv⟩
      · rcases hbav : Change.empty.add_value H (.leaf bsub bv) with ⟨bval, chb⟩
        have hbprops := add_value_fst hH32 (c := Change.empty)
          (n := MerkleNode.leaf bsub bv) rfl
        rw [hbav] at hbprops
        have heq : value_and_leaf_branch H (ai :: asub) ava (bi :: bsub) bv =
            .ok (.branch ((empty_nodes.set (ai : Nat) ava).set (bi : Nat) bval)
              none, chb) := by
          simp only [value_and_leaf_branch]
          rw [if_neg hlen]
          simp only [hbav]
        rw [heq] at hrun
        have hp := Except.ok.inj hrun
        simp only [Prod.mk.injEq] at hp
        obtain ⟨rfl, rfl⟩ := hp
        refine ⟨?_, ?_, ?_, ?_, ?_⟩
        · simp only [MerkleNode.wfB, Bool.and_eq_true, decide_eq_true_eq]
          exact ⟨⟨by simp [empty_nodes],
            listWfB_set (listWfB_set (by decide) hwa) hbprops.1⟩, by simp⟩
        · have := Change.keyed_add_value (H := H) (c := Change.empty)
            (n := .leaf bsub bv) (Change.keyed_empty H)
          rwa [hbav] at this
        · have := Change.keysNodup_add_value (H := H) (c := Change.empty)
            (n := .leaf bsub bv) Change.keysNodup_empty
          rwa [hbav] at this
        · have := Change.exclusive_add_value (H := H) (c := Change.empty)
            (n := .leaf bsub bv) Change.exclusive_empty
          rwa [hbav] at this
        · intro db2 hres
          obtain ⟨f0, hget⟩ := hbprops.2 db2 hres bsub (some bv) 1
            (by simp [get_by_node])
          refine ⟨f0 + 1, ?_⟩
          simp only [get_by_node]
          rw [getD_set_lt _ (bi : Nat) bval .empty (by simp [empty_nodes])]
          exact hget

theorem isPrefixOf_append_self (l r : NibbleVec) : l.isPrefixOf (l ++ r) = true :=
  List.isPrefixOf_iff_prefix.mpr (l.prefix_append r)

/-- Walking an extension whose prefix splits the path. -/
theorem ext_step_get {db2 : Db} {c2v : MerkleValue} {c0 rest p : NibbleVec}
    (hsplit : p = c0 ++ rest) {f0 : Nat} {r : Option Bytes}
    (hget : get_by_value f0 db2 c2v rest = .ok r) :
    get_by_node (f0 + 1) db2 (.ext c0 c2v) p = .ok r := by
  subst hsplit
  simp only [get_by_node]
  rw [if_pos (isPrefixOf_append_self c0 rest), List.drop_left]
  exact hget

mutual

/-- After a successful insert through a child reference, a get of the
inserted key through the new reference returns the new value — unless the
digest function exhibits a concrete collision.  The rewritten child is
well-formed and the change-set keeps the staging invariants. -/
theorem insert_get_value {H : Bytes → Bytes} (hH32 : ∀ b, (H b).length = 32) :
    ∀ (fuel : Nat) (req : Bool) (db : Db) (c : MerkleValue) (p : NibbleVec)
    (v : Bytes) (c2 : MerkleValue) (ch : Change),
    canonV H fuel req db c = true → v ≠ [] →
    insert_by_value H fuel db c p v = .ok (c2, ch) →
    MerkleValue.wfB c2 = true ∧
    Change.keyed H ch ∧ Change.keysNodup ch ∧ Change.exclusive ch ∧
    ∀ (db2 : Db), (∀ q ∈ ch.adds, db2 q.1 = some q.2) →
      (∃ f0, get_by_value f0 db2 c2 p = .ok (some v)) ∨ HCollision H
  | 0, _, _, _, _, _, _, _, _, _, hrun => by cases hrun
  | fuel + 1, req, db, .empty, p, v, c2, ch, _, hv, hrun => by
    simp only [insert_by_value] at hrun
    rcases hav : Change.empty.add_value H (.leaf p v) with ⟨lval, lch⟩
    rw [hav] at hrun
    have hp := Except.ok.inj hrun
    simp only [Prod.mk.injEq] at hp
    obtain ⟨rfl, rfl⟩ := hp
    have hprops := add_value_fst hH32 (c := Change.empty)
      (n := MerkleNode.leaf p v) rfl
    rw [hav] at hprops
    refine ⟨hprops.1, ?_, ?_, ?_, ?_⟩
    · have := Change.keyed_add_value (H := H) (c := Change.empty)
        (n := .leaf p v) (Change.keyed_empty H)
      rwa [hav] at this
    · have := Change.keysNodup_add_value (H := H) (c := Change.empty)
        (n := .leaf p v) Change.keysNodup_empty
      rwa [hav] at this
    · have := Change.exclusive_add_value (H := H) (c := Change.empty)
        (n := .leaf p v) Change.exclusive_empty
      rwa [hav] at this
    · intro db2 hres
      exact Or.inl (hprops.2 db2 hres p (some v) 1 (by simp [get_by_node]))
  | fuel + 1, req, db, .full sub, p, v, c2, ch, hc, hv, hrun => by
    simp only [canonV, Bool.and_eq_true] at hc
    simp only [insert_by_value] at hrun
    cases hins : insert_by_node H fuel db sub p v with
    | error e =>
      rw [hins] at hrun
      cases hrun
    | ok pr =>
      rcases pr with ⟨new_node, sub_ch⟩
      obtain ⟨hw2, hk2, hn2, he2, hget2⟩ := insert_get_node hH32 fuel db sub p v
        new_node sub_ch hc.1.1 hv hins
      rw [hins] at hrun
      simp only [bind, Except.bind] at hrun
      rcases hav : (Change.empty.merge sub_ch).add_value H new_node with ⟨nval, nch⟩
      rw [hav] at hrun
      have hp := Except.ok.inj hrun
      simp only [Prod.mk.injEq] at hp
      obtain ⟨rfl, rfl⟩ := hp
      have hprops := add_value_fst hH32 (c := Change.empty.merge sub_ch)
        (n := new_node) hw2
      rw [hav] at hprops
      refine ⟨hprops.1, ?_, ?_, ?_, ?_⟩
      · have := Change.keyed_add_value (H := H) (c := Change.empty.merge sub_ch)
          (n := new_node) (Change.keyed_merge (Change.keyed_empty H) hk2)
        rwa [hav] at this
      · have := Change.keysNodup_add_value (H := H) (c := Change.empty.merge sub_ch)
          (n := new_node) (Change.keysNodup_merge Change.keysNodup_empty)
        rwa [hav] at this
      · have := Change.exclusive_add_value (H := H) (c := Change.empty.merge sub_ch)
          (n := new_node) (Change.exclusive_merge Change.exclusive_empty)
        rwa [hav] at this
      · intro db2 hres
        have hres2 : ∀ q ∈ ((Change.empty.merge sub_ch).add_value H
            new_node).2.adds, db2 q.1 = some q.2 := by
          rw [hav]
          exact hres
        rcases resolves_through_stage (Change.keyed_empty H) hk2 hn2 he2 hres2 with
          hsub | hcol
        · rcases hget2 db2 hsub with ⟨f1, hget1⟩ | hcol
          · exact Or.inl (hprops.2 db2 hres p (some v) f1 hget1)
          · exact Or.inr hcol
        · exact Or.inr hcol
  | fuel + 1, req, db, .hash hh, p, v, c2, ch, hc, hv, hrun => by
    simp only [canonV] at hc
    cases hdb : db hh with
    | none =>
      simp only [hdb] at hc
      cases hc
    | some it =>
      simp only [hdb] at hc
      cases hdec : MerkleNode.decode fuel it with
      | none =>
        simp only [hdec] at hc
        cases hc
      | some m0 =>
        simp only [hdec] at hc
        simp only [Bool.and_eq_true, decide_eq_true_eq] at hc
        simp only [insert_by_value, dbGetWithError, hdb, bind, Except.bind,
          hdec] at hrun
        cases hins : insert_by_node H fuel db m0 p v with
        | error e =>
          rw [hins] at hrun
          cases hrun
        | ok pr =>
          rcases pr with ⟨new_node, sub_ch⟩
          obtain ⟨hw2, hk2, hn2, he2, hget2⟩ := insert_get_node hH32 fuel db m0 p v
            new_node sub_ch hc.1.1.1.1.1 hv hins
          rw [hins] at hrun
          rcases hav : ((Change.empty.remove_raw hh).merge sub_ch).add_value H
            new_node with ⟨nval, nch⟩
          have hp := Except.ok.inj hrun
          simp only [hav, Prod.mk.injEq] at hp
          obtain ⟨rfl, rfl⟩ := hp
          have hprops := add_value_fst hH32 (c := (Change.empty.remove_raw hh).merge
            sub_ch) (n := new_node) hw2
          rw [hav] at hprops
          have hkbase : Change.keyed H (Change.empty.remove_raw hh) :=
            Change.keyed_remove_raw (Change.keyed_empty H)
          refine ⟨hprops.1, ?_, ?_, ?_, ?_⟩
          · have := Change.keyed_add_value (H := H)
              (c := (Change.empty.remove_raw hh).merge sub_ch)
              (n := new_node) (Change.keyed_merge hkbase hk2)
            rwa [hav] at this
          · have := Change.keysNodup_add_value (H := H)
              (c := (Change.empty.remove_raw hh).merge sub_ch)
              (n := new_node) (Change.keysNodup_merge
                (Change.keysNodup_remove_raw Change.keysNodup_empty))
            rwa [hav] at this
          · have := Change.exclusive_add_value (H := H)
              (c := (Change.empty.remove_raw hh).merge sub_ch)
              (n := new_node) (Change.exclusive_merge
                (Change.exclusive_remove_raw Change.exclusive_empty))
            rwa [hav] at this
          · intro db2 hres
            have hres2 : ∀ q ∈ (((Change.empty.remove_raw hh).merge sub_ch).add_value
                H new_node).2.adds, db2 q.1 = some q.2 := by
              rw [hav]
              exact hres
            rcases resolves_through_stage hkbase hk2 hn2 he2 hres2 with hsub | hcol
            · rcases hget2 db2 hsub with ⟨f1, hget1⟩ | hcol
              · exact Or.inl (hprops.2 db2 hres p (some v) f1 hget1)
              · exact Or.inr hcol
            · exact Or.inr hcol

/-- After a successful insert into a node, a get of the inserted key in the
rewritten node returns the new value — unless the digest function exhibits
a concrete collision. -/
theorem insert_get_node {H : Bytes → Bytes} (hH32 : ∀ b, (H b).length = 32) :
    ∀ (fuel : Nat) (db : Db) (n : MerkleNode) (p : NibbleVec) (v : Bytes)
    (n2 : MerkleNode) (ch : Change),
    canonN H fuel db n = true → v ≠ [] →
    insert_by_node H fuel db n p v = .ok (n2, ch) →
    MerkleNode.wfB n2 = true ∧
    Change.keyed H ch ∧ Change.keysNodup ch ∧ Change.exclusive ch ∧
    ∀ (db2 : Db), (∀ q ∈ ch.adds, db2 q.1 = some q.2) →
      (∃ f0, get_by_node f0 db2 n2 p = .ok (some v)) ∨ HCollision H
  | 0, _, _, _, _, _, _, _, _, hrun => by cases hrun
  | fuel + 1, db, .leaf nn nv, p, v, n2, ch, hc, hv, hrun => by
    have hnv : nv ≠ [] := by
      simp only [canonN, decide_eq_true_eq] at hc
      exact hc
    simp only [insert_by_node] at hrun
    by_cases hnp : nn = p
    · rw [if_pos hnp] at hrun
      have hp := Except.ok.inj hrun
      simp only [Prod.mk.injEq] at hp
      obtain ⟨rfl, rfl⟩ := hp
      refine ⟨rfl, Change.keyed_empty H, Change.keysNodup_empty,
        Change.exclusive_empty, ?_⟩
      intro db2 _
      refine Or.inl ⟨1, ?_⟩
      simp [get_by_node]
    · rw [if_neg hnp] at hrun
      simp only [MPT.nibble.common_with_sub] at hrun
      obtain ⟨hwb, hkb, hnb, heb, hgetb⟩ := two_leaf_branch_props hH32
        (nn.drop (MPT.nibble.common p nn).length) nv
        (p.drop (MPT.nibble.common p nn).length) v hnv hv
      rcases htlb : two_leaf_branch H (nn.drop (MPT.nibble.common p nn).length) nv
          (p.drop (MPT.nibble.common p nn).length) v with ⟨branch, subchange⟩
      rw [htlb] at hwb hkb hnb heb hgetb hrun
      simp only at hwb hkb hnb heb hgetb
      by_cases hcom : (MPT.nibble.common p nn).length > 0
      · rw [if_pos hcom] at hrun
        rcases hav : (Change.empty.merge subchange).add_value H branch with ⟨v2, chw⟩
        rw [hav] at hrun
        have hp := Except.ok.inj hrun
        simp only [Prod.mk.injEq] at hp
        obtain ⟨rfl, rfl⟩ := hp
        have hprops := add_value_fst hH32 (c := Change.empty.merge subchange)
          (n := branch) hwb
        rw [hav] at hprops
        refine ⟨by simpa only [MerkleNode.wfB] using hprops.1, ?_, ?_, ?_, ?_⟩
        · have := Change.keyed_add_value (H := H) (c := Change.empty.merge subchange)
            (n := branch) (Change.keyed_merge (Change.keyed_empty H) hkb)
          rwa [hav] at this
        · have := Change.keysNodup_add_value (H := H)
            (c := Change.empty.merge subchange) (n := branch)
            (Change.keysNodup_merge Change.keysNodup_empty)
          rwa [hav] at this
        · have := Change.exclusive_add_value (H := H)
            (c := Change.empty.merge subchange) (n := branch)
            (Change.exclusive_merge Change.exclusive_empty)
          rwa [hav] at this
        · intro db2 hres
          have hres2 : ∀ q ∈ ((Change.empty.merge subchange).add_value H
              branch).2.adds, db2 q.1 = some q.2 := by
            rw [hav]
            exact hres
          rcases resolves_through_stage (Change.keyed_empty H) hkb hnb heb hres2 with
            hsub | hcol
          · obtain ⟨f1, hget1⟩ := hgetb db2 hsub
            obtain ⟨f0, hget0⟩ := hprops.2 db2 hres
              (p.drop (MPT.nibble.common p nn).length) (some v) f1 hget1
            exact Or.inl ⟨f0 + 1, ext_step_get (common_spec p nn).1 hget0⟩
          · exact Or.inr hcol
      · rw [if_neg hcom] at hrun
        have hp := Except.ok.inj hrun
        simp only [Prod.mk.injEq] at hp
        obtain ⟨rfl, rfl⟩ := hp
        refine ⟨hwb, Change.keyed_merge (Change.keyed_empty H) hkb,
          Change.keysNodup_merge Change.keysNodup_empty,
          Change.exclusive_merge Change.exclusive_empty, ?_⟩
        intro db2 hres
        have hsub := resolves_through_merge hnb heb hres
        obtain ⟨f1, hget1⟩ := hgetb db2 hsub
        have h0 : (MPT.nibble.common p nn).length = 0 := by omega
        rw [h0, List.drop_zero] at hget1
        exact Or.inl ⟨f1, hget1⟩
  | fuel + 1, db, .ext nn nc, p, v, n2, ch, hc, hv, hrun => by
    simp only [canonN, Bool.and_eq_true] at hc
    simp only [insert_by_node] at hrun
    by_cases hpre : nn.isPrefixOf p
    · rw [if_pos hpre] at hrun
      cases hins : insert_by_value H fuel db nc (p.drop nn.length) v with
      | error e =>
        rw [hins] at hrun
        cases hrun
      | ok pr =>
        rcases pr with ⟨c2v, ch2⟩
        obtain ⟨hw2, hk2, hn2, he2, hget2⟩ := insert_get_value hH32 fuel true db nc
          (p.drop nn.length) v c2v ch2 hc.2 hv hins
        rw [hins] at hrun
        simp only [bind, Except.bind] at hrun
        have hp := Except.ok.inj hrun
        simp only [Prod.mk.injEq] at hp
        obtain ⟨rfl, rfl⟩ := hp
        refine ⟨by simpa only [MerkleNode.wfB] using hw2,
          Change.keyed_merge (Change.keyed_empty H) hk2,
          Change.keysNodup_merge Change.keysNodup_empty,
          Change.exclusive_merge Change.exclusive_empty, ?_⟩
        intro db2 hres
        have hsub := resolves_through_merge hn2 he2 hres
        rcases hget2 db2 hsub with ⟨f1, hget1⟩ | hcol
        · refine Or.inl ⟨f1 + 1, ?_⟩
          simp only [get_by_node]
          rw [if_pos hpre]
          exact hget1
        · exact Or.inr hcol
    · rw [if_neg hpre] at hrun
      simp only [MPT.nibble.common_with_sub] at hrun
      cases hvlb : value_and_leaf_branch H (nn.drop (MPT.nibble.common p nn).length)
          nc (p.drop (MPT.nibble.common p nn).length) v with
      | error e =>
        rw [hvlb] at hrun
        cases hrun
      | ok pr =>
        rcases pr with ⟨branch, subchange⟩
        obtain ⟨hwb, hkb, hnb, heb, hgetb⟩ := value_and_leaf_branch_props hH32
          (nn.drop (MPT.nibble.common p nn).length) nc
          (p.drop (MPT.nibble.common p nn).length) v
          (canonV_wf fuel true db nc hc.2) hv hvlb
        rw [hvlb] at hrun
        simp only [bind, Except.bind] at hrun
        by_cases hcom : (MPT.nibble.common p nn).length > 0
        · rw [if_pos hcom] at hrun
          rcases hav : (Change.empty.merge subchange).add_value H branch with
            ⟨v2, chw⟩
          rw [hav] at hrun
          have hp := Except.ok.inj hrun
          simp only [Prod.mk.injEq] at hp
          obtain ⟨rfl, rfl⟩ := hp
          have hprops := add_value_fst hH32 (c := Change.empty.merge subchange)
            (n := branch) hwb
          rw [hav] at hprops
          refine ⟨by simpa only [MerkleNode.wfB] using hprops.1, ?_, ?_, ?_, ?_⟩
          · have := Change.keyed_add_value (H := H)
              (c := Change.empty.merge subchange) (n := branch)
              (Change.keyed_merge (Change.keyed_empty H) hkb)
            rwa [hav] at this
          · have := Change.keysNodup_add_value (H := H)
              (c := Change.empty.merge subchange) (n := branch)
              (Change.keysNodup_merge Change.keysNodup_empty)
            rwa [hav] at this
          · have := Change.exclusive_add_value (H := H)
              (c := Change.empty.merge subchange) (n := branch)
              (Change.exclusive_merge Change.exclusive_empty)
            rwa [hav] at this
          · intro db2 hres
            have hres2 : ∀ q ∈ ((Change.empty.merge subchange).add_value H
                branch).2.adds, db2 q.1 = some q.2 := by
              rw [hav]
              exact hres
            rcases resolves_through_stage (Change.keyed_empty H) hkb hnb heb
              hres2 with hsub | hcol
            · obtain ⟨f1, hget1⟩ := hgetb db2 hsub
              obtain ⟨f0, hget0⟩ := hprops.2 db2 hres
                (p.drop (MPT.nibble.common p nn).length) (some v) f1 hget1
              exact Or.inl ⟨f0 + 1, ext_step_get (common_spec p nn).1 hget0⟩
            · exact Or.inr hcol
        · rw [if_neg hcom] at hrun
          have hp := Except.ok.inj hrun
          simp only [Prod.mk.injEq] at hp
          obtain ⟨rfl, rfl⟩ := hp
          refine ⟨hwb, Change.keyed_merge (Change.keyed_empty H) hkb,
            Change.keysNodup_merge Change.keysNodup_empty,
            Change.exclusive_merge Change.exclusive_empty, ?_⟩
          intro db2 hres
          have hsub := resolves_through_merge hnb heb hres
          obtain ⟨f1, hget1⟩ := hgetb db2 hsub
          have h0 : (MPT.nibble.common p nn).length = 0 := by omega
          rw [h0, List.drop_zero] at hget1
          exact Or.inl ⟨f1, hget1⟩
  | fuel + 1, db, .branch cs bv, p, v, n2, ch, hc, hv, hrun => by
    obtain ⟨hlen, hcount, hvne⟩ := canonN_branch_parts fuel db cs bv hc
    have hkids : ∀ i : Fin 16,
        canonV H fuel false db (cs.getD (i : Nat) .empty) = true :=
      canonN_branch_child fuel db cs bv hc
    have hwkids : MerkleValue.listWfB cs = true := by
      refine MerkleValue.listWfB_of_forall cs (fun c2 hc2 => ?_)
      obtain ⟨i, hi, hci⟩ := List.mem_iff_getElem.mp hc2
      have hi16 : i < 16 := by omega
      have := hkids ⟨i, hi16⟩
      rw [List.getD_eq_getElem cs .empty hi] at this
      rw [← hci]
      exact canonV_wf fuel false db _ this
    rcases p with - | ⟨ni, rest⟩
    · simp only [insert_by_node] at hrun
      have hp := Except.ok.inj hrun
      simp only [Prod.mk.injEq] at hp
      obtain ⟨rfl, rfl⟩ := hp
      refine ⟨?_, Change.keyed_empty H, Change.keysNodup_empty,
        Change.exclusive_empty, ?_⟩
      · simp only [MerkleNode.wfB, Bool.and_eq_true, decide_eq_true_eq]
        exact ⟨⟨hlen, hwkids⟩, by simpa using hv⟩
      · intro db2 _
        exact Or.inl ⟨1, rfl⟩
    · simp only [insert_by_node] at hrun
      cases hins : insert_by_value H fuel db (cs.getD (ni : Nat) .empty) rest v with
      | error e =>
        rw [hins] at hrun
        cases hrun
      | ok pr =>
        rcases pr with ⟨c2v, ch2⟩
        obtain ⟨hw2, hk2, hn2, he2, hget2⟩ := insert_get_value hH32 fuel false db
          (cs.getD (ni : Nat) .empty) rest v c2v ch2 (hkids ⟨(ni : Nat), ni.isLt⟩)
          hv hins
        rw [hins] at hrun
        simp only [bind, Except.bind] at hrun
        have hp := Except.ok.inj hrun
        simp only [Prod.mk.injEq] at hp
        obtain ⟨rfl, rfl⟩ := hp
        refine ⟨?_, Change.keyed_merge (Change.keyed_empty H) hk2,
          Change.keysNodup_merge Change.keysNodup_empty,
          Change.exclusive_merge Change.exclusive_empty, ?_⟩
        · simp only [MerkleNode.wfB, Bool.and_eq_true, decide_eq_true_eq]
          exact ⟨⟨by simp [hlen], listWfB_set hwkids hw2⟩, hvne⟩
        · intro db2 hres
          have hsub := resolves_through_merge hn2 he2 hres
          rcases hget2 db2 hsub with ⟨f1, hget1⟩ | hcol
          · refine Or.inl ⟨f1 + 1, ?_⟩
            simp only [get_by_node]
            rw [getD_set_lt cs (ni : Nat) c2v .empty (by rw [hlen]; exact ni.isLt)]
            exact hget1
          · exact Or.inr hcol

end

theorem dbInsert_foldl_fresh : ∀ (ps : List (Bytes × RlpItem)) (db : Db) (h : Bytes),
    h ∉ ps.map Prod.fst → (ps.foldl (fun d p => dbInsert d p.1 p.2) db) h = db h
  | [], db, h, _ => rfl
  | p :: ps, db, h, hfresh => by
    simp only [List.map_cons, List.mem_cons, not_or] at hfresh
    simp only [List.foldl_cons]
    rw [dbInsert_foldl_fresh ps _ h hfresh.2]
    unfold dbInsert
    rw [if_neg hfresh.1]

theorem dbRemove_foldl_fresh : ∀ (rs : List Bytes) (db : Db) (h : Bytes),
    h ∉ rs → (rs.foldl (fun d r => dbRemove d r) db) h = db h
  | [], db, h, _ => rfl
  | r :: rs, db, h, hfresh => by
    simp only [List.mem_cons, not_or] at hfresh
    simp only [List.foldl_cons]
    rw [dbRemove_foldl_fresh rs _ h hfresh.2]
    unfold dbRemove
    rw [if_neg hfresh.1]

theorem dbInsert_foldl_mem : ∀ (ps : List (Bytes × RlpItem)) (db : Db),
    (ps.map Prod.fst).Nodup → ∀ q ∈ ps,
    (ps.foldl (fun d p => dbInsert d p.1 p.2) db) q.1 = some q.2
  | [], db, _, q, hq => by cases hq
  | p :: ps, db, hnd, q, hq => by
    simp only [List.map_cons, List.nodup_cons] at hnd
    simp only [List.foldl_cons]
    rcases List.mem_cons.mp hq with rfl | hq2
    · rw [dbInsert_foldl_fresh ps _ q.1 hnd.1]
      unfold dbInsert
      rw [if_pos rfl]
    · exact dbInsert_foldl_mem ps _ hnd.2 q hq2

/-- Applying a change-set with distinct addition hashes, none of which is
also removed, makes every staged pair readable. -/
theorem apply_change_resolves (t : MemoryTrieMut) (ch : Change)
    (hnd : Change.keysNodup ch) (hex : Change.exclusive ch) :
    ∀ q ∈ ch.adds, (t.apply_change ch).database q.1 = some q.2 := by
  intro q hq
  simp only [MemoryTrieMut.apply_change]
  rw [dbRemove_foldl_fresh ch.removes _ q.1 (hex q hq)]
  exact dbInsert_foldl_mem ch.adds t.database hnd q hq

theorem add_raw_pair_mem (c : Change) (h : Bytes) (it : RlpItem) :
    (h, it) ∈ (c.add_raw h it).adds := by
  simp [Change.add_raw]

/-- C10 (amended): on a canonical memory trie, after a successful
`TrieMut::insert` of a key with a nonempty value, reading that key back
(with enough fuel) returns exactly the inserted value — unless the digest
function maps two distinct RLP values to the same hash (in which case the
content-addressed store cannot be trusted and a concrete collision is
exhibited). -/
theorem C10_insert_get (H : Bytes → Bytes) (fuel : Nat) (t : MemoryTrieMut)
    (key value : Bytes) (n : MerkleNode)
    (hH32 : ∀ b, (H b).length = 32)
    (hv : value ≠ [])
    (hcanon : t.root = EMPTY_TRIE_HASH H ∨
      (t.database t.root = some n.toItem ∧
       MerkleNode.decode fuel n.toItem = some n ∧
       canonN H fuel t.database n = true)) :
    ∀ t2, MemoryTrieMut.insert H fuel t key value = some t2 →
      (∃ f0, MemoryTrieMut.get H f0 t2 key = some (some value)) ∨ HCollision H := by
  intro t2 hrun
  unfold MemoryTrieMut.insert at hrun
  cases hins : MPT.insert H fuel t.database t.root key value with
  | error e =>
    rw [hins] at hrun
    cases hrun
  | ok pr =>
    rcases pr with ⟨new_root, ch⟩
    rw [hins] at hrun
    have ht2 := Option.some.inj hrun
    -- Characterize the run: a new node n2, its change ch2 and the final
    -- shape of ch and new_root.
    have hmain : ∃ (n2 : MerkleNode) (base ch2 : Change),
        MerkleNode.wfB n2 = true ∧
        Change.keyed H ch2 ∧ Change.keysNodup ch2 ∧ Change.exclusive ch2 ∧
        Change.keyed H base ∧ Change.keysNodup base ∧ Change.exclusive base ∧
        new_root = H n2.encBytes ∧
        ch = (base.merge ch2).add_node H n2 ∧
        ∀ (db2 : Db), (∀ q ∈ ch2.adds, db2 q.1 = some q.2) →
          (∃ f0, get_by_node f0 db2 n2 (nibble.from_key key) = .ok (some value)) ∨
            HCollision H := by
      unfold insert at hins
      by_cases hne : t.root = EMPTY_TRIE_HASH H
      · rw [if_pos hne] at hins
        simp only [insert_by_empty, bind, Except.bind, pure, Except.pure] at hins
        have hp := Except.ok.inj hins
        simp only [Prod.mk.injEq] at hp
        obtain ⟨rfl, rfl⟩ := hp
        refine ⟨.leaf (nibble.from_key key) value, Change.empty, Change.empty,
          rfl, Change.keyed_empty H, Change.keysNodup_empty, Change.exclusive_empty,
          Change.keyed_empty H, Change.keysNodup_empty, Change.exclusive_empty,
          rfl, rfl, ?_⟩
        intro db2 _
        refine Or.inl ⟨1, ?_⟩
        simp [get_by_node]
      · rw [if_neg hne] at hins
        rcases hcanon with heq | ⟨hdb, hdec, hcn⟩
        · exact absurd heq hne
        · simp only [dbGetWithError, hdb, bind, Except.bind, hdec] at hins
          cases hins2 : insert_by_node H fuel t.database n (nibble.from_key key)
              value with
          | error e =>
            rw [hins2] at hins
            cases hins
          | ok pr2 =>
            rcases pr2 with ⟨n2, ch2⟩
            obtain ⟨hw2, hk2, hn2, he2, hget2⟩ := insert_get_node hH32 fuel
              t.database n (nibble.from_key key) value n2 ch2 hcn hv hins2
            rw [hins2] at hins
            have hp := Except.ok.inj hins
            simp only [Prod.mk.injEq] at hp
            obtain ⟨rfl, rfl⟩ := hp
            exact ⟨n2, Change.empty.remove_raw t.root, ch2, hw2, hk2, hn2, he2,
              Change.keyed_remove_raw (Change.keyed_empty H),
              Change.keysNodup_remove_raw Change.keysNodup_empty,
              Change.exclusive_remove_raw Change.exclusive_empty,
              rfl, rfl, hget2⟩
    obtain ⟨n2, base, ch2, hw2, hk2, hn2, he2, hkb, hnb, heb, hroot2, hch, hget2⟩ :=
      hmain
    subst hch
    subst hroot2
    -- The final change keeps the staging invariants, so applying it makes
    -- every staged pair readable.
    have hkf : Change.keyed H ((base.merge ch2).add_node H n2) :=
      Change.keyed_add_raw (Change.keyed_merge hkb hk2) rfl
    have hnf : Change.keysNodup ((base.merge ch2).add_node H n2) :=
      Change.keysNodup_add_raw (Change.keysNodup_merge hnb)
    have hef : Change.exclusive ((base.merge ch2).add_node H n2) :=
      Change.exclusive_add_raw (Change.exclusive_merge heb)
    have hresF : ∀ q ∈ ((base.merge ch2).add_node H n2).adds,
        t2.database q.1 = some q.2 := by
      intro q hq
      rw [← ht2]
      exact apply_change_resolves t _ hnf hef q hq
    have hrootpair : t2.database (H n2.encBytes) = some n2.toItem :=
      hresF (H n2.encBytes, n2.toItem) (add_raw_pair_mem _ _ _)
    have hroott2 : t2.root = H n2.encBytes := by rw [← ht2]
    -- Push resolution down to the change of the rewritten node.
    rcases resolves_through_add_raw (Change.keyed_merge hkb hk2)
        (show H n2.encBytes = H (rlpSerialize n2.toItem) from rfl) hresF with
      hresM | hcol
    · have hres2 := resolves_through_merge hn2 he2 hresM
      rcases hget2 t2.database hres2 with ⟨f1, hget1⟩ | hcol
      · -- Either the new root hash collides with the empty-trie hash, or
        -- the top-level get walks the new root node.
        by_cases hempty : H n2.encBytes = EMPTY_TRIE_HASH H
        · obtain ⟨x, xs, hxs⟩ := MerkleNode.toItem_cons n2
          refine Or.inr ⟨n2.toItem, .str [], ?_, ?_⟩
          · rw [hxs]
            intro hcontra
            cases hcontra
          · exact hempty
        · refine Or.inl ⟨max f1 n2.fbound + 1, ?_⟩
          unfold MemoryTrieMut.get
          have hgtop : MPT.get H (max f1 n2.fbound + 1) t2.database t2.root key =
              .ok (some value) := by
            unfold get
            rw [hroott2, if_neg hempty]
            simp only [dbGetWithError, hrootpair, bind, Except.bind]
            rw [MerkleNode.decode_toItem n2 (max f1 n2.fbound + 1) hw2
              ((le_max_right f1 n2.fbound).trans (Nat.le_succ _))]
            exact get_by_node_mono f1 (max f1 n2.fbound + 1) t2.database n2
              (nibble.from_key key) (some value)
              ((le_max_left f1 n2.fbound).trans (Nat.le_succ _)) hget1
          rw [hgtop]
      · exact Or.inr hcol
    · exact Or.inr hcol

/-- C10 witness: the amended insert/get postcondition instantiated at the
empty memory trie. -/
theorem C10_insert_get_witness :
    ((∀ b, (padHash b).length = 32) ∧
     ([120] : Bytes) ≠ [] ∧
     ((MemoryTrieMut.default padHash).root = EMPTY_TRIE_HASH padHash ∨
       ((MemoryTrieMut.default padHash).database
          (MemoryTrieMut.default padHash).root =
            some (MerkleNode.leaf [] [1]).toItem ∧
        MerkleNode.decode 9 (MerkleNode.leaf [] [1]).toItem =
          some (MerkleNode.leaf [] [1]) ∧
        canonN padHash 9 (MemoryTrieMut.default padHash).database
          (MerkleNode.leaf [] [1]) = true))) ∧
    ∀ t2, MemoryTrieMut.insert padHash 9 (MemoryTrieMut.default padHash)
        [103] [120] = some t2 →
      (∃ f0, MemoryTrieMut.get padHash f0 t2 [103] = some (some [120])) ∨
        HCollision padHash :=
  ⟨⟨fun b => by
      simp only [padHash, List.length_take, List.length_append,
        List.length_replicate]
      omega,
    by decide, Or.inl rfl⟩,
    C10_insert_get padHash 9 (MemoryTrieMut.default padHash) [103] [120]
      (MerkleNode.leaf [] [1])
      (fun b => by
        simp only [padHash, List.length_take, List.length_append,
          List.length_replicate]
        omega)
      (by decide) (Or.inl rfl)⟩

theorem decode_agree {f1 f2 : Nat} {it : RlpItem} {m m2 : MerkleNode}
    (h1 : MerkleNode.decode f1 it = some m)
    (h2 : MerkleNode.decode f2 it = some m2) : m = m2 := by
  have e1 := MerkleNode.decode_mono f1 (f1 + f2) it m (by omega) h1
  have e2 := MerkleNode.decode_mono f2 (f1 + f2) it m2 (by omega) h2
  rw [e1] at e2
  exact Option.some.inj e2

theorem decode_toItem_agree {f : Nat} {m m2 : MerkleNode}
    (hw : MerkleNode.wfB m = true)
    (h2 : MerkleNode.decode f (MerkleNode.toItem m) = some m2) : m2 = m :=
  decode_agree h2 (MerkleNode.decode_toItem m m.fbound hw le_rfl)

theorem isPrefixOf_of_append {c0 rest p : NibbleVec} (hsplit : p = c0 ++ rest) :
    c0.isPrefixOf p = true := by
  subst hsplit
  exact isPrefixOf_append_self c0 rest

theorem drop_of_append {c0 rest p : NibbleVec} (hsplit : p = c0 ++ rest) :
    p.drop c0.length = rest := by
  subst hsplit
  exact List.drop_left c0 rest

theorem getD_empty_nodes (j : Nat) : empty_nodes.getD j .empty = .empty := by
  rcases Nat.lt_or_ge j 16 with h | h
  · interval_cases j <;> rfl
  · exact List.getD_eq_default _ _ (by simpa [empty_nodes] using h)

theorem findIdx_single : ∀ (l : List MerkleValue) (i : Nat),
    i < l.length → l.getD i .empty ≠ .empty →
    (∀ j, j < l.length → j ≠ i → l.getD j .empty = .empty) →
    l.findIdx (fun w => w ≠ .empty) = i
  | [], i, h, _, _ => by simp at h
  | c :: l, 0, _, hi, _ => by
    simp only [List.getD_cons_zero] at hi
    simp [List.findIdx_cons, hi]
  | c :: l, i + 1, h, hi, hj => by
    have hc : c = .empty := by
      have := hj 0 (by omega) (by omega)
      simpa using this
    subst hc
    rw [List.findIdx_cons]
    have hp : decide (MerkleValue.empty ≠ MerkleValue.empty) = false := by decide
    rw [hp]
    simp only [cond_false]
    rw [findIdx_single l i (by simpa using h) (by simpa using hi) ?_]
    intro j hjl hjne
    have := hj (j + 1) (by simpa using Nat.succ_lt_succ hjl) (by omega)
    simpa using this

theorem filter_length_set_fresh : ∀ (cs : List MerkleValue) (i : Nat)
    (x : MerkleValue), i < cs.length → cs.getD i .empty = .empty → x ≠ .empty →
    ((cs.set i x).filter (fun c => decide (c ≠ MerkleValue.empty))).length =
      (cs.filter (fun c => decide (c ≠ MerkleValue.empty))).length + 1
  | [], i, x, h, _, _ => by simp at h
  | c :: cs, 0, x, _, hc, hx => by
    have hc2 : c = MerkleValue.empty := by simpa using hc
    subst hc2
    show ((x :: cs).filter _).length = ((MerkleValue.empty :: cs).filter _).length + 1
    simp [List.filter_cons, hx]
  | c :: cs, i + 1, x, h, hc, hx => by
    show ((c :: cs.set i x).filter _).length = ((c :: cs).filter _).length + 1
    have hrec := filter_length_set_fresh cs i x (by simpa using h)
      (by simpa using hc) hx
    simp only [List.filter_cons]
    split
    · simpa using hrec
    · simpa using hrec

theorem count_empty_nodes (v : Option Bytes) :
    nonempty_node_count empty_nodes v = if v.isSome then 1 else 0 := by
  cases v <;> rfl

/-- A materialized child node reproduces the original child reference
through `add_value`. -/
def reproduces (H : Bytes → Bytes) (c : MerkleValue) (m : MerkleNode) : Prop :=
  (m.inlinable = true ∧ c = .full m) ∨
  (m.inlinable = false ∧ c = .hash (H m.encBytes))

theorem reproduces_add_value {H : Bytes → Bytes} {c : MerkleValue}
    {m : MerkleNode} (h : reproduces H c m) (acc : Change) :
    (acc.add_value H m).1 = c := by
  rcases h with ⟨hinl, rfl⟩ | ⟨hninl, rfl⟩
  · simp only [Change.add_value]
    rw [if_pos hinl]
  · simp only [Change.add_value]
    rw [if_neg (by simp [hninl])]

/-- Pointwise description of the store after applying a change whose
addition hashes are distinct and disjoint from its removals. -/
theorem apply_change_lookup (t : MemoryTrieMut) (ch : Change)
    (hnd : Change.keysNodup ch) (h : Bytes) :
    (h ∈ ch.removes ∧ (t.apply_change ch).database h = none) ∨
    (∃ it, (h, it) ∈ ch.adds ∧ (t.apply_change ch).database h = some it) ∨
    ((∀ it, (h, it) ∉ ch.adds) ∧ h ∉ ch.removes ∧
      (t.apply_change ch).database h = t.database h) := by
  simp only [MemoryTrieMut.apply_change]
  by_cases hrem : h ∈ ch.removes
  · refine Or.inl ⟨hrem, ?_⟩
    have : ∀ (rs : List Bytes) (db : Db), h ∈ rs →
        (rs.foldl (fun d r => dbRemove d r) db) h = none := by
      intro rs
      induction rs with
      | nil => intro db hmem; cases hmem
      | cons r rs ih =>
        intro db hmem
        simp only [List.foldl_cons]
        by_cases hhr : h ∈ rs
        · exact ih _ hhr
        · have hr : r = h := by
            rcases List.mem_cons.mp hmem with h1 | h2
            · exact h1.symm
            · exact absurd h2 hhr
          rw [dbRemove_foldl_fresh rs _ h hhr]
          unfold dbRemove
          rw [if_pos hr.symm]
    exact this ch.removes _ hrem
  · by_cases hadd : ∃ it, (h, it) ∈ ch.adds
    · obtain ⟨it, hit⟩ := hadd
      refine Or.inr (Or.inl ⟨it, hit, ?_⟩)
      rw [dbRemove_foldl_fresh ch.removes _ h hrem]
      exact dbInsert_foldl_mem ch.adds t.database hnd (h, it) hit
    · push_neg at hadd
      refine Or.inr (Or.inr ⟨hadd, hrem, ?_⟩)
      rw [dbRemove_foldl_fresh ch.removes _ h hrem]
      refine dbInsert_foldl_fresh ch.adds t.database h ?_
      intro hmem
      obtain ⟨q, hq, hq1⟩ := List.mem_map.mp hmem
      subst hq1
      exact hadd q.2 (by simpa using hq)

theorem empty_nodes_filter :
    (empty_nodes.filter (fun c => decide (c ≠ MerkleValue.empty))).length = 0 := by
  decide

theorem set_empty_of_getD_empty {l : List MerkleValue} {i : Nat}
    (h : l.getD i .empty = .empty) : l.set i .empty = l := by
  have := set_getD_self l i .empty
  rwa [h] at this

theorem count_single (i : Nat) (x : MerkleValue) (hi : i < 16)
    (hx : x ≠ .empty) :
    nonempty_node_count (empty_nodes.set i x) none = 1 := by
  simp only [nonempty_node_count, Option.isSome_none]
  rw [filter_length_set_fresh empty_nodes i x (by simpa [empty_nodes] using hi)
    (getD_empty_nodes i) hx, empty_nodes_filter]
  decide

theorem findIdx_empty_set (i : Nat) (x : MerkleValue) (hi : i < 16)
    (hx : x ≠ .empty) :
    (empty_nodes.set i x).findIdx (fun v => v ≠ .empty) = i := by
  refine findIdx_single _ i (by simpa [empty_nodes] using hi) ?_ ?_
  · rwa [getD_set_lt empty_nodes i x .empty (by simpa [empty_nodes] using hi)]
  · intro j hj hji
    rw [getD_set_ne empty_nodes i j x .empty (fun h => hji h.symm)]
    exact getD_empty_nodes j

theorem add_value_fst_ne_empty {H : Bytes → Bytes} {c ch : Change}
    {n : MerkleNode} {v : MerkleValue} (hav : c.add_value H n = (v, ch)) :
    v ≠ .empty := by
  have h1 : (c.add_value H n).1 = v := by rw [hav]
  unfold Change.add_value at h1
  split at h1 <;> simp only at h1 <;> rw [← h1] <;> simp

/-- Deleting the freshly staged leaf's own path through its child
reference removes it. -/
theorem delete_staged_leaf {H : Bytes → Bytes} {db2 : Db}
    {lnib : NibbleVec} {lval : Bytes} {c ch : Change} {lv : MerkleValue}
    (hav : c.add_value H (.leaf lnib lval) = (lv, ch))
    (hpair : (MerkleNode.leaf lnib lval).inlinable = false →
      db2 (H (MerkleNode.leaf lnib lval).encBytes) =
        some (MerkleNode.leaf lnib lval).toItem) :
    ∀ (f2 : Nat) (res : Option MerkleNode) (ch2 : Change),
      delete_by_child H f2 db2 lv lnib = .ok (res, ch2) → res = none := by
  intro f2 res ch2 hrun
  by_cases hinl : (MerkleNode.leaf lnib lval).inlinable = true
  · have h2 : c.add_value H (.leaf lnib lval) = (.full (.leaf lnib lval), c) := by
      simp only [Change.add_value]
      rw [if_pos hinl]
    rw [h2] at hav
    have hlv : lv = .full (.leaf lnib lval) := (Prod.mk.injEq _ _ _ _ ▸ hav).1.symm
    subst hlv
    rcases f2 with - | g
    · cases hrun
    rcases g with - | g2
    · simp only [delete_by_child, delete_by_node, bind, Except.bind] at hrun
      cases hrun
    have hstep : delete_by_node H (g2 + 1) db2 (MerkleNode.leaf lnib lval) lnib =
        .ok (none, Change.empty) := by
      simp [delete_by_node]
    simp only [delete_by_child, bind, Except.bind, hstep] at hrun
    have hp := Except.ok.inj hrun
    simp only [Prod.mk.injEq] at hp
    exact hp.1.symm
  · have hninl : (MerkleNode.leaf lnib lval).inlinable = false := by simpa using hinl
    have h2 : c.add_value H (.leaf lnib lval) =
        (.hash (H (MerkleNode.leaf lnib lval).encBytes),
          c.add_raw (H (MerkleNode.leaf lnib lval).encBytes)
            (MerkleNode.leaf lnib lval).toItem) := by
      simp only [Change.add_value]
      rw [if_neg (by simp [hninl])]
    rw [h2] at hav
    have hlv : lv = .hash (H (MerkleNode.leaf lnib lval).encBytes) :=
      (Prod.mk.injEq _ _ _ _ ▸ hav).1.symm
    subst hlv
    rcases f2 with - | g
    · cases hrun
    simp only [delete_by_child, dbGetWithError, hpair hninl, bind, Except.bind] at hrun
    cases hdec : MerkleNode.decode g (MerkleNode.leaf lnib lval).toItem with
    | none => simp only [hdec] at hrun; cases hrun
    | some m =>
      simp only [hdec] at hrun
      have hm := decode_toItem_agree (m := MerkleNode.leaf lnib lval) rfl hdec
      subst hm
      rcases g with - | g3
      · exact Option.noConfusion hdec
      · have hstep : delete_by_node H (g3 + 1) db2 (MerkleNode.leaf lnib lval) lnib =
            .ok (none, Change.empty) := by
          simp [delete_by_node]
        simp only [hstep] at hrun
        have hp := Except.ok.inj hrun
        simp only [Prod.mk.injEq] at hp
        exact hp.1.symm

/-- Materializing a freshly staged node through `find_and_remove_child`
returns the staged node itself. -/
theorem far_staged {H : Bytes → Bytes} {db2 : Db} {c ch : Change}
    {m : MerkleNode} {av : MerkleValue}
    (hav : c.add_value H m = (av, ch)) (hw : MerkleNode.wfB m = true)
    (hpair : m.inlinable = false → db2 (H m.encBytes) = some m.toItem) :
    ∀ (f : Nat) (res : MerkleNode) (chr : Change),
      find_and_remove_child f db2 av = .ok (res, chr) → res = m := by
  intro f res chr hrun
  by_cases hinl : m.inlinable = true
  · have h2 : c.add_value H m = (.full m, c) := by
      simp only [Change.add_value]
      rw [if_pos hinl]
    rw [h2] at hav
    have hlv : av = .full m := (Prod.mk.injEq _ _ _ _ ▸ hav).1.symm
    subst hlv
    rcases f with - | g
    · cases hrun
    simp only [find_and_remove_child] at hrun
    have hp := Except.ok.inj hrun
    simp only [Prod.mk.injEq] at hp
    exact hp.1.symm
  · have hninl : m.inlinable = false := by simpa using hinl
    have h2 : c.add_value H m = (.hash (H m.encBytes),
        c.add_raw (H m.encBytes) m.toItem) := by
      simp only [Change.add_value]
      rw [if_neg (by simp [hninl])]
    rw [h2] at hav
    have hlv : av = .hash (H m.encBytes) := (Prod.mk.injEq _ _ _ _ ▸ hav).1.symm
    subst hlv
    rcases f with - | g
    · cases hrun
    simp only [find_and_remove_child, dbGetWithError, hpair hninl, bind,
      Except.bind] at hrun
    cases hdec : MerkleNode.decode g m.toItem with
    | none => simp only [hdec] at hrun; cases hrun
    | some m2 =>
      simp only [hdec] at hrun
      have hm := decode_toItem_agree hw hdec
      subst hm
      have hp := Except.ok.inj hrun
      simp only [Prod.mk.injEq] at hp
      exact hp.1.symm

/-- Materializing a canonical extension child through
`find_and_remove_child` against the evolved store yields the original
branch node behind it (or exhibits a digest collision). -/
theorem far_canon {H : Bytes → Bytes} {fuel : Nat} {db db2 : Db}
    {ava : MerkleValue}
    (hcv : canonV H fuel true db ava = true)
    (hold : ∀ h it, db h = some it → H (rlpSerialize it) = h →
      db2 h = some it ∨ db2 h = none ∨ HCollision H) :
    ∀ (f : Nat) (res : MerkleNode) (chr : Change),
      find_and_remove_child f db2 ava = .ok (res, chr) →
      ((∃ cs v, res = .branch cs v) ∧ reproduces H ava res) ∨ HCollision H := by
  intro f res chr hrun
  rcases fuel with - | fc
  · simp [canonV] at hcv
  rcases ava with - | m | h
  · simp [canonV] at hcv
  · simp only [canonV, Bool.and_eq_true] at hcv
    obtain ⟨⟨hcn, hinl⟩, hbr⟩ := hcv
    rcases f with - | g
    · cases hrun
    simp only [find_and_remove_child] at hrun
    have hp := Except.ok.inj hrun
    simp only [Prod.mk.injEq] at hp
    obtain ⟨hres, -⟩ := hp
    subst hres
    have hbr2 : m.isBranch = true := by simpa using hbr
    rcases m with ⟨p, v⟩ | ⟨p, c⟩ | ⟨cs, v⟩
    · simp [MerkleNode.isBranch] at hbr2
    · simp [MerkleNode.isBranch] at hbr2
    · exact Or.inl ⟨⟨cs, v, rfl⟩, Or.inl ⟨by simpa using hinl, rfl⟩⟩
  · rcases hcv2 : db h with - | it
    · simp only [canonV, hcv2] at hcv
      exact Bool.noConfusion hcv
    rcases hdec : MerkleNode.decode fc it with - | n0
    · simp only [canonV, hcv2, hdec] at hcv
      exact Bool.noConfusion hcv
    simp only [canonV, hcv2, hdec, Bool.and_eq_true, decide_eq_true_eq] at hcv
    obtain ⟨⟨⟨⟨⟨hcn, hninl⟩, hti⟩, hkey⟩, hlen⟩, hbr⟩ := hcv
    rcases hold h it hcv2 hkey with h2 | h2 | h2
    · rcases f with - | g
      · cases hrun
      simp only [find_and_remove_child, dbGetWithError, h2, bind,
        Except.bind] at hrun
      cases hdec2 : MerkleNode.decode g it with
      | none => simp only [hdec2] at hrun; cases hrun
      | some m2 =>
        simp only [hdec2] at hrun
        have hm2 : m2 = n0 := decode_agree hdec2 hdec
        subst hm2
        have hp := Except.ok.inj hrun
        simp only [Prod.mk.injEq] at hp
        obtain ⟨hres, -⟩ := hp
        subst hres
        have hbr2 : m2.isBranch = true := by simpa using hbr
        have henc : MerkleNode.encBytes m2 = rlpSerialize it := by
          rw [MerkleNode.encBytes, hti]
        have hrep : reproduces H (.hash h) m2 := by
          refine Or.inr ⟨by simpa using hninl, ?_⟩
          rw [henc, hkey]
        rcases m2 with ⟨p, v⟩ | ⟨p, c⟩ | ⟨cs, v⟩
        · simp [MerkleNode.isBranch] at hbr2
        · simp [MerkleNode.isBranch] at hbr2
        · exact Or.inl ⟨⟨cs, v, rfl⟩, hrep⟩
    · rcases f with - | g
      · cases hrun
      simp only [find_and_remove_child, dbGetWithError, h2, bind,
        Except.bind] at hrun
      cases hrun
    · exact Or.inr h2

/-- Deleting the new-leaf path from the branch `two_leaf_branch` builds
restores the surviving leaf (with its selector nibble merged back). -/
theorem tlb_delete {H : Bytes → Bytes} {db2 : Db}
    (anib : NibbleVec) (av : Bytes) (bnib : NibbleVec) (bv : Bytes)
    (hneq : anib ≠ bnib)
    (hne : ∀ (x : Nibble) xs (y : Nibble) ys,
      anib = x :: xs → bnib = y :: ys → x ≠ y)
    (hres : ∀ q ∈ (two_leaf_branch H anib av bnib bv).2.adds,
      db2 q.1 = some q.2) :
    ∀ (f2 : Nat) (res : Option MerkleNode) (ch2 : Change),
      delete_by_node H f2 db2 (two_leaf_branch H anib av bnib bv).1 bnib =
        .ok (res, ch2) →
      res = some (.leaf anib av) ∨ HCollision H := by
  rcases anib with - | ⟨ai, asub⟩
  · rcases bnib with - | ⟨bi, bsub⟩
    · exact absurd rfl hneq
    · rcases hbav : Change.empty.add_value H (.leaf bsub bv) with ⟨bval, chb⟩
      have heq : two_leaf_branch H [] av (bi :: bsub) bv =
          (.branch (empty_nodes.set (bi : Nat) bval) (some av), chb) := by
        simp only [two_leaf_branch, hbav]
      rw [heq] at hres
      intro f2 res ch2 hrun
      rw [heq] at hrun
      simp only at hres hrun
      have hpair : (MerkleNode.leaf bsub bv).inlinable = false →
          db2 (H (MerkleNode.leaf bsub bv).encBytes) =
            some (MerkleNode.leaf bsub bv).toItem := by
        intro hninl
        refine hres (H (MerkleNode.leaf bsub bv).encBytes,
          (MerkleNode.leaf bsub bv).toItem) ?_
        have := add_value_pair_mem (H := H) (c := Change.empty)
          (n := .leaf bsub bv) hninl
        rwa [hbav] at this
      rcases f2 with - | g
      · cases hrun
      simp only [delete_by_node, bind, Except.bind, pure, Except.pure] at hrun
      have hgd : (empty_nodes.set (bi : Nat) bval).getD (bi : Nat) .empty = bval :=
        getD_set_lt empty_nodes (bi : Nat) bval .empty (by simp [empty_nodes])
      rw [hgd] at hrun
      rcases hdel : delete_by_child H g db2 bval bsub with e | ⟨r1, c1⟩
      · simp only [hdel] at hrun
        cases hrun
      · have hr1 : r1 = none := delete_staged_leaf hbav hpair g r1 c1 hdel
        subst hr1
        simp only [hdel] at hrun
        have hset : (empty_nodes.set (bi : Nat) bval).set (bi : Nat) .empty =
            empty_nodes := by
          rw [List.set_set]
          exact set_empty_of_getD_empty (getD_empty_nodes _)
        rw [hset] at hrun
        have hcnt : nonempty_node_count empty_nodes (some av) = 1 := by
          simp [count_empty_nodes]
        simp only [hcnt, eq_self_iff_true, if_true] at hrun
        rw [if_pos Nat.one_pos] at hrun
        rcases g with - | g2
        · simp only [collapse_branch, bind, Except.bind] at hrun
          cases hrun
        · have hcol : collapse_branch H (g2 + 1) db2 empty_nodes (some av) =
              .ok (.leaf [] av, Change.empty) := by
            simp [collapse_branch, count_empty_nodes]
          simp only [hcol] at hrun
          have hp := Except.ok.inj hrun
          simp only [Prod.mk.injEq] at hp
          exact Or.inl hp.1.symm
  · rcases haav : Change.empty.add_value H (.leaf asub av) with ⟨aval, cha⟩
    have hane : aval ≠ .empty := add_value_fst_ne_empty haav
    rcases bnib with - | ⟨bi, bsub⟩
    · have heq : two_leaf_branch H (ai :: asub) av [] bv =
          (.branch (empty_nodes.set (ai : Nat) aval) (some bv), cha) := by
        simp only [two_leaf_branch, haav]
      rw [heq] at hres
      intro f2 res ch2 hrun
      rw [heq] at hrun
      simp only at hres hrun
      have hpaira : (MerkleNode.leaf asub av).inlinable = false →
          db2 (H (MerkleNode.leaf asub av).encBytes) =
            some (MerkleNode.leaf asub av).toItem := by
        intro hninl
        refine hres (H (MerkleNode.leaf asub av).encBytes,
          (MerkleNode.leaf asub av).toItem) ?_
        have := add_value_pair_mem (H := H) (c := Change.empty)
          (n := .leaf asub av) hninl
        rwa [haav] at this
      rcases f2 with - | g
      · cases hrun
      simp only [delete_by_node, bind, Except.bind, pure, Except.pure] at hrun
      have hcnt : nonempty_node_count (empty_nodes.set (ai : Nat) aval) none = 1 :=
        count_single _ _ ai.isLt hane
      simp only [hcnt, eq_self_iff_true, if_true] at hrun
      rw [if_pos Nat.one_pos] at hrun
      rcases g with - | g2
      · simp only [collapse_branch, bind, Except.bind] at hrun
        cases hrun
      simp only [collapse_branch, bind, Except.bind] at hrun
      rw [hcnt] at hrun
      simp only at hrun
      have hfind : (empty_nodes.set (ai : Nat) aval).findIdx
          (fun v => v ≠ .empty) = (ai : Nat) :=
        findIdx_empty_set _ _ ai.isLt hane
      simp only [hfind] at hrun
      rw [dif_pos ai.isLt] at hrun
      have hgd : (empty_nodes.set (ai : Nat) aval).getD (ai : Nat) .empty = aval :=
        getD_set_lt empty_nodes (ai : Nat) aval .empty (by simp [empty_nodes])
      rw [hgd] at hrun
      rcases hfar : find_and_remove_child g2 db2 aval with e | ⟨subn, subch⟩
      · simp only [hfar] at hrun
        cases hrun
      · have hsubn : subn = .leaf asub av := far_staged haav rfl hpaira g2 subn subch hfar
        subst hsubn
        simp only [hfar] at hrun
        have hp := Except.ok.inj hrun
        simp only [Prod.mk.injEq] at hp
        refine Or.inl ?_
        rw [← hp.1]
    · have hab : ai ≠ bi := hne ai asub bi bsub rfl rfl
      have habn : (ai : Nat) ≠ (bi : Nat) := fun h => hab (Fin.ext h)
      rcases hbav : cha.add_value H (.leaf bsub bv) with ⟨bval, chb⟩
      have heq : two_leaf_branch H (ai :: asub) av (bi :: bsub) bv =
          (.branch ((empty_nodes.set (ai : Nat) aval).set (bi : Nat) bval) none,
            chb) := by
        simp only [two_leaf_branch, haav, hbav]
      rw [heq] at hres
      intro f2 res ch2 hrun
      rw [heq] at hrun
      simp only at hres hrun
      have hpairb : (MerkleNode.leaf bsub bv).inlinable = false →
          db2 (H (MerkleNode.leaf bsub bv).encBytes) =
            some (MerkleNode.leaf bsub bv).toItem := by
        intro hninl
        refine hres (H (MerkleNode.leaf bsub bv).encBytes,
          (MerkleNode.leaf bsub bv).toItem) ?_
        have := add_value_pair_mem (H := H) (c := cha)
          (n := .leaf bsub bv) hninl
        rwa [hbav] at this
      have hka : Change.keyed H cha := by
        have := Change.keyed_add_value (H := H) (c := Change.empty)
          (n := .leaf asub av) (Change.keyed_empty H)
        rwa [haav] at this
      have hresx : ∀ q ∈ (cha.add_value H (.leaf bsub bv)).2.adds,
          db2 q.1 = some q.2 := by
        rw [hbav]
        exact hres
      rcases resolves_through_add_value hka hresx with hresa | hcol
      swap
      · exact Or.inr hcol
      have hpaira : (MerkleNode.leaf asub av).inlinable = false →
          db2 (H (MerkleNode.leaf asub av).encBytes) =
            some (MerkleNode.leaf asub av).toItem := by
        intro hninl
        refine hresa (H (MerkleNode.leaf asub av).encBytes,
          (MerkleNode.leaf asub av).toItem) ?_
        have := add_value_pair_mem (H := H) (c := Change.empty)
          (n := .leaf asub av) hninl
        rwa [haav] at this
      rcases f2 with - | g
      · cases hrun
      simp only [delete_by_node, bind, Except.bind, pure, Except.pure] at hrun
      have hgd : ((empty_nodes.set (ai : Nat) aval).set (bi : Nat) bval).getD
          (bi : Nat) .empty = bval :=
        getD_set_lt _ (bi : Nat) bval .empty (by simp [empty_nodes])
      rw [hgd] at hrun
      rcases hdel : delete_by_child H g db2 bval bsub with e | ⟨r1, c1⟩
      · simp only [hdel] at hrun
        cases hrun
      · have hr1 : r1 = none := delete_staged_leaf hbav hpairb g r1 c1 hdel
        subst hr1
        simp only [hdel] at hrun
        have hset : ((empty_nodes.set (ai : Nat) aval).set (bi : Nat) bval).set
            (bi : Nat) .empty = empty_nodes.set (ai : Nat) aval := by
          rw [List.set_set]
          refine set_empty_of_getD_empty ?_
          rw [getD_set_ne empty_nodes (ai : Nat) (bi : Nat) aval .empty habn]
          exact getD_empty_nodes _
        rw [hset] at hrun
        have hcnt : nonempty_node_count (empty_nodes.set (ai : Nat) aval) none = 1 :=
          count_single _ _ ai.isLt hane
        simp only [hcnt, eq_self_iff_true, if_true] at hrun
        rw [if_pos Nat.one_pos] at hrun
        rcases g with - | g2
        · simp only [collapse_branch, bind, Except.bind] at hrun
          cases hrun
        simp only [collapse_branch, bind, Except.bind] at hrun
        rw [hcnt] at hrun
        simp only at hrun
        have hfind : (empty_nodes.set (ai : Nat) aval).findIdx
            (fun v => v ≠ .empty) = (ai : Nat) :=
          findIdx_empty_set _ _ ai.isLt hane
        simp only [hfind] at hrun
        rw [dif_pos ai.isLt] at hrun
        have hgd2 : (empty_nodes.set (ai : Nat) aval).getD (ai : Nat) .empty = aval :=
          getD_set_lt empty_nodes (ai : Nat) aval .empty (by simp [empty_nodes])
        rw [hgd2] at hrun
        rcases hfar : find_and_remove_child g2 db2 aval with e | ⟨subn, subch⟩
        · simp only [hfar] at hrun
          cases hrun
        · have hsubn : subn = .leaf asub av :=
            far_staged haav rfl hpaira g2 subn subch hfar
          subst hsubn
          simp only [hfar] at hrun
          have hp := Except.ok.inj hrun
          simp only [Prod.mk.injEq] at hp
          refine Or.inl ?_
          rw [← hp.1]

/-- Deleting the new-leaf path from the branch `value_and_leaf_branch`
builds restores the surviving extension over the original child
reference. -/
theorem valb_delete {H : Bytes → Bytes} {fuel : Nat} {db db2 : Db}
    (anib : NibbleVec) (ava : MerkleValue) (bnib : NibbleVec) (bv : Bytes)
    {nd : MerkleNode} {ch : Change}
    (hrun0 : value_and_leaf_branch H anib ava bnib bv = .ok (nd, ch))
    (hcv : canonV H fuel true db ava = true)
    (hne : ∀ (x : Nibble) xs (y : Nibble) ys,
      anib = x :: xs → bnib = y :: ys → x ≠ y)
    (hres : ∀ q ∈ ch.adds, db2 q.1 = some q.2)
    (hold : ∀ h it, db h = some it → H (rlpSerialize it) = h →
      db2 h = some it ∨ db2 h = none ∨ HCollision H) :
    ∀ (f2 : Nat) (res : Option MerkleNode) (ch2 : Change),
      delete_by_node H f2 db2 nd bnib = .ok (res, ch2) →
      res = some (.ext anib ava) ∨ HCollision H := by
  have hwa : MerkleValue.wfB ava = true := canonV_wf fuel true db ava hcv
  have hava_ne : ava ≠ .empty := by
    rintro rfl
    rcases fuel with - | fc
    · simp [canonV] at hcv
    · simp [canonV] at hcv
  rcases anib with - | ⟨ai, asub⟩
  · cases hrun0
  by_cases hlen : asub.length > 0
  · rcases hxav : Change.empty.add_value H (.ext asub ava) with ⟨xval, chx⟩
    have hxne : xval ≠ .empty := add_value_fst_ne_empty hxav
    have hkx : Change.keyed H chx := by
      have := Change.keyed_add_value (H := H) (c := Change.empty)
        (n := .ext asub ava) (Change.keyed_empty H)
      rwa [hxav] at this
    rcases bnib with - | ⟨bi, bsub⟩
    · have heq : value_and_leaf_branch H (ai :: asub) ava [] bv =
          .ok (.branch (empty_nodes.set (ai : Nat) xval) (some bv), chx) := by
        simp only [value_and_leaf_branch]
        rw [if_pos hlen]
        simp only [hxav]
      rw [heq] at hrun0
      have hp0 := Except.ok.inj hrun0
      simp only [Prod.mk.injEq] at hp0
      obtain ⟨rfl, rfl⟩ := hp0
      have hpaira : (MerkleNode.ext asub ava).inlinable = false →
          db2 (H (MerkleNode.ext asub ava).encBytes) =
            some (MerkleNode.ext asub ava).toItem := by
        intro hninl
        refine hres (H (MerkleNode.ext asub ava).encBytes,
          (MerkleNode.ext asub ava).toItem) ?_
        have := add_value_pair_mem (H := H) (c := Change.empty)
          (n := .ext asub ava) hninl
        rwa [hxav] at this
      intro f2 res ch2 hrun
      rcases f2 with - | g
      · cases hrun
      simp only [delete_by_node, bind, Except.bind, pure, Except.pure] at hrun
      have hcnt : nonempty_node_count (empty_nodes.set (ai : Nat) xval) none = 1 :=
        count_single _ _ ai.isLt hxne
      simp only [hcnt, eq_self_iff_true, if_true] at hrun
      rw [if_pos Nat.one_pos] at hrun
      rcases g with - | g2
      · simp only [collapse_branch, bind, Except.bind] at hrun
        cases hrun
      simp only [collapse_branch, bind, Except.bind] at hrun
      rw [hcnt] at hrun
      simp only at hrun
      have hfind : (empty_nodes.set (ai : Nat) xval).findIdx
          (fun v => v ≠ .empty) = (ai : Nat) :=
        findIdx_empty_set _ _ ai.isLt hxne
      simp only [hfind] at hrun
      rw [dif_pos ai.isLt] at hrun
      have hgd : (empty_nodes.set (ai : Nat) xval).getD (ai : Nat) .empty = xval :=
        getD_set_lt empty_nodes (ai : Nat) xval .empty (by simp [empty_nodes])
      rw [hgd] at hrun
      rcases hfar : find_and_remove_child g2 db2 xval with e | ⟨subn, subch⟩
      · simp only [hfar] at hrun
        cases hrun
      · have hsubn : subn = .ext asub ava :=
          far_staged hxav (by simpa only [MerkleNode.wfB] using hwa)
            hpaira g2 subn subch hfar
        subst hsubn
        simp only [hfar] at hrun
        have hp := Except.ok.inj hrun
        simp only [Prod.mk.injEq] at hp
        refine Or.inl ?_
        rw [← hp.1]
    · have hab : ai ≠ bi := hne ai asub bi bsub rfl rfl
      have habn : (ai : Nat) ≠ (bi : Nat) := fun h => hab (Fin.ext h)
      rcases hbav : chx.add_value H (.leaf bsub bv) with ⟨bval, chb⟩
      have heq : value_and_leaf_branch H (ai :: asub) ava (bi :: bsub) bv =
          .ok (.branch ((empty_nodes.set (ai : Nat) xval).set (bi : Nat) bval)
            none, chb) := by
        simp only [value_and_leaf_branch]
        rw [if_pos hlen]
        simp only [hxav, hbav]
      rw [heq] at hrun0
      have hp0 := Except.ok.inj hrun0
      simp only [Prod.mk.injEq] at hp0
      obtain ⟨rfl, rfl⟩ := hp0
      have hpairb : (MerkleNode.leaf bsub bv).inlinable = false →
          db2 (H (MerkleNode.leaf bsub bv).encBytes) =
            some (MerkleNode.leaf bsub bv).toItem := by
        intro hninl
        refine hres (H (MerkleNode.leaf bsub bv).encBytes,
          (MerkleNode.leaf bsub bv).toItem) ?_
        have := add_value_pair_mem (H := H) (c := chx)
          (n := .leaf bsub bv) hninl
        rwa [hbav] at this
      have hresx : ∀ q ∈ (chx.add_value H (.leaf bsub bv)).2.adds,
          db2 q.1 = some q.2 := by
        rw [hbav]
        exact hres
      intro f2 res ch2 hrun
      rcases resolves_through_add_value hkx hresx with hresa | hcol
      swap
      · exact Or.inr hcol
      have hpaira : (MerkleNode.ext asub ava).inlinable = false →
          db2 (H (MerkleNode.ext asub ava).encBytes) =
            some (MerkleNode.ext asub ava).toItem := by
        intro hninl
        refine hresa (H (MerkleNode.ext asub ava).encBytes,
          (MerkleNode.ext asub ava).toItem) ?_
        have := add_value_pair_mem (H := H) (c := Change.empty)
          (n := .ext asub ava) hninl
        rwa [hxav] at this
      rcases f2 with - | g
      · cases hrun
      simp only [delete_by_node, bind, Except.bind, pure, Except.pure] at hrun
      have hgd : ((empty_nodes.set (ai : Nat) xval).set (bi : Nat) bval).getD
          (bi : Nat) .empty = bval :=
        getD_set_lt _ (bi : Nat) bval .empty (by simp [empty_nodes])
      rw [hgd] at hrun
      rcases hdel : delete_by_child H g db2 bval bsub with e | ⟨r1, c1⟩
      · simp only [hdel] at hrun
        cases hrun
      · have hr1 : r1 = none := delete_staged_leaf hbav hpairb g r1 c1 hdel
        subst hr1
        simp only [hdel] at hrun
        have hset : ((empty_nodes.set (ai : Nat) xval).set (bi : Nat) bval).set
            (bi : Nat) .empty = empty_nodes.set (ai : Nat) xval := by
          rw [List.set_set]
          refine set_empty_of_getD_empty ?_
          rw [getD_set_ne empty_nodes (ai : Nat) (bi : Nat) xval .empty habn]
          exact getD_empty_nodes _
        rw [hset] at hrun
        have hcnt : nonempty_node_count (empty_nodes.set (ai : Nat) xval) none = 1 :=
          count_single _ _ ai.isLt hxne
        simp only [hcnt, eq_self_iff_true, if_true] at hrun
        rw [if_pos Nat.one_pos] at hrun
        rcases g with - | g2
        · simp only [collapse_branch, bind, Except.bind] at hrun
          cases hrun
        simp only [collapse_branch, bind, Except.bind] at hrun
        rw [hcnt] at hrun
        simp only at hrun
        have hfind : (empty_nodes.set (ai : Nat) xval).findIdx
            (fun v => v ≠ .empty) = (ai : Nat) :=
          findIdx_empty_set _ _ ai.isLt hxne
        simp only [hfind] at hrun
        rw [dif_pos ai.isLt] at hrun
        have hgd2 : (empty_nodes.set (ai : Nat) xval).getD (ai : Nat) .empty =
            xval :=
          getD_set_lt empty_nodes (ai : Nat) xval .empty (by simp [empty_nodes])
        rw [hgd2] at hrun
        rcases hfar : find_and_remove_child g2 db2 xval with e | ⟨subn, subch⟩
        · simp only [hfar] at hrun
          cases hrun
        · have hsubn : subn = .ext asub ava :=
            far_staged hxav (by simpa only [MerkleNode.wfB] using hwa)
              hpaira g2 subn subch hfar
          subst hsubn
          simp only [hfar] at hrun
          have hp := Except.ok.inj hrun
          simp only [Prod.mk.injEq] at hp
          refine Or.inl ?_
          rw [← hp.1]
  · have hasub : asub = [] := List.length_eq_zero.mp (by omega)
    subst hasub
    rcases bnib with - | ⟨bi, bsub⟩
    · have heq : value_and_leaf_branch H [ai] ava [] bv =
          .ok (.branch (empty_nodes.set (ai : Nat) ava) (some bv),
            Change.empty) := by
        simp only [value_and_leaf_branch]
        rw [if_neg hlen]
      rw [heq] at hrun0
      have hp0 := Except.ok.inj hrun0
      simp only [Prod.mk.injEq] at hp0
      obtain ⟨rfl, rfl⟩ := hp0
      intro f2 res ch2 hrun
      rcases f2 with - | g
      · cases hrun
      simp only [delete_by_node, bind, Except.bind, pure, Except.pure] at hrun
      have hcnt : nonempty_node_count (empty_nodes.set (ai : Nat) ava) none = 1 :=
        count_single _ _ ai.isLt hava_ne
      simp only [hcnt, eq_self_iff_true, if_true] at hrun
      rw [if_pos Nat.one_pos] at hrun
      rcases g with - | g2
      · simp only [collapse_branch, bind, Except.bind] at hrun
        cases hrun
      simp only [collapse_branch, bind, Except.bind] at hrun
      rw [hcnt] at hrun
      simp only at hrun
      have hfind : (empty_nodes.set (ai : Nat) ava).findIdx
          (fun v => v ≠ .empty) = (ai : Nat) :=
        findIdx_empty_set _ _ ai.isLt hava_ne
      simp only [hfind] at hrun
      rw [dif_pos ai.isLt] at hrun
      have hgd : (empty_nodes.set (ai : Nat) ava).getD (ai : Nat) .empty = ava :=
        getD_set_lt empty_nodes (ai : Nat) ava .empty (by simp [empty_nodes])
      rw [hgd] at hrun
      rcases hfar : find_and_remove_child g2 db2 ava with e | ⟨subn, subch⟩
      · simp only [hfar] at hrun
        cases hrun
      · rcases far_canon hcv hold g2 subn subch hfar with ⟨⟨cs, v, rfl⟩, hrep⟩ | hcol
        swap
        · exact Or.inr hcol
        simp only [hfar] at hrun
        rcases hav2 : (Change.empty.merge subch).add_value H (.branch cs v)
          with ⟨sv2, ch3⟩
        simp only [hav2] at hrun
        have hsv : sv2 = ava := by
          have := reproduces_add_value hrep (Change.empty.merge subch)
          rw [hav2] at this
          exact this
        subst hsv
        have hp := Except.ok.inj hrun
        simp only [Prod.mk.injEq] at hp
        refine Or.inl ?_
        rw [← hp.1]
    · have hab : ai ≠ bi := hne ai [] bi bsub rfl rfl
      have habn : (ai : Nat) ≠ (bi : Nat) := fun h => hab (Fin.ext h)
      rcases hbav : Change.empty.add_value H (.leaf bsub bv) with ⟨bval, chb⟩
      have heq : value_and_leaf_branch H [ai] ava (bi :: bsub) bv =
          .ok (.branch ((empty_nodes.set (ai : Nat) ava).set (bi : Nat) bval)
            none, chb) := by
        simp only [value_and_leaf_branch]
        rw [if_neg hlen]
        simp only [hbav]
      rw [heq] at hrun0
      have hp0 := Except.ok.inj hrun0
      simp only [Prod.mk.injEq] at hp0
      obtain ⟨rfl, rfl⟩ := hp0
      have hpairb : (MerkleNode.leaf bsub bv).inlinable = false →
          db2 (H (MerkleNode.leaf bsub bv).encBytes) =
            some (MerkleNode.leaf bsub bv).toItem := by
        intro hninl
        refine hres (H (MerkleNode.leaf bsub bv).encBytes,
          (MerkleNode.leaf bsub bv).toItem) ?_
        have := add_value_pair_mem (H := H) (c := Change.empty)
          (n := .leaf bsub bv) hninl
        rwa [hbav] at this
      intro f2 res ch2 hrun
      rcases f2 with - | g
      · cases hrun
      simp only [delete_by_node, bind, Except.bind, pure, Except.pure] at hrun
      have hgd : ((empty_nodes.set (ai : Nat) ava).set (bi : Nat) bval).getD
          (bi : Nat) .empty = bval :=
        getD_set_lt _ (bi : Nat) bval .empty (by simp [empty_nodes])
      rw [hgd] at hrun
      rcases hdel : delete_by_child H g db2 bval bsub with e | ⟨r1, c1⟩
      · simp only [hdel] at hrun
        cases hrun
      · have hr1 : r1 = none := delete_staged_leaf hbav hpairb g r1 c1 hdel
        subst hr1
        simp only [hdel] at hrun
        have hset : ((empty_nodes.set (ai : Nat) ava).set (bi : Nat) bval).set
            (bi : Nat) .empty = empty_nodes.set (ai : Nat) ava := by
          rw [List.set_set]
          refine set_empty_of_getD_empty ?_
          rw [getD_set_ne empty_nodes (ai : Nat) (bi : Nat) ava .empty habn]
          exact getD_empty_nodes _
        rw [hset] at hrun
        have hcnt : nonempty_node_count (empty_nodes.set (ai : Nat) ava) none = 1 :=
          count_single _ _ ai.isLt hava_ne
        simp only [hcnt, eq_self_iff_true, if_true] at hrun
        rw [if_pos Nat.one_pos] at hrun
        rcases g with - | g2
        · simp only [collapse_branch, bind, Except.bind] at hrun
          cases hrun
        simp only [collapse_branch, bind, Except.bind] at hrun
        rw [hcnt] at hrun
        simp only at hrun
        have hfind : (empty_nodes.set (ai : Nat) ava).findIdx
            (fun v => v ≠ .empty) = (ai : Nat) :=
          findIdx_empty_set _ _ ai.isLt hava_ne
        simp only [hfind] at hrun
        rw [dif_pos ai.isLt] at hrun
        have hgd2 : (empty_nodes.set (ai : Nat) ava).getD (ai : Nat) .empty = ava :=
          getD_set_lt empty_nodes (ai : Nat) ava .empty (by simp [empty_nodes])
        rw [hgd2] at hrun
        rcases hfar : find_and_remove_child g2 db2 ava with e | ⟨subn, subch⟩
        · simp only [hfar] at hrun
          cases hrun
        · rcases far_canon hcv hold g2 subn subch hfar with
            ⟨⟨cs, v, rfl⟩, hrep⟩ | hcol
          swap
          · exact Or.inr hcol
          simp only [hfar] at hrun
          rw [reproduces_add_value hrep (Change.empty.merge subch)] at hrun
          have hp := Except.ok.inj hrun
          simp only [Prod.mk.injEq] at hp
          refine Or.inl ?_
          rw [← hp.1]

theorem canonV_empty_req {H : Bytes → Bytes} {f : Nat} {db : Db}
    (h : canonV H f true db .empty = true) : False := by
  rcases f with - | g
  · simp [canonV] at h
  · simp [canonV] at h

/-- Push a delete through the child reference `add_value` produced for a
freshly staged node: it reduces to a delete on the staged node itself. -/
theorem delete_through_add_value {H : Bytes → Bytes} {db2 : Db} {base : Change}
    {n2 : MerkleNode} {c2 : MerkleValue} {chv : Change} {p : NibbleVec}
    {P : Option MerkleNode → Prop}
    (hav : base.add_value H n2 = (c2, chv)) (hw : MerkleNode.wfB n2 = true)
    (hpair : n2.inlinable = false → db2 (H n2.encBytes) = some n2.toItem)
    (hP : ∀ (g : Nat) (res : Option MerkleNode) (chn : Change),
      delete_by_node H g db2 n2 p = .ok (res, chn) → P res) :
    ∀ (f2 : Nat) (res : Option MerkleNode) (ch2 : Change),
      delete_by_child H f2 db2 c2 p = .ok (res, ch2) → P res := by
  intro f2 res ch2 hrun
  by_cases hinl : n2.inlinable = true
  · have h2 : base.add_value H n2 = (.full n2, base) := by
      simp only [Change.add_value]
      rw [if_pos hinl]
    rw [h2] at hav
    have hc2 : c2 = .full n2 := (Prod.mk.injEq _ _ _ _ ▸ hav).1.symm
    subst hc2
    rcases f2 with - | g
    · cases hrun
    simp only [delete_by_child, bind, Except.bind] at hrun
    rcases hdn : delete_by_node H g db2 n2 p with e | ⟨r1, c1⟩
    · simp only [hdn] at hrun
      cases hrun
    · simp only [hdn] at hrun
      have hp := Except.ok.inj hrun
      simp only [Prod.mk.injEq] at hp
      rw [← hp.1]
      exact hP g r1 c1 hdn
  · have hninl : n2.inlinable = false := by simpa using hinl
    have h2 : base.add_value H n2 = (.hash (H n2.encBytes),
        base.add_raw (H n2.encBytes) n2.toItem) := by
      simp only [Change.add_value]
      rw [if_neg (by simp [hninl])]
    rw [h2] at hav
    have hc2 : c2 = .hash (H n2.encBytes) := (Prod.mk.injEq _ _ _ _ ▸ hav).1.symm
    subst hc2
    rcases f2 with - | g
    · cases hrun
    simp only [delete_by_child, dbGetWithError, hpair hninl, bind,
      Except.bind] at hrun
    cases hdec : MerkleNode.decode g n2.toItem with
    | none => simp only [hdec] at hrun; cases hrun
    | some m =>
      simp only [hdec] at hrun
      have hm := decode_toItem_agree hw hdec
      rw [hm] at hrun
      rcases hdn : delete_by_node H g db2 n2 p with e | ⟨r1, c1⟩
      · simp only [hdn] at hrun
        cases hrun
      · simp only [hdn] at hrun
        have hp := Except.ok.inj hrun
        simp only [Prod.mk.injEq] at hp
        rw [← hp.1]
        exact hP g r1 c1 hdn

mutual

/-- After inserting an absent key through a child reference, deleting
the same key from the rewritten reference (against any store resolving
the staged additions) restores the original reference: the child
vanishes when it was `Empty`, otherwise the original resolved node is
rebuilt — unless a digest collision is exhibited. -/
theorem insert_delete_value {H : Bytes → Bytes} (hH32 : ∀ b, (H b).length = 32) :
    ∀ (fuel : Nat) (req : Bool) (db : Db) (c : MerkleValue) (p : NibbleVec)
      (v : Bytes) (c2 : MerkleValue) (ch : Change),
      canonV H fuel req db c = true →
      get_by_value fuel db c p = .ok none → v ≠ [] →
      insert_by_value H fuel db c p v = .ok (c2, ch) →
      ∀ (db2 : Db), (∀ q ∈ ch.adds, db2 q.1 = some q.2) →
        (∀ h it, db h = some it → H (rlpSerialize it) = h →
          db2 h = some it ∨ db2 h = none ∨ HCollision H) →
      ∀ (f2 : Nat) (res : Option MerkleNode) (ch2 : Change),
        delete_by_child H f2 db2 c2 p = .ok (res, ch2) →
        (c = .empty ∧ res = none) ∨
        (∃ m, res = some m ∧ reproduces H c m ∧
          (req = true → m.isBranch = true)) ∨
        HCollision H
  | 0, _, _, _, _, _, _, _, _, _, _, hrun => by cases hrun
  | fuel + 1, req, db, .empty, p, v, c2, ch, _, _, hv, hrun => by
    simp only [insert_by_value] at hrun
    rcases hav : Change.empty.add_value H (.leaf p v) with ⟨lval, lch⟩
    rw [hav] at hrun
    have hp := Except.ok.inj hrun
    simp only [Prod.mk.injEq] at hp
    obtain ⟨rfl, rfl⟩ := hp
    intro db2 hres hold f2 res ch2 hdel
    refine Or.inl ⟨rfl, ?_⟩
    refine delete_staged_leaf hav ?_ f2 res ch2 hdel
    intro hninl
    refine hres (H (MerkleNode.leaf p v).encBytes, (MerkleNode.leaf p v).toItem) ?_
    have := add_value_pair_mem (H := H) (c := Change.empty)
      (n := .leaf p v) hninl
    rwa [hav] at this
  | fuel + 1, req, db, .full sub, p, v, c2, ch, hc, habs, hv, hrun => by
    simp only [canonV, Bool.and_eq_true] at hc
    simp only [get_by_value] at habs
    simp only [insert_by_value] at hrun
    cases hins : insert_by_node H fuel db sub p v with
    | error e =>
      rw [hins] at hrun
      cases hrun
    | ok pr =>
      rcases pr with ⟨n2, subch⟩
      obtain ⟨hw2, hk2, hn2, he2, -⟩ := insert_get_node hH32 fuel db sub p v
        n2 subch hc.1.1 hv hins
      rw [hins] at hrun
      simp only [bind, Except.bind] at hrun
      rcases hav : (Change.empty.merge subch).add_value H n2 with ⟨nval, nch⟩
      rw [hav] at hrun
      have hp := Except.ok.inj hrun
      simp only [Prod.mk.injEq] at hp
      obtain ⟨rfl, rfl⟩ := hp
      intro db2 hres hold f2 res ch2 hdel
      have hres2 : ∀ q ∈ ((Change.empty.merge subch).add_value H n2).2.adds,
          db2 q.1 = some q.2 := by
        rw [hav]
        exact hres
      rcases resolves_through_stage (Change.keyed_empty H) hk2 hn2 he2 hres2 with
        hsub | hcol
      swap
      · exact Or.inr (Or.inr hcol)
      have hpair : n2.inlinable = false → db2 (H n2.encBytes) = some n2.toItem := by
        intro hninl
        refine hres (H n2.encBytes, n2.toItem) ?_
        have := add_value_pair_mem (H := H) (c := Change.empty.merge subch)
          (n := n2) hninl
        rwa [hav] at this
      have hIH := insert_delete_node hH32 fuel db sub p v n2 subch hc.1.1 habs hv
        hins db2 hsub hold
      rcases delete_through_add_value (P := fun r => r = some sub ∨ HCollision H)
        hav hw2 hpair hIH f2 res ch2 hdel with hr | hcol
      · refine Or.inr (Or.inl ⟨sub, hr, Or.inl ⟨hc.1.2, rfl⟩, ?_⟩)
        intro hreq
        have := hc.2
        rw [hreq] at this
        simpa using this
      · exact Or.inr (Or.inr hcol)
  | fuel + 1, req, db, .hash hh, p, v, c2, ch, hc, habs, hv, hrun => by
    simp only [canonV] at hc
    cases hdb : db hh with
    | none =>
      simp only [hdb] at hc
      cases hc
    | some it =>
      simp only [hdb] at hc
      cases hdec : MerkleNode.decode fuel it with
      | none =>
        simp only [hdec] at hc
        cases hc
      | some m0 =>
        simp only [hdec] at hc
        simp only [Bool.and_eq_true, decide_eq_true_eq] at hc
        simp only [get_by_value, dbGetWithError, hdb, bind, Except.bind,
          hdec] at habs
        simp only [insert_by_value, dbGetWithError, hdb, bind, Except.bind,
          hdec] at hrun
        cases hins : insert_by_node H fuel db m0 p v with
        | error e =>
          rw [hins] at hrun
          cases hrun
        | ok pr =>
          rcases pr with ⟨n2, subch⟩
          obtain ⟨hw2, hk2, hn2, he2, -⟩ := insert_get_node hH32 fuel db m0 p v
            n2 subch hc.1.1.1.1.1 hv hins
          rw [hins] at hrun
          rcases hav : ((Change.empty.remove_raw hh).merge subch).add_value H
            n2 with ⟨nval, nch⟩
          have hp := Except.ok.inj hrun
          simp only [hav, Prod.mk.injEq] at hp
          obtain ⟨rfl, rfl⟩ := hp
          have hkbase : Change.keyed H (Change.empty.remove_raw hh) :=
            Change.keyed_remove_raw (Change.keyed_empty H)
          intro db2 hres hold f2 res ch2 hdel
          have hres2 : ∀ q ∈ (((Change.empty.remove_raw hh).merge subch).add_value
              H n2).2.adds, db2 q.1 = some q.2 := by
            rw [hav]
            exact hres
          rcases resolves_through_stage hkbase hk2 hn2 he2 hres2 with hsub | hcol
          swap
          · exact Or.inr (Or.inr hcol)
          have hpair : n2.inlinable = false →
              db2 (H n2.encBytes) = some n2.toItem := by
            intro hninl
            refine hres (H n2.encBytes, n2.toItem) ?_
            have := add_value_pair_mem (H := H)
              (c := (Change.empty.remove_raw hh).merge subch) (n := n2) hninl
            rwa [hav] at this
          have hIH := insert_delete_node hH32 fuel db m0 p v n2 subch
            hc.1.1.1.1.1 habs hv hins db2 hsub hold
          rcases delete_through_add_value (P := fun r => r = some m0 ∨ HCollision H)
            hav hw2 hpair hIH f2 res ch2 hdel with hr | hcol
          · refine Or.inr (Or.inl ⟨m0, hr, ?_, ?_⟩)
            · refine Or.inr ⟨by simpa using hc.1.1.1.1.2, ?_⟩
              have henc : MerkleNode.encBytes m0 = rlpSerialize it := by
                rw [MerkleNode.encBytes, hc.1.1.1.2]
              rw [henc, hc.1.1.2]
            · intro hreq
              have := hc.2
              rw [hreq] at this
              simpa using this
          · exact Or.inr (Or.inr hcol)

/-- After inserting an absent key into a canonical node, deleting the
same key from the rewritten node (against any store resolving the staged
additions, and treating the original store's keyed entries soundly)
rebuilds exactly the original node — unless a digest collision is
exhibited. -/
theorem insert_delete_node {H : Bytes → Bytes} (hH32 : ∀ b, (H b).length = 32) :
    ∀ (fuel : Nat) (db : Db) (n : MerkleNode) (p : NibbleVec) (v : Bytes)
      (n2 : MerkleNode) (ch : Change),
      canonN H fuel db n = true →
      get_by_node fuel db n p = .ok none → v ≠ [] →
      insert_by_node H fuel db n p v = .ok (n2, ch) →
      ∀ (db2 : Db), (∀ q ∈ ch.adds, db2 q.1 = some q.2) →
        (∀ h it, db h = some it → H (rlpSerialize it) = h →
          db2 h = some it ∨ db2 h = none ∨ HCollision H) →
      ∀ (f2 : Nat) (res2 : Option MerkleNode) (ch2 : Change),
        delete_by_node H f2 db2 n2 p = .ok (res2, ch2) →
        res2 = some n ∨ HCollision H
  | 0, _, _, _, _, _, _, _, _, _, hrun => by cases hrun
  | fuel + 1, db, .leaf nn nv, p, v, n2, ch, hc, habs, hv, hrun => by
    have hnv : nv ≠ [] := by
      simp only [canonN, decide_eq_true_eq] at hc
      exact hc
    have hnp : nn ≠ p := by
      intro hnp
      simp only [get_by_node, if_pos hnp] at habs
      cases habs
    simp only [insert_by_node] at hrun
    rw [if_neg hnp] at hrun
    simp only [MPT.nibble.common_with_sub] at hrun
    obtain ⟨hwb, hkb, hnb, heb, -⟩ := two_leaf_branch_props hH32
      (nn.drop (MPT.nibble.common p nn).length) nv
      (p.drop (MPT.nibble.common p nn).length) v hnv hv
    rcases htlb : two_leaf_branch H (nn.drop (MPT.nibble.common p nn).length) nv
        (p.drop (MPT.nibble.common p nn).length) v with ⟨branch, subchange⟩
    rw [htlb] at hwb hkb hnb heb hrun
    simp only at hwb hkb hnb heb
    have hneq : nn.drop (MPT.nibble.common p nn).length ≠
        p.drop (MPT.nibble.common p nn).length := by
      intro he
      apply hnp
      calc nn = MPT.nibble.common p nn ++
            nn.drop (MPT.nibble.common p nn).length := (common_spec p nn).2.1
        _ = MPT.nibble.common p nn ++
            p.drop (MPT.nibble.common p nn).length := by rw [he]
        _ = p := ((common_spec p nn).1).symm
    have hne2 : ∀ (x : Nibble) xs (y : Nibble) ys,
        nn.drop (MPT.nibble.common p nn).length = x :: xs →
        p.drop (MPT.nibble.common p nn).length = y :: ys → x ≠ y :=
      fun x xs y ys hx hy => ((common_spec p nn).2.2 y ys x xs hy hx).symm
    by_cases hcom : (MPT.nibble.common p nn).length > 0
    · rw [if_pos hcom] at hrun
      rcases hav : (Change.empty.merge subchange).add_value H branch with ⟨v2, chw⟩
      rw [hav] at hrun
      have hp := Except.ok.inj hrun
      simp only [Prod.mk.injEq] at hp
      obtain ⟨rfl, rfl⟩ := hp
      intro db2 hres hold f2 res2 ch2 hdel
      have hres2 : ∀ q ∈ ((Change.empty.merge subchange).add_value H
          branch).2.adds, db2 q.1 = some q.2 := by
        rw [hav]
        exact hres
      rcases resolves_through_stage (Change.keyed_empty H) hkb hnb heb hres2 with
        hsub | hcol
      swap
      · exact Or.inr hcol
      have hpairb : branch.inlinable = false →
          db2 (H branch.encBytes) = some branch.toItem := by
        intro hninl
        refine hres (H branch.encBytes, branch.toItem) ?_
        have := add_value_pair_mem (H := H) (c := Change.empty.merge subchange)
          (n := branch) hninl
        rwa [hav] at this
      rcases f2 with - | g
      · cases hdel
      simp only [delete_by_node, bind, Except.bind] at hdel
      rw [if_pos (isPrefixOf_of_append (common_spec p nn).1)] at hdel
      rcases hch : delete_by_child H g db2 v2
          (p.drop (MPT.nibble.common p nn).length) with e | ⟨r1, c1⟩
      · simp only [hch] at hdel
        cases hdel
      simp only [hch] at hdel
      have hcls := delete_through_add_value
        (P := fun r => r = some (.leaf (nn.drop (MPT.nibble.common p nn).length) nv)
          ∨ HCollision H)
        hav hwb hpairb
        (fun g2 r cn h => tlb_delete _ nv _ v hneq hne2
          (by rw [htlb]; exact hsub) g2 r cn (by rw [htlb]; exact h))
        g r1 c1 hch
      rcases hcls with hr1 | hcol
      swap
      · exact Or.inr hcol
      subst hr1
      simp only [collapse_extension] at hdel
      have hp2 := Except.ok.inj hdel
      simp only [Prod.mk.injEq] at hp2
      refine Or.inl ?_
      rw [← hp2.1, ← (common_spec p nn).2.1]
    · rw [if_neg hcom] at hrun
      have hp := Except.ok.inj hrun
      simp only [Prod.mk.injEq] at hp
      obtain ⟨rfl, rfl⟩ := hp
      intro db2 hres hold f2 res2 ch2 hdel
      have hsub := resolves_through_merge hnb heb hres
      have hl0 : (MPT.nibble.common p nn).length = 0 := by omega
      have hdp : p.drop (MPT.nibble.common p nn).length = p := by
        rw [hl0]
        exact List.drop_zero p
      have hcls := tlb_delete _ nv _ v hneq hne2 (by rw [htlb]; exact hsub)
        f2 res2 ch2 (by rw [htlb]; simp only; rw [hdp]; exact hdel)
      rcases hcls with hr | hcol
      · refine Or.inl ?_
        rw [hr, hl0, List.drop_zero]
      · exact Or.inr hcol
  | fuel + 1, db, .ext nn nc, p, v, n2, ch, hc, habs, hv, hrun => by
    simp only [canonN, Bool.and_eq_true, decide_eq_true_eq] at hc
    obtain ⟨hnn, hcv⟩ := hc
    simp only [insert_by_node] at hrun
    by_cases hpre : nn.isPrefixOf p = true
    · rw [if_pos hpre] at hrun
      simp only [get_by_node, if_pos hpre] at habs
      simp only [bind, Except.bind] at hrun
      cases hins : insert_by_value H fuel db nc (p.drop nn.length) v with
      | error e =>
        rw [hins] at hrun
        cases hrun
      | ok pr =>
        rcases pr with ⟨c2n, subch⟩
        obtain ⟨hw2, hk2, hn2, he2, -⟩ := insert_get_value hH32 fuel true db nc
          (p.drop nn.length) v c2n subch hcv hv hins
        rw [hins] at hrun
        have hp := Except.ok.inj hrun
        simp only [Prod.mk.injEq] at hp
        obtain ⟨rfl, rfl⟩ := hp
        intro db2 hres hold f2 res2 ch2 hdel
        have hsub := resolves_through_merge hn2 he2 hres
        have hIH := insert_delete_value hH32 fuel true db nc (p.drop nn.length) v
          c2n subch hcv habs hv hins db2 hsub hold
        rcases f2 with - | g
        · cases hdel
        simp only [delete_by_node, bind, Except.bind] at hdel
        rw [if_pos hpre] at hdel
        rcases hch : delete_by_child H g db2 c2n (p.drop nn.length) with
          e | ⟨r1, c1⟩
        · simp only [hch] at hdel
          cases hdel
        rcases hIH g r1 c1 hch with ⟨hcemp, hr1⟩ | ⟨m, hr1, hrep, hbr⟩ | hcol
        · exact absurd (hcemp ▸ hcv) (fun h => canonV_empty_req h)
        · subst hr1
          simp only [hch] at hdel
          have hbr2 : m.isBranch = true := hbr rfl
          rcases m with ⟨lp, lv⟩ | ⟨xp, xc⟩ | ⟨cs, bv⟩
          · simp [MerkleNode.isBranch] at hbr2
          · simp [MerkleNode.isBranch] at hbr2
          · simp only [collapse_extension] at hdel
            rw [reproduces_add_value hrep] at hdel
            have hp2 := Except.ok.inj hdel
            simp only [Prod.mk.injEq] at hp2
            exact Or.inl hp2.1.symm
        · exact Or.inr hcol
    · rw [if_neg hpre] at hrun
      simp only [MPT.nibble.common_with_sub, bind, Except.bind] at hrun
      cases hvlb : value_and_leaf_branch H
          (nn.drop (MPT.nibble.common p nn).length) nc
          (p.drop (MPT.nibble.common p nn).length) v with
      | error e =>
        rw [hvlb] at hrun
        cases hrun
      | ok pr =>
        rcases pr with ⟨branch, subchange⟩
        obtain ⟨hwb, hkb, hnb, heb, -⟩ := value_and_leaf_branch_props hH32
          (nn.drop (MPT.nibble.common p nn).length) nc
          (p.drop (MPT.nibble.common p nn).length) v
          (canonV_wf fuel true db nc hcv) hv hvlb
        simp only [hvlb] at hrun
        have hneq2 : ∀ (x : Nibble) xs (y : Nibble) ys,
            nn.drop (MPT.nibble.common p nn).length = x :: xs →
            p.drop (MPT.nibble.common p nn).length = y :: ys → x ≠ y :=
          fun x xs y ys hx hy => ((common_spec p nn).2.2 y ys x xs hy hx).symm
        by_cases hcom : (MPT.nibble.common p nn).length > 0
        · rw [if_pos hcom] at hrun
          rcases hav : (Change.empty.merge subchange).add_value H branch with
            ⟨v2, chw⟩
          rw [hav] at hrun
          have hp := Except.ok.inj hrun
          simp only [Prod.mk.injEq] at hp
          obtain ⟨rfl, rfl⟩ := hp
          intro db2 hres hold f2 res2 ch2 hdel
          have hres2 : ∀ q ∈ ((Change.empty.merge subchange).add_value H
              branch).2.adds, db2 q.1 = some q.2 := by
            rw [hav]
            exact hres
          rcases resolves_through_stage (Change.keyed_empty H) hkb hnb heb
            hres2 with hsub | hcol
          swap
          · exact Or.inr hcol
          have hpairb : branch.inlinable = false →
              db2 (H branch.encBytes) = some branch.toItem := by
            intro hninl
            refine hres (H branch.encBytes, branch.toItem) ?_
            have := add_value_pair_mem (H := H)
              (c := Change.empty.merge subchange) (n := branch) hninl
            rwa [hav] at this
          rcases f2 with - | g
          · cases hdel
          simp only [delete_by_node, bind, Except.bind] at hdel
          rw [if_pos (isPrefixOf_of_append (common_spec p nn).1)] at hdel
          rcases hch : delete_by_child H g db2 v2
              (p.drop (MPT.nibble.common p nn).length) with e | ⟨r1, c1⟩
          · simp only [hch] at hdel
            cases hdel
          simp only [hch] at hdel
          have hcls := delete_through_add_value
            (P := fun r => r = some (.ext
              (nn.drop (MPT.nibble.common p nn).length) nc) ∨ HCollision H)
            hav hwb hpairb
            (fun g2 r cn h => valb_delete _ nc _ v hvlb hcv hneq2 hsub hold
              g2 r cn h)
            g r1 c1 hch
          rcases hcls with hr1 | hcol
          swap
          · exact Or.inr hcol
          subst hr1
          simp only [collapse_extension] at hdel
          have hp2 := Except.ok.inj hdel
          simp only [Prod.mk.injEq] at hp2
          refine Or.inl ?_
          rw [← hp2.1, ← (common_spec p nn).2.1]
        · rw [if_neg hcom] at hrun
          have hp := Except.ok.inj hrun
          simp only [Prod.mk.injEq] at hp
          obtain ⟨rfl, rfl⟩ := hp
          intro db2 hres hold f2 res2 ch2 hdel
          have hsub := resolves_through_merge hnb heb hres
          have hl0 : (MPT.nibble.common p nn).length = 0 := by omega
          have hdp : p.drop (MPT.nibble.common p nn).length = p := by
            rw [hl0]
            exact List.drop_zero p
          have hcls := valb_delete _ nc _ v hvlb hcv hneq2 hsub hold
            f2 res2 ch2 (by rw [hdp]; exact hdel)
          rcases hcls with hr | hcol
          · refine Or.inl ?_
            rw [hr, hl0, List.drop_zero]
          · exact Or.inr hcol
  | fuel + 1, db, .branch cs bv, p, v, n2, ch, hc, habs, hv, hrun => by
    obtain ⟨hlen, hcnt2, hbvne⟩ := canonN_branch_parts fuel db cs bv hc
    rcases p with - | ⟨ni, rest⟩
    · simp only [get_by_node] at habs
      have hbv : bv = none := Except.ok.inj habs
      subst hbv
      simp only [insert_by_node] at hrun
      have hp := Except.ok.inj hrun
      simp only [Prod.mk.injEq] at hp
      obtain ⟨rfl, rfl⟩ := hp
      intro db2 hres hold f2 res2 ch2 hdel
      rcases f2 with - | g
      · cases hdel
      simp only [delete_by_node, bind, Except.bind, pure, Except.pure,
        eq_self_iff_true, if_true] at hdel
      have hpos : nonempty_node_count cs none > 0 := by omega
      rw [if_pos hpos] at hdel
      rcases g with - | g2
      · simp only [collapse_branch, bind, Except.bind] at hdel
        cases hdel
      obtain ⟨k, hk⟩ : ∃ k, nonempty_node_count cs none = k + 2 :=
        ⟨nonempty_node_count cs none - 2, by omega⟩
      simp only [collapse_branch, bind, Except.bind, hk] at hdel
      have hp2 := Except.ok.inj hdel
      simp only [Prod.mk.injEq] at hp2
      exact Or.inl hp2.1.symm
    · simp only [get_by_node] at habs
      simp only [insert_by_node, bind, Except.bind] at hrun
      cases hins : insert_by_value H fuel db (cs.getD (ni : Nat) .empty) rest v with
      | error e =>
        rw [hins] at hrun
        cases hrun
      | ok pr =>
        rcases pr with ⟨new, subch⟩
        have hcv := canonN_branch_child fuel db cs bv hc ni
        obtain ⟨hw2, hk2, hn2, he2, -⟩ := insert_get_value hH32 fuel false db
          (cs.getD (ni : Nat) .empty) rest v new subch hcv hv hins
        rw [hins] at hrun
        have hp := Except.ok.inj hrun
        simp only [Prod.mk.injEq] at hp
        obtain ⟨rfl, rfl⟩ := hp
        intro db2 hres hold f2 res2 ch2 hdel
        have hsub := resolves_through_merge hn2 he2 hres
        have hIH := insert_delete_value hH32 fuel false db
          (cs.getD (ni : Nat) .empty) rest v new subch hcv habs hv hins db2
          hsub hold
        rcases f2 with - | g
        · cases hdel
        simp only [delete_by_node, bind, Except.bind, pure, Except.pure] at hdel
        have hgd : (cs.set (ni : Nat) new).getD (ni : Nat) .empty = new :=
          getD_set_lt cs (ni : Nat) new .empty (by rw [hlen]; exact ni.isLt)
        rw [hgd] at hdel
        rcases hch : delete_by_child H g db2 new rest with e | ⟨r1, c1⟩
        · simp only [hch] at hdel
          cases hdel
        rcases hIH g r1 c1 hch with ⟨hcemp, hr1⟩ | ⟨m, hr1, hrep, -⟩ | hcol
        · subst hr1
          simp only [hch, eq_self_iff_true, if_true] at hdel
          have hset : (cs.set (ni : Nat) new).set (ni : Nat) .empty = cs := by
            rw [List.set_set]
            exact set_empty_of_getD_empty hcemp
          rw [hset] at hdel
          have hpos : nonempty_node_count cs bv > 0 := by omega
          rw [if_pos hpos] at hdel
          rcases g with - | g2
          · simp only [collapse_branch, bind, Except.bind] at hdel
            cases hdel
          obtain ⟨k, hk⟩ : ∃ k, nonempty_node_count cs bv = k + 2 :=
            ⟨nonempty_node_count cs bv - 2, by omega⟩
          simp only [collapse_branch, bind, Except.bind, hk] at hdel
          have hp2 := Except.ok.inj hdel
          simp only [Prod.mk.injEq] at hp2
          exact Or.inl hp2.1.symm
        · subst hr1
          simp only [hch, Bool.false_eq_true, if_false] at hdel
          rw [reproduces_add_value hrep] at hdel
          have hset : (cs.set (ni : Nat) new).set (ni : Nat)
              (cs.getD (ni : Nat) .empty) = cs := by
            rw [List.set_set]
            exact set_getD_self cs (ni : Nat) .empty
          rw [hset] at hdel
          have hp2 := Except.ok.inj hdel
          simp only [Prod.mk.injEq] at hp2
          exact Or.inl hp2.1.symm
        · exact Or.inr hcol

end

/-- C2 (amended): on a canonical memory trie (empty, or with a root backed
by the encoding of a canonical node), inserting an absent key with a
nonempty value and then deleting that key restores the original root
hash — unless the digest function exhibits a concrete collision. -/
theorem C2_insert_delete (H : Bytes → Bytes) (fuel : Nat) (t : MemoryTrieMut)
    (key value : Bytes) (n : MerkleNode)
    (hH32 : ∀ b, (H b).length = 32)
    (hv : value ≠ [])
    (hcanon : t.root = EMPTY_TRIE_HASH H ∨
      (t.database t.root = some n.toItem ∧
       MerkleNode.decode fuel n.toItem = some n ∧
       canonN H fuel t.database n = true ∧
       H n.encBytes = t.root))
    (habs : MPT.get H fuel t.database t.root key = .ok none) :
    ∀ t2, MemoryTrieMut.insert H fuel t key value = some t2 →
    ∀ (f2 : Nat) (t3 : MemoryTrieMut), MemoryTrieMut.delete H f2 t2 key = some t3 →
      t3.root = t.root ∨ HCollision H := by
  intro t2 hrun2 f2 t3 hdel2
  unfold MemoryTrieMut.insert at hrun2
  cases hins : MPT.insert H fuel t.database t.root key value with
  | error e =>
    rw [hins] at hrun2
    cases hrun2
  | ok pr =>
  rcases pr with ⟨new_root, ch⟩
  rw [hins] at hrun2
  have ht2 := Option.some.inj hrun2
  unfold MemoryTrieMut.delete at hdel2
  cases hdelP : MPT.delete H f2 t2.database t2.root key with
  | error e =>
    rw [hdelP] at hdel2
    cases hdel2
  | ok pr3 =>
  rcases pr3 with ⟨root3, chD⟩
  rw [hdelP] at hdel2
  have ht3 := Option.some.inj hdel2
  have ht3r : t3.root = root3 := by rw [← ht3]
  unfold insert at hins
  by_cases hne : t.root = EMPTY_TRIE_HASH H
  · rw [if_pos hne] at hins
    simp only [insert_by_empty, bind, Except.bind, pure, Except.pure] at hins
    have hp := Except.ok.inj hins
    simp only [Prod.mk.injEq] at hp
    obtain ⟨rfl, rfl⟩ := hp
    have hnf : Change.keysNodup ((Change.empty.merge Change.empty).add_node H
        (.leaf (nibble.from_key key) value)) :=
      Change.keysNodup_add_raw (Change.keysNodup_merge Change.keysNodup_empty)
    have hef : Change.exclusive ((Change.empty.merge Change.empty).add_node H
        (.leaf (nibble.from_key key) value)) :=
      Change.exclusive_add_raw (Change.exclusive_merge Change.exclusive_empty)
    have hrootpair : t2.database
        (H (MerkleNode.leaf (nibble.from_key key) value).encBytes) =
          some (MerkleNode.leaf (nibble.from_key key) value).toItem := by
      rw [← ht2]
      exact apply_change_resolves t _ hnf hef _ (add_raw_pair_mem _ _ _)
    have hroott2 : t2.root =
        H (MerkleNode.leaf (nibble.from_key key) value).encBytes := by
      rw [← ht2]
    unfold delete at hdelP
    rw [hroott2] at hdelP
    by_cases hr2e : H (MerkleNode.leaf (nibble.from_key key) value).encBytes =
        EMPTY_TRIE_HASH H
    · rw [if_pos hr2e] at hdelP
      have hp3 := Except.ok.inj hdelP
      simp only [Prod.mk.injEq] at hp3
      refine Or.inl ?_
      rw [ht3r, ← hp3.1, hr2e, hne]
    · rw [if_neg hr2e] at hdelP
      simp only [dbGetWithError, hrootpair, bind, Except.bind] at hdelP
      rcases f2 with - | g
      · simp only [MerkleNode.decode] at hdelP
        cases hdelP
      cases hdecd : MerkleNode.decode (g + 1)
          (MerkleNode.leaf (nibble.from_key key) value).toItem with
      | none =>
        simp only [hdecd] at hdelP
        cases hdelP
      | some m =>
        simp only [hdecd] at hdelP
        have hm := decode_toItem_agree
          (m := MerkleNode.leaf (nibble.from_key key) value) rfl hdecd
        rw [hm] at hdelP
        have hstep : delete_by_node H (g + 1) t2.database
            (.leaf (nibble.from_key key) value) (nibble.from_key key) =
              .ok (none, Change.empty) := by
          simp [delete_by_node]
        simp only [hstep] at hdelP
        have hp3 := Except.ok.inj hdelP
        simp only [Prod.mk.injEq] at hp3
        refine Or.inl ?_
        rw [ht3r, ← hp3.1, hne]
  · rw [if_neg hne] at hins
    rcases hcanon with heq | ⟨hdb, hdec, hcn, hroot⟩
    · exact absurd heq hne
    simp only [dbGetWithError, hdb, bind, Except.bind, hdec] at hins
    unfold get at habs
    rw [if_neg hne] at habs
    simp only [dbGetWithError, hdb, bind, Except.bind, hdec] at habs
    cases hins2 : insert_by_node H fuel t.database n (nibble.from_key key)
        value with
    | error e =>
      rw [hins2] at hins
      cases hins
    | ok pr2 =>
    rcases pr2 with ⟨n2, ch2⟩
    obtain ⟨hw2, hk2, hn2, he2, -⟩ := insert_get_node hH32 fuel t.database n
      (nibble.from_key key) value n2 ch2 hcn hv hins2
    rw [hins2] at hins
    have hp := Except.ok.inj hins
    simp only [Prod.mk.injEq] at hp
    obtain ⟨rfl, rfl⟩ := hp
    have hkb : Change.keyed H (Change.empty.remove_raw t.root) :=
      Change.keyed_remove_raw (Change.keyed_empty H)
    have hkf : Change.keyed H
        (((Change.empty.remove_raw t.root).merge ch2).add_node H n2) :=
      Change.keyed_add_raw (Change.keyed_merge hkb hk2) rfl
    have hnf : Change.keysNodup
        (((Change.empty.remove_raw t.root).merge ch2).add_node H n2) :=
      Change.keysNodup_add_raw (Change.keysNodup_merge
        (Change.keysNodup_remove_raw Change.keysNodup_empty))
    have hef : Change.exclusive
        (((Change.empty.remove_raw t.root).merge ch2).add_node H n2) :=
      Change.exclusive_add_raw (Change.exclusive_merge
        (Change.exclusive_remove_raw Change.exclusive_empty))
    have hdb2 : t2.database = (t.apply_change
        (((Change.empty.remove_raw t.root).merge ch2).add_node H n2)).database := by
      rw [← ht2]
    have hresF : ∀ q ∈ (((Change.empty.remove_raw t.root).merge ch2).add_node
        H n2).adds, t2.database q.1 = some q.2 := by
      intro q hq
      rw [hdb2]
      exact apply_change_resolves t _ hnf hef q hq
    have hrootpair : t2.database (H n2.encBytes) = some n2.toItem :=
      hresF (H n2.encBytes, n2.toItem) (add_raw_pair_mem _ _ _)
    have hroott2 : t2.root = H n2.encBytes := by rw [← ht2]
    rcases resolves_through_add_raw (Change.keyed_merge hkb hk2)
      (show H n2.encBytes = H (rlpSerialize n2.toItem) from rfl) hresF with
      hresM | hcol
    swap
    · exact Or.inr hcol
    have hres2 := resolves_through_merge hn2 he2 hresM
    have hold : ∀ h it, t.database h = some it → H (rlpSerialize it) = h →
        t2.database h = some it ∨ t2.database h = none ∨ HCollision H := by
      intro h it hdbh hkeyh
      rcases apply_change_lookup t
          (((Change.empty.remove_raw t.root).merge ch2).add_node H n2) hnf h with
        ⟨-, hnone⟩ | ⟨it2, hmem, hsome⟩ | ⟨-, -, hsame⟩
      · refine Or.inr (Or.inl ?_)
        rw [hdb2, hnone]
      · have hkey2 : h = H (rlpSerialize it2) := hkf (h, it2) hmem
        by_cases hit : it2 = it
        · subst hit
          refine Or.inl ?_
          rw [hdb2, hsome]
        · refine Or.inr (Or.inr ⟨it, it2, fun hcon => hit hcon.symm, ?_⟩)
          rw [hkeyh, hkey2]
      · refine Or.inl ?_
        rw [hdb2, hsame, hdbh]
    unfold delete at hdelP
    rw [hroott2] at hdelP
    by_cases hr2e : H n2.encBytes = EMPTY_TRIE_HASH H
    · obtain ⟨x, xs, hxs⟩ := MerkleNode.toItem_cons n2
      refine Or.inr ⟨n2.toItem, .str [], ?_, ?_⟩
      · rw [hxs]
        intro hcontra
        cases hcontra
      · exact hr2e
    · rw [if_neg hr2e] at hdelP
      simp only [dbGetWithError, hrootpair, bind, Except.bind] at hdelP
      cases hdecd : MerkleNode.decode f2 n2.toItem with
      | none =>
        simp only [hdecd] at hdelP
        cases hdelP
      | some m =>
      simp only [hdecd] at hdelP
      have hm := decode_toItem_agree hw2 hdecd
      rw [hm] at hdelP
      rcases hdn : delete_by_node H f2 t2.database n2 (nibble.from_key key) with
        e | ⟨r1, c1⟩
      · simp only [hdn] at hdelP
        cases hdelP
      rcases insert_delete_node hH32 fuel t.database n (nibble.from_key key)
        value n2 ch2 hcn habs hv hins2 t2.database hres2 hold f2 r1 c1 hdn with
        hr1 | hcol
      · subst hr1
        simp only [hdn] at hdelP
        have hp3 := Except.ok.inj hdelP
        simp only [Prod.mk.injEq] at hp3
        refine Or.inl ?_
        rw [ht3r, ← hp3.1, hroot]
      · exact Or.inr hcol

/-- C2 witness: the amended insert/delete round-trip instantiated at the
empty memory trie. -/
theorem C2_insert_delete_witness :
    ((∀ b, (padHash b).length = 32) ∧
     ([120] : Bytes) ≠ [] ∧
     ((MemoryTrieMut.default padHash).root = EMPTY_TRIE_HASH padHash ∨
       ((MemoryTrieMut.default padHash).database
          (MemoryTrieMut.default padHash).root =
            some (MerkleNode.leaf [] [1]).toItem ∧
        MerkleNode.decode 9 (MerkleNode.leaf [] [1]).toItem =
          some (MerkleNode.leaf [] [1]) ∧
        canonN padHash 9 (MemoryTrieMut.default padHash).database
          (MerkleNode.leaf [] [1]) = true ∧
        padHash (MerkleNode.leaf [] [1]).encBytes =
          (MemoryTrieMut.default padHash).root)) ∧
     MPT.get padHash 9 (MemoryTrieMut.default padHash).database
       (MemoryTrieMut.default padHash).root [103] = .ok none) ∧
    ∀ t2, MemoryTrieMut.insert padHash 9 (MemoryTrieMut.default padHash)
        [103] [120] = some t2 →
    ∀ (f2 : Nat) (t3 : MemoryTrieMut),
      MemoryTrieMut.delete padHash f2 t2 [103] = some t3 →
      t3.root = (MemoryTrieMut.default padHash).root ∨ HCollision padHash :=
  ⟨⟨fun b => by
      simp only [padHash, List.length_take, List.length_append,
        List.length_replicate]
      omega,
    by decide, Or.inl rfl, by decide⟩,
    C2_insert_delete padHash 9 (MemoryTrieMut.default padHash) [103] [120]
      (MerkleNode.leaf [] [1])
      (fun b => by
        simp only [padHash, List.length_take, List.length_append,
          List.length_replicate]
        omega)
      (by decide) (Or.inl rfl) (by decide)⟩

/-- Four keys whose two halves carry identical (32-byte) values: the
subtrees under the first-byte selectors 1 and 2 are content-identical, so
their nodes are stored once and shared by hash. -/
def c8Map : List (Bytes × Bytes) :=
  [([1, 10], List.replicate 32 65), ([1, 11], List.replicate 32 66),
   ([2, 10], List.replicate 32 65), ([2, 11], List.replicate 32 66)]

/-- C8 counterexample: deleting the keys of the `c8Map` trie in the order
`[1,10]` then `[2,10]` does not return the root to `EMPTY_TRIE_HASH` —
the first delete stages the shared leaf's hash for removal, orphaning the
second half's reference, so the second delete fails (the `unwrap` in
`TrieMut::delete` panics) instead of progressing towards the empty
trie. -/
theorem C8_counterexample :
    ((((MemoryTrieMut.build padHash 200 c8Map).bind
        (fun t => t.delete padHash 200 [1, 10])).bind
      (fun t => t.delete padHash 200 [2, 10])).isSome = false) ∧
    ((MemoryTrieMut.build padHash 200 c8Map).bind
        (fun t => t.delete padHash 200 [1, 10])).isSome = true := by
  decide

/-- C8 (amended): the zero-entry identities hold — the default trie's root
is exactly `EMPTY_TRIE_HASH` and building from the empty map returns
`EMPTY_TRIE_HASH` with an empty change-set — and deleting the last
remaining key of a trie whose root is backed by the leaf spanning that
key returns the root to exactly `EMPTY_TRIE_HASH`. -/
theorem C8_empty_trie (H : Bytes → Bytes) (fuel : Nat) (key value : Bytes)
    (t : MemoryTrieMut)
    (hdb : t.database t.root =
      some (MerkleNode.leaf (nibble.from_key key) value).toItem) :
    (MemoryTrieMut.default H).root = EMPTY_TRIE_HASH H ∧
    MPT.build H fuel ([] : List (Bytes × Bytes)) =
      .ok (EMPTY_TRIE_HASH H, Change.empty) ∧
    ∀ (f2 : Nat) (t3 : MemoryTrieMut),
      MemoryTrieMut.delete H f2 t key = some t3 →
      t3.root = EMPTY_TRIE_HASH H := by
  refine ⟨rfl, rfl, ?_⟩
  intro f2 t3 hdel2
  unfold MemoryTrieMut.delete at hdel2
  cases hdelP : MPT.delete H f2 t.database t.root key with
  | error e =>
    rw [hdelP] at hdel2
    cases hdel2
  | ok pr =>
  rcases pr with ⟨root3, chD⟩
  rw [hdelP] at hdel2
  have ht3 := Option.some.inj hdel2
  have ht3r : t3.root = root3 := by rw [← ht3]
  unfold delete at hdelP
  by_cases hne : t.root = EMPTY_TRIE_HASH H
  · rw [if_pos hne] at hdelP
    have hp := Except.ok.inj hdelP
    simp only [Prod.mk.injEq] at hp
    rw [ht3r, ← hp.1, hne]
  · rw [if_neg hne] at hdelP
    simp only [dbGetWithError, hdb, bind, Except.bind] at hdelP
    rcases f2 with - | g
    · simp only [MerkleNode.decode] at hdelP
      cases hdelP
    cases hdecd : MerkleNode.decode (g + 1)
        (MerkleNode.leaf (nibble.from_key key) value).toItem with
    | none =>
      simp only [hdecd] at hdelP
      cases hdelP
    | some m =>
      simp only [hdecd] at hdelP
      have hm := decode_toItem_agree
        (m := MerkleNode.leaf (nibble.from_key key) value) rfl hdecd
      rw [hm] at hdelP
      have hstep : delete_by_node H (g + 1) t.database
          (.leaf (nibble.from_key key) value) (nibble.from_key key) =
            .ok (none, Change.empty) := by
        simp [delete_by_node]
      simp only [hstep] at hdelP
      have hp := Except.ok.inj hdelP
      simp only [Prod.mk.injEq] at hp
      rw [ht3r, ← hp.1]

/-- A single-leaf store for the C8 witness. -/
def c8node : MerkleNode := .leaf (nibble.from_key [103]) [9]

def c8root : Bytes := padHash c8node.encBytes

def c8db : Db := fun b => if b = c8root then some c8node.toItem else none

def c8trie : MemoryTrieMut := ⟨c8db, c8root⟩

/-- C8 witness: the empty-trie identities and the last-key deletion
instantiated at a concrete single-leaf trie. -/
theorem C8_empty_trie_witness :
    (c8trie.database c8trie.root =
      some (MerkleNode.leaf (nibble.from_key [103]) [9]).toItem) ∧
    ((MemoryTrieMut.default padHash).root = EMPTY_TRIE_HASH padHash ∧
     MPT.build padHash 7 ([] : List (Bytes × Bytes)) =
       .ok (EMPTY_TRIE_HASH padHash, Change.empty) ∧
     ∀ (f2 : Nat) (t3 : MemoryTrieMut),
       MemoryTrieMut.delete padHash f2 c8trie [103] = some t3 →
       t3.root = EMPTY_TRIE_HASH padHash) :=
  ⟨by decide, C8_empty_trie padHash 7 [103] [9] c8trie (by decide)⟩

/-- Two keys whose trie places one subtree under branch child 15 (the
first nibble of byte 255). -/
def c4bMap : List (Bytes × Bytes) := [([1], [10]), ([255], [11])]

/-- C4 code bug: the pair `([255], [11])` is stored in the trie of
`c4bMap` (a get returns it), but iterating the trie never yields it:
`MerkleIterator::next` prepares the child for branch slot 15 only after
incrementing the index to 16, and the drain arm of the loop is guarded by
`index < 16`, so the subtree under the 16th child of every branch is
silently skipped. -/
theorem C4_missing_entry :
    ((MemoryTrieMut.build padHash 200 c4bMap).bind
      (fun t => t.get padHash 200 [255])) = some (some [11]) ∧
    (MemoryTrieMut.build padHash 200 c4bMap).bind (fun t =>
      (t.database t.root).map (fun it =>
        iterAll 100 t.database (MerkleIterator.new it))) =
      some (.ok [([1], [10])]) := by decide

/-- The child reference `add_value` produces depends only on the node,
not on the accumulated change-set. -/
theorem add_value_fst_acc (c : Change) (H : Bytes → Bytes) (n : MerkleNode) :
    (c.add_value H n).1 = (Change.empty.add_value H n).1 := by
  by_cases h : n.inlinable = true
  · simp only [Change.add_value, if_pos h]
  · simp only [Change.add_value, if_neg h]

/-- The longest common prefix is symmetric. -/
theorem common_symm : ∀ a b : NibbleVec, nibble.common a b = nibble.common b a
  | [], [] => rfl
  | [], _ :: _ => rfl
  | _ :: _, [] => rfl
  | a :: as_, b :: bs => by
    simp only [nibble.common]
    by_cases hab : a = b
    · subst hab
      rw [if_pos rfl, if_pos rfl, common_symm as_ bs]
    · rw [if_neg hab, if_neg (fun h => hab h.symm)]

/-- The branch `two_leaf_branch` builds does not depend on which leaf is
presented first (their remaining paths being disjoint). -/
theorem two_leaf_branch_fst_symm {H : Bytes → Bytes} (a b : NibbleVec)
    (av bv : Bytes) (hneq : a ≠ b)
    (hne : ∀ (x : Nibble) xs (y : Nibble) ys,
      a = x :: xs → b = y :: ys → x ≠ y) :
    (two_leaf_branch H a av b bv).1 = (two_leaf_branch H b bv a av).1 := by
  rcases a with - | ⟨ah, as_⟩
  · rcases b with - | ⟨bh, bs⟩
    · exact absurd rfl hneq
    · rfl
  · rcases b with - | ⟨bh, bs⟩
    · rfl
    · have hab : ah ≠ bh := hne ah as_ bh bs rfl rfl
      have habn : (ah : Nat) ≠ (bh : Nat) := fun h => hab (Fin.ext h)
      rcases haav : Change.empty.add_value H (.leaf as_ av) with ⟨avalL, cha⟩
      rcases hbavL : cha.add_value H (.leaf bs bv) with ⟨bvalL, chbL⟩
      rcases hbav2 : Change.empty.add_value H (.leaf bs bv) with ⟨bval2, chb⟩
      rcases haav2 : chb.add_value H (.leaf as_ av) with ⟨aval2, cha2⟩
      have heqL : (two_leaf_branch H (ah :: as_) av (bh :: bs) bv).1 =
          .branch ((empty_nodes.set (ah : Nat) avalL).set (bh : Nat) bvalL)
            none := by
        simp only [two_leaf_branch, haav, hbavL]
      have heqR : (two_leaf_branch H (bh :: bs) bv (ah :: as_) av).1 =
          .branch ((empty_nodes.set (bh : Nat) bval2).set (ah : Nat) aval2)
            none := by
        simp only [two_leaf_branch, hbav2, haav2]
      rw [heqL, heqR]
      have hva : avalL = aval2 := by
        have h1 := add_value_fst_acc chb H (.leaf as_ av)
        rw [haav2, haav] at h1
        exact h1.symm
      have hvb : bvalL = bval2 := by
        have h1 := add_value_fst_acc cha H (.leaf bs bv)
        rw [hbavL, hbav2] at h1
        exact h1
      rw [hva, hvb, List.set_comm _ _ _ habn]

/-- Inserting into the empty memory trie stores exactly the spanning leaf
under its digest and adopts that digest as root. -/
theorem insert_into_empty (H : Bytes → Bytes) (f : Nat) (k v : Bytes) :
    MemoryTrieMut.insert H f (MemoryTrieMut.default H) k v =
      some ⟨dbInsert (fun _ => none)
              (H (MerkleNode.leaf (nibble.from_key k) v).encBytes)
              (MerkleNode.leaf (nibble.from_key k) v).toItem,
            H (MerkleNode.leaf (nibble.from_key k) v).encBytes⟩ := by
  have h1 : MPT.insert H f (MemoryTrieMut.default H).database
      (MemoryTrieMut.default H).root k v =
        .ok (H (MerkleNode.leaf (nibble.from_key k) v).encBytes,
          (Change.empty.merge Change.empty).add_node H
            (.leaf (nibble.from_key k) v)) := by
    unfold insert
    simp only [MemoryTrieMut.default, eq_self_iff_true, if_true, insert_by_empty,
      bind, Except.bind, pure, Except.pure]
  unfold MemoryTrieMut.insert
  rw [h1]
  rfl

/-- C1 (amended): building from the empty map and folding no inserts into
the empty trie agree (both `EMPTY_TRIE_HASH`); building from a one-pair
map and inserting that pair into the empty trie produce the same root
hash; and inserting two distinct-keyed pairs into the empty trie in
either order produces the same root hash — unless the digest function
exhibits a concrete collision. -/
theorem C1_build_insert_agree (H : Bytes → Bytes) (fuel : Nat)
    (key value key2 value2 : Bytes)
    (hne : nibble.from_key key ≠ nibble.from_key key2) :
    ((MemoryTrieMut.build H fuel ([] : List (Bytes × Bytes))).map
        (fun t => t.root) =
      (insertAll H fuel [] (some (MemoryTrieMut.default H))).map
        (fun t => t.root)) ∧
    ((MemoryTrieMut.build H (fuel + 1) [(key, value)]).map (fun t => t.root) =
      (insertAll H (fuel + 1) [(key, value)]
        (some (MemoryTrieMut.default H))).map (fun t => t.root)) ∧
    (∀ ta tb,
      insertAll H (fuel + 2) [(key, value), (key2, value2)]
        (some (MemoryTrieMut.default H)) = some ta →
      insertAll H (fuel + 2) [(key2, value2), (key, value)]
        (some (MemoryTrieMut.default H)) = some tb →
      ta.root = tb.root ∨ HCollision H) := by
  refine ⟨rfl, ?_, ?_⟩
  · simp [MemoryTrieMut.build, build, build_node, insertAll, MemoryTrieMut.insert,
      insert, insert_by_empty, MemoryTrieMut.default, bind, Except.bind, pure,
      Except.pure]
  intro ta tb hrun1 hrun2
  by_cases hc1 : H (MerkleNode.leaf (nibble.from_key key) value).encBytes =
      EMPTY_TRIE_HASH H
  · obtain ⟨x, xs, hxs⟩ := MerkleNode.toItem_cons
      (MerkleNode.leaf (nibble.from_key key) value)
    refine Or.inr ⟨(MerkleNode.leaf (nibble.from_key key) value).toItem,
      .str [], ?_, hc1⟩
    rw [hxs]
    intro hcontra
    cases hcontra
  by_cases hc2 : H (MerkleNode.leaf (nibble.from_key key2) value2).encBytes =
      EMPTY_TRIE_HASH H
  · obtain ⟨x, xs, hxs⟩ := MerkleNode.toItem_cons
      (MerkleNode.leaf (nibble.from_key key2) value2)
    refine Or.inr ⟨(MerkleNode.leaf (nibble.from_key key2) value2).toItem,
      .str [], ?_, hc2⟩
    rw [hxs]
    intro hcontra
    cases hcontra
  simp only [insertAll, List.foldl_cons, List.foldl_nil, Option.some_bind]
    at hrun1 hrun2
  rw [insert_into_empty] at hrun1 hrun2
  simp only [Option.some_bind] at hrun1 hrun2
  have hdb1 : (dbInsert (fun _ => none)
      (H (MerkleNode.leaf (nibble.from_key key) value).encBytes)
      (MerkleNode.leaf (nibble.from_key key) value).toItem)
      (H (MerkleNode.leaf (nibble.from_key key) value).encBytes) =
      some (MerkleNode.leaf (nibble.from_key key) value).toItem := by
    simp [dbInsert]
  have hdb2 : (dbInsert (fun _ => none)
      (H (MerkleNode.leaf (nibble.from_key key2) value2).encBytes)
      (MerkleNode.leaf (nibble.from_key key2) value2).toItem)
      (H (MerkleNode.leaf (nibble.from_key key2) value2).encBytes) =
      some (MerkleNode.leaf (nibble.from_key key2) value2).toItem := by
    simp [dbInsert]
  have hdec1 : MerkleNode.decode (fuel + 2)
      (MerkleNode.leaf (nibble.from_key key) value).toItem =
      some (MerkleNode.leaf (nibble.from_key key) value) :=
    MerkleNode.decode_toItem _ _ rfl (by simp only [MerkleNode.fbound]; omega)
  have hdec2 : MerkleNode.decode (fuel + 2)
      (MerkleNode.leaf (nibble.from_key key2) value2).toItem =
      some (MerkleNode.leaf (nibble.from_key key2) value2) :=
    MerkleNode.decode_toItem _ _ rfl (by simp only [MerkleNode.fbound]; omega)
  have hcs := common_symm (nibble.from_key key) (nibble.from_key key2)
  have hneq12 : (nibble.from_key key).drop
      (nibble.common (nibble.from_key key2) (nibble.from_key key)).length ≠
      (nibble.from_key key2).drop
      (nibble.common (nibble.from_key key2) (nibble.from_key key)).length := by
    intro he
    apply hne
    calc nibble.from_key key
        = nibble.common (nibble.from_key key2) (nibble.from_key key) ++
          (nibble.from_key key).drop
            (nibble.common (nibble.from_key key2) (nibble.from_key key)).length :=
          (common_spec (nibble.from_key key2) (nibble.from_key key)).2.1
      _ = nibble.common (nibble.from_key key2) (nibble.from_key key) ++
          (nibble.from_key key2).drop
            (nibble.common (nibble.from_key key2) (nibble.from_key key)).length := by
          rw [he]
      _ = nibble.from_key key2 :=
          ((common_spec (nibble.from_key key2) (nibble.from_key key)).1).symm
  have hne12 : ∀ (x : Nibble) xs (y : Nibble) ys,
      (nibble.from_key key).drop
        (nibble.common (nibble.from_key key2) (nibble.from_key key)).length =
          x :: xs →
      (nibble.from_key key2).drop
        (nibble.common (nibble.from_key key2) (nibble.from_key key)).length =
          y :: ys →
      x ≠ y :=
    fun x xs y ys hx hy =>
      ((common_spec (nibble.from_key key2) (nibble.from_key key)).2.2
        y ys x xs hy hx).symm
  rcases htlb12 : two_leaf_branch H
      ((nibble.from_key key).drop
        (nibble.common (nibble.from_key key2) (nibble.from_key key)).length)
      value
      ((nibble.from_key key2).drop
        (nibble.common (nibble.from_key key2) (nibble.from_key key)).length)
      value2 with ⟨br12, sc12⟩
  rcases htlb21 : two_leaf_branch H
      ((nibble.from_key key2).drop
        (nibble.common (nibble.from_key key2) (nibble.from_key key)).length)
      value2
      ((nibble.from_key key).drop
        (nibble.common (nibble.from_key key2) (nibble.from_key key)).length)
      value with ⟨br21, sc21⟩
  have hbr : br12 = br21 := by
    have h0 := two_leaf_branch_fst_symm (H := H)
      ((nibble.from_key key).drop
        (nibble.common (nibble.from_key key2) (nibble.from_key key)).length)
      ((nibble.from_key key2).drop
        (nibble.common (nibble.from_key key2) (nibble.from_key key)).length)
      value value2 hneq12 hne12
    rw [htlb12, htlb21] at h0
    exact h0
  by_cases hcom :
      (nibble.common (nibble.from_key key2) (nibble.from_key key)).length > 0
  · rcases hav12 : (Change.empty.merge sc12).add_value H br12 with ⟨v12, chw12⟩
    rcases hav21 : (Change.empty.merge sc21).add_value H br21 with ⟨v21, chw21⟩
    have hv : v12 = v21 := by
      have h1 := add_value_fst_acc (Change.empty.merge sc12) H br12
      have h2 := add_value_fst_acc (Change.empty.merge sc21) H br21
      rw [hav12] at h1
      rw [hav21] at h2
      simp only at h1 h2
      rw [h1, h2, hbr]
    have hstep1 : MPT.insert H (fuel + 2)
        (dbInsert (fun _ => none)
          (H (MerkleNode.leaf (nibble.from_key key) value).encBytes)
          (MerkleNode.leaf (nibble.from_key key) value).toItem)
        (H (MerkleNode.leaf (nibble.from_key key) value).encBytes)
        key2 value2 =
        .ok (H (MerkleNode.ext
            (nibble.common (nibble.from_key key2) (nibble.from_key key))
            v12).encBytes,
          ((Change.empty.remove_raw
            (H (MerkleNode.leaf (nibble.from_key key) value).encBytes)).merge
              chw12).add_node H (.ext
            (nibble.common (nibble.from_key key2) (nibble.from_key key))
            v12)) := by
      unfold insert
      rw [if_neg hc1]
      simp only [dbGetWithError, hdb1, bind, Except.bind, hdec1, insert_by_node]
      rw [if_neg hne]
      simp only [MPT.nibble.common_with_sub, htlb12]
      rw [if_pos hcom]
      simp only [hav12, pure, Except.pure]
    have hstep2 : MPT.insert H (fuel + 2)
        (dbInsert (fun _ => none)
          (H (MerkleNode.leaf (nibble.from_key key2) value2).encBytes)
          (MerkleNode.leaf (nibble.from_key key2) value2).toItem)
        (H (MerkleNode.leaf (nibble.from_key key2) value2).encBytes)
        key value =
        .ok (H (MerkleNode.ext
            (nibble.common (nibble.from_key key2) (nibble.from_key key))
            v21).encBytes,
          ((Change.empty.remove_raw
            (H (MerkleNode.leaf (nibble.from_key key2) value2).encBytes)).merge
              chw21).add_node H (.ext
            (nibble.common (nibble.from_key key2) (nibble.from_key key))
            v21)) := by
      unfold insert
      rw [if_neg hc2]
      simp only [dbGetWithError, hdb2, bind, Except.bind, hdec2, insert_by_node]
      rw [if_neg (fun h => hne h.symm)]
      simp only [MPT.nibble.common_with_sub, hcs, htlb21]
      rw [if_pos hcom]
      simp only [hav21, pure, Except.pure]
    simp only [MemoryTrieMut.insert, hstep1] at hrun1
    simp only [MemoryTrieMut.insert, hstep2] at hrun2
    have h1 : ta.root = H (MerkleNode.ext
        (nibble.common (nibble.from_key key2) (nibble.from_key key))
        v12).encBytes := by
      rw [← Option.some.inj hrun1]
    have h2 : tb.root = H (MerkleNode.ext
        (nibble.common (nibble.from_key key2) (nibble.from_key key))
        v21).encBytes := by
      rw [← Option.some.inj hrun2]
    refine Or.inl ?_
    rw [h1, h2, hv]
  · have hstep1 : MPT.insert H (fuel + 2)
        (dbInsert (fun _ => none)
          (H (MerkleNode.leaf (nibble.from_key key) value).encBytes)
          (MerkleNode.leaf (nibble.from_key key) value).toItem)
        (H (MerkleNode.leaf (nibble.from_key key) value).encBytes)
        key2 value2 =
        .ok (H br12.encBytes,
          ((Change.empty.remove_raw
            (H (MerkleNode.leaf (nibble.from_key key) value).encBytes)).merge
              (Change.empty.merge sc12)).add_node H br12) := by
      unfold insert
      rw [if_neg hc1]
      simp only [dbGetWithError, hdb1, bind, Except.bind, hdec1, insert_by_node]
      rw [if_neg hne]
      simp only [MPT.nibble.common_with_sub, htlb12]
      rw [if_neg hcom]
      simp only [pure, Except.pure]
    have hstep2 : MPT.insert H (fuel + 2)
        (dbInsert (fun _ => none)
          (H (MerkleNode.leaf (nibble.from_key key2) value2).encBytes)
          (MerkleNode.leaf (nibble.from_key key2) value2).toItem)
        (H (MerkleNode.leaf (nibble.from_key key2) value2).encBytes)
        key value =
        .ok (H br21.encBytes,
          ((Change.empty.remove_raw
            (H (MerkleNode.leaf (nibble.from_key key2) value2).encBytes)).merge
              (Change.empty.merge sc21)).add_node H br21) := by
      unfold insert
      rw [if_neg hc2]
      simp only [dbGetWithError, hdb2, bind, Except.bind, hdec2, insert_by_node]
      rw [if_neg (fun h => hne h.symm)]
      simp only [MPT.nibble.common_with_sub, hcs, htlb21]
      rw [if_neg hcom]
      simp only [pure, Except.pure]
    simp only [MemoryTrieMut.insert, hstep1] at hrun1
    simp only [MemoryTrieMut.insert, hstep2] at hrun2
    have h1 : ta.root = H br12.encBytes := by
      rw [← Option.some.inj hrun1]
    have h2 : tb.root = H br21.encBytes := by
      rw [← Option.some.inj hrun2]
    refine Or.inl ?_
    rw [h1, h2, hbr]

/-- C1 witness: the amended agreements instantiated at concrete keys. -/
theorem C1_build_insert_agree_witness :
    (nibble.from_key [1] ≠ nibble.from_key [2]) ∧
    (((MemoryTrieMut.build padHash 7 ([] : List (Bytes × Bytes))).map
        (fun t => t.root) =
      (insertAll padHash 7 [] (some (MemoryTrieMut.default padHash))).map
        (fun t => t.root)) ∧
    ((MemoryTrieMut.build padHash 8 [([1], [10])]).map (fun t => t.root) =
      (insertAll padHash 8 [([1], [10])]
        (some (MemoryTrieMut.default padHash))).map (fun t => t.root)) ∧
    (∀ ta tb,
      insertAll padHash 9 [([1], [10]), ([2], [11])]
        (some (MemoryTrieMut.default padHash)) = some ta →
      insertAll padHash 9 [([2], [11]), ([1], [10])]
        (some (MemoryTrieMut.default padHash)) = some tb →
      ta.root = tb.root ∨ HCollision padHash)) :=
  ⟨by decide, C1_build_insert_agree padHash 7 [1] [10] [2] [11] (by decide)⟩

end MPT
